import Mathlib

/-!
TREANT: the robust split optimizer.

A shallow embedding of `src/src/SplitOptimizer.cpp` (and, further down, of the
other translation units of the repository) together with theorems about it.

Modelling conventions

* `double` values (`feature_t`, `label_t`, `prediction_t`, `cost_t`, `gain_t`,
  `split_value_t`) are rationals and their operations are exact, so that the theorems
  on sums are about exact arithmetic. The rounding of `double` is the function
  `Binary64.round`; the objective and the loss with every operation rounded are
  `sseCostFunction.fDouble` and `evaluateSplitDouble`, and the theorems named
  `double_...` show where the rounding departs from exact arithmetic.
* `std::vector<T>` is `List T`; `v[i]` is `vecAt v i` (an out-of-range read is
  undefined behaviour in the source, the model reads `0`).
* `std::unordered_map<index_t, cost_t>` is an association list; `m.at(k)` is
  `mapAt m k` (throws when the key is absent) and `m[k] = v` is `mapAssign m k v`.
* A C++ exception is the `Except.error` branch of `Except Error`.
* `Dataset`, `Attacker` and `Constraint` are declared in headers that are not part
  of the sources at hand: the member functions used by `SplitOptimizer.cpp` are
  fields of a structure (respectively parameters), so every theorem holds for all
  implementations of them.
* The constructor of `Dataset` (`src/src/Dataset.cpp`) is in the namespace
  `DatasetCpp`: a file is the string of its content, `std::getline` is `getlineAll`,
  and `std::stoi` and `std::stod` are the fields of `StdLib`.
* The tree nodes (`include/nodes/BinIntNode.h`) are in the namespace `Nodes`, where
  `feature_t` is the variant that a record of the nodes holds; `int_feature_t` is a
  signed integer of 32 bits and `std::size_t` an unsigned integer of 64 bits.
* The option parser of `main` (`main.cpp`) is in the namespace `Main`; the results of
  `getopt` on the command line are the list `getoptAll`.
-/

namespace TREANT

abbrev index_t := Nat
abbrev feature_t := ℚ
abbrev label_t := ℚ
abbrev prediction_t := ℚ
abbrev cost_t := ℚ
abbrev gain_t := ℚ
abbrev split_value_t := ℚ
abbrev indexes_t := List index_t
abbrev record_t := List feature_t

/-- The exceptions thrown by the embedded code. -/
inductive Error where
  /-- `std::out_of_range` thrown by `unordered_map::at` -/
  | outOfRange
  /-- "ERROR in simulateSplit: all outputs must be empty at the beginning" -/
  | outputsNotEmpty
  /-- "Gradient must have size = 2" -/
  | gradientSize
  /-- "Unexpected direction in SplitOptimizer::constraintFunction" -/
  | unexpectedDirection
  /-- "Invalid number of threads" -/
  | invalidThreads
  /-- `std::future::get` on a future without shared state (`std::future_error`) -/
  | noState
  /-- "left and right constraints must be empty at the beginning" -/
  | constraintsNotEmpty
  /-- "left and right costs must be empty at the beginning" -/
  | costsNotEmpty
  /-- "Cannot determine a valid cost for the right" -/
  | noRightCost
  /-- dereferencing `begin()` of an empty vector, or `attacks[0]` of an empty one -/
  | emptyVector
  /-- a failed `assert` -/
  | assertionFailed
  deriving DecidableEq, Repr

deriving instance DecidableEq for Except

/-- The operator `v[i]` of a `std::vector<double>`. -/
def vecAt (v : List ℚ) (i : index_t) : ℚ := v.getD i 0

abbrev cost_map := List (index_t × cost_t)

/-- The member `m.at(k)`: throws `std::out_of_range` when `k` is not a key. -/
def mapAt (m : cost_map) (k : index_t) : Except Error cost_t :=
  match m.lookup k with
  | some c => .ok c
  | none => .error .outOfRange

/-- The assignment `m[k] = v`: overwrites the entry of `k`, or inserts one. -/
def mapAssign : cost_map → index_t → cost_t → cost_map
  | [], k, v => [(k, v)]
  | (k0, v0) :: m, k, v => if k0 = k then (k0, v) :: m else (k0, v0) :: mapAssign m k v

/-- The members of `Dataset` used by the split optimizer. -/
structure Dataset where
  getRecord : index_t → record_t
  isFeatureNumerical : index_t → Bool
  getFeatureColumn : index_t → List feature_t
  getLabels : List label_t

/-- The member of `Attacker` used by the split optimizer: `attack(record, feature, cost)`
returns the perturbed records, each with its cost. -/
structure Attacker where
  attack : record_t → index_t → cost_t → List (record_t × cost_t)

/-- Body of the loop `for (const auto &atk : attacks)` of `simulateSplit`, with its
early `break`; the state is `(allLeft, allRight)`. -/
def attackLoop (isNumerical : Bool) (splittingFeature : index_t) (splittingValue : feature_t) :
    List (record_t × cost_t) → Bool → Bool → Bool × Bool
  | [], allLeft, allRight => (allLeft, allRight)
  | atk :: rest, allLeft, allRight =>
    let s : Bool × Bool :=
      if isNumerical then
        if vecAt atk.1 splittingFeature ≤ splittingValue then (allLeft, false)
        else (false, allRight)
      else
        if vecAt atk.1 splittingFeature = splittingValue then (allLeft, false)
        else (false, allRight)
    if !s.1 && !s.2 then s
    else attackLoop isNumerical splittingFeature splittingValue rest s.1 s.2

/-- The loop `for (const auto &i : validInstances)` of `simulateSplit`; the state is
`(leftSplit, rightSplit, unknownSplit)`. -/
def simulateSplitLoop (dataset : Dataset) (attacker : Attacker) (costs : cost_map)
    (splittingValue : feature_t) (splittingFeature : index_t) (isNumerical : Bool) :
    List index_t → indexes_t × indexes_t × indexes_t →
      Except Error (indexes_t × indexes_t × indexes_t)
  | [], acc => .ok acc
  | i :: rest, (leftSplit, rightSplit, unknownSplit) =>
    match mapAt costs i with
    | .error e => .error e
    | .ok cost =>
      let attacks := attacker.attack (dataset.getRecord i) splittingFeature cost
      let s := attackLoop isNumerical splittingFeature splittingValue attacks true true
      if s.1 then
        simulateSplitLoop dataset attacker costs splittingValue splittingFeature isNumerical rest
          (leftSplit ++ [i], rightSplit, unknownSplit)
      else if s.2 then
        simulateSplitLoop dataset attacker costs splittingValue splittingFeature isNumerical rest
          (leftSplit, rightSplit ++ [i], unknownSplit)
      else
        simulateSplitLoop dataset attacker costs splittingValue splittingFeature isNumerical rest
          (leftSplit, rightSplit, unknownSplit ++ [i])

/-- `SplitOptimizer::simulateSplit`. -/
def simulateSplit (dataset : Dataset) (validInstances : indexes_t) (attacker : Attacker)
    (costs : cost_map) (splittingValue : feature_t) (splittingFeature : index_t) :
    Except Error (indexes_t × indexes_t × indexes_t) :=
  let leftSplit : indexes_t := []
  let rightSplit : indexes_t := []
  let unknownSplit : indexes_t := []
  if !(leftSplit.isEmpty && rightSplit.isEmpty && unknownSplit.isEmpty) then
    .error .outputsNotEmpty
  else
    let isNumerical := dataset.isFeatureNumerical splittingFeature
    simulateSplitLoop dataset attacker costs splittingValue splittingFeature isNumerical
      validInstances (leftSplit, rightSplit, unknownSplit)

/-! ## The objective and the constraints of the optimizer -/

/-- `SplitOptimizer::ExtraData`. -/
structure ExtraData where
  y_ : List label_t
  leftIndexes_ : indexes_t
  rightIndexes_ : indexes_t
  unknownIndexes_ : indexes_t
  count_ : Nat

/-- The lambda `f` of `sseCostFunction` (the SSE under maximal attack), in exact arithmetic:
the operations of `double` are taken without rounding. `sseCostFunction.fDouble` is the same
lambda with every operation rounded. -/
def sseCostFunction.f (y : List prediction_t) (leftIndexes rightIndexes unknownIndexes : indexes_t)
    (leftRight : List ℚ) : ℚ :=
  let left := vecAt leftRight 0
  let right := vecAt leftRight 1
  let ret : ℚ := 0
  let ret := leftIndexes.foldl (fun ret leftIndex =>
    let diff := vecAt y leftIndex - left
    ret + diff * diff) ret
  let ret := rightIndexes.foldl (fun ret rightIndex =>
    let diff := vecAt y rightIndex - right
    ret + diff * diff) ret
  let ret := unknownIndexes.foldl (fun ret unknownIndex =>
    let diffL := vecAt y unknownIndex - left
    let diffR := vecAt y unknownIndex - right
    let diffLsquared := diffL * diffL
    let diffRsquared := diffR * diffR
    let max := if diffLsquared > diffRsquared then diffLsquared else diffRsquared
    ret + max) ret
  ret

/-- The constant `eps = 1.4901161193847656e-08` of `approxJacobian`, which is `2^-26`. -/
def sseCostFunction.eps : ℚ := 1 / 2 ^ 26

/-- The lambda `approxJacobian` of `sseCostFunction`. -/
def sseCostFunction.approxJacobian (y : List prediction_t)
    (leftIndexes rightIndexes unknownIndexes : indexes_t) (x0 : List ℚ) (f0 : ℚ) :
    Except Error (List ℚ) :=
  if x0.length ≠ 2 then .error .gradientSize
  else
    let jac : List ℚ := [0, 0]
    let xIncr : List ℚ := x0
    .ok ((List.range x0.length).foldl (fun (st : List ℚ × List ℚ) i =>
      let xIncr := st.2.set i (vecAt st.2 i + sseCostFunction.eps)
      let f_xIncr := sseCostFunction.f y leftIndexes rightIndexes unknownIndexes xIncr
      let jac := st.1.set i ((f_xIncr - f0) / sseCostFunction.eps)
      let xIncr := xIncr.set i (vecAt x0 i)
      (jac, xIncr)) (jac, xIncr)).1

/-- `SplitOptimizer::sseCostFunction`: returns the value, the gradient vector `grad` and
the extra data after the call. -/
def sseCostFunction (x : List ℚ) (grad : List ℚ) (d : ExtraData) :
    Except Error (ℚ × List ℚ × ExtraData) :=
  let d : ExtraData := { d with count_ := d.count_ + 1 }
  let fx := sseCostFunction.f d.y_ d.leftIndexes_ d.rightIndexes_ d.unknownIndexes_ x
  if !grad.isEmpty then
    match sseCostFunction.approxJacobian d.y_ d.leftIndexes_ d.rightIndexes_
        d.unknownIndexes_ x fx with
    | .error e => .error e
    | .ok jac => .ok (fx, (grad.set 0 (vecAt jac 0)).set 1 (vecAt jac 1), d)
  else .ok (fx, grad, d)

/-- The data members of `Constraint`: the constrained instance, its label, its residual
cost, the inequality flag, the bound and the direction. -/
structure Constraint where
  x : record_t
  y : label_t
  cost : cost_t
  inequality : Bool
  bound : prediction_t
  direction : Char
  deriving DecidableEq

/-- `Constraint::setDirection`. -/
def Constraint.setDirection (c : Constraint) (direction : Char) : Constraint :=
  { c with direction := direction }

/-- `SplitOptimizer::constraintFunction`: returns the value and the gradient vector. -/
def constraintFunction (x : List ℚ) (grad : List ℚ) (d : Constraint) :
    Except Error (ℚ × List ℚ) :=
  let direction := d.direction
  let y := d.y
  let inequality := d.inequality
  let bound := d.bound
  let boundMinusYSquared := (bound - y) * (bound - y)
  let x0minusY := vecAt x 0 - y
  let x1minusY := vecAt x 1 - y
  let x0minusYSquared := x0minusY * x0minusY
  let x1minusYSquared := x1minusY * x1minusY
  let gradAfter : Except Error (List ℚ) :=
    if !grad.isEmpty then
      if direction = 'L' then
        .ok ((grad.set 0 (if !inequality then 2 * x0minusY else -2 * x0minusY)).set 1 0)
      else if direction = 'R' then
        .ok ((grad.set 0 0).set 1 (if !inequality then 2 * x1minusY else -2 * x1minusY))
      else if direction = 'U' then
        if !inequality then
          if x0minusYSquared < x1minusYSquared then .ok ((grad.set 0 x0minusY).set 1 0)
          else .ok ((grad.set 0 0).set 1 x1minusY)
        else
          if x0minusYSquared < x1minusYSquared then .ok ((grad.set 0 0).set 1 x1minusY)
          else .ok ((grad.set 0 x0minusY).set 1 0)
      else .error .unexpectedDirection
    else .ok grad
  match gradAfter with
  | .error e => .error e
  | .ok grad =>
    if direction = 'L' then
      .ok (if !inequality then x0minusYSquared - boundMinusYSquared
           else -x0minusYSquared + boundMinusYSquared, grad)
    else if direction = 'R' then
      .ok (if !inequality then x1minusYSquared - boundMinusYSquared
           else -x1minusYSquared + boundMinusYSquared, grad)
    else if direction = 'U' then
      if !inequality then
        let diff := if x0minusYSquared < x1minusYSquared then x0minusYSquared
          else x1minusYSquared
        .ok (diff - boundMinusYSquared, grad)
      else
        let diff := if x0minusYSquared < x1minusYSquared then x1minusYSquared
          else x0minusYSquared
        .ok (diff - boundMinusYSquared, grad)
    else .error .unexpectedDirection

/-- The factor `sign(q)` of the constraint formulae: `+1` for `q = false`, `-1` for
`q = true`. -/
def signOf (q : Bool) : ℚ := if q then -1 else 1

/-! ## The optimizer of the leaf predictions -/

/-- The value `nlopt::result::SUCCESS` of the nlopt library; the failure codes are
negative. -/
def nlopt_SUCCESS : Int := 1

/-- The call `opt.optimize(x, f)` of the nlopt library, as an abstract deterministic
function of the data of the objective, of the constraints and of the initial point: `none`
when it throws, else the result code, the final point `x` and the final value `f`. -/
abbrev Solver := ExtraData → List Constraint → List ℚ → Option (Int × List ℚ × ℚ)

/-- What `SplitOptimizer::optimizeGain` uses and is not part of the sources at hand: the
nlopt solver, the direction given to a `Constraint` by its five-argument constructor, and
the members `propagateLeft` and `propagateRight` of `Constraint`. -/
structure Env where
  nlopt : Solver
  defaultDirection : Char
  propagateLeft : Constraint → Attacker → index_t → split_value_t → Bool → Option Constraint
  propagateRight : Constraint → Attacker → index_t → split_value_t → Bool → Option Constraint

/-- `SplitOptimizer::optimizeSSE`: returns the boolean result and the in/out arguments
`yHatLeft`, `yHatRight`, `sse` after the call. -/
def optimizeSSE (nlopt : Solver) (y : List label_t)
    (leftSplit rightSplit unknownSplit : indexes_t) (constraints : List Constraint)
    (yHatLeft yHatRight : label_t) (sse : gain_t) : Bool × label_t × label_t × gain_t :=
  let extraData : ExtraData := ⟨y, leftSplit, rightSplit, unknownSplit, 0⟩
  let x : List feature_t := [yHatLeft, yHatRight]
  match nlopt extraData constraints x with
  | some (result, x, f) =>
    if result < nlopt_SUCCESS then (false, yHatLeft, yHatRight, sse)
    else (true, vecAt x 0, vecAt x 1, f)
  | none => (false, yHatLeft, yHatRight, sse)

/-- The struct `OptimizeOutput`. -/
structure OptimizeOutput where
  bestGain : gain_t
  bestSplitFeatureId : index_t
  bestSplitValue : split_value_t
  bestNextSplitValue : split_value_t
  bestPredLeft : prediction_t
  bestPredRight : prediction_t
  bestSSEuma : ℚ
  deriving DecidableEq

/-- Insertion of a value in a `std::set<feature_t>` (ascending, without duplicates). -/
def setInsert (a : feature_t) : List feature_t → List feature_t
  | [] => [a]
  | b :: bs => if a < b then a :: b :: bs else if a = b then b :: bs else b :: setInsert a bs

/-- The set `uniqueFeatureValues(currentColumn.begin(), currentColumn.end())`, as the
list of its elements in iteration order. -/
def uniqueFeatureValues (currentColumn : List feature_t) : List feature_t :=
  currentColumn.foldl (fun s a => setInsert a s) []

/-- The loop `for (const auto &c : constraints)` of `optimizeOnSubset` that builds
`updatedConstraints`. -/
def optimizeOnSubset.updatedConstraints (env : Env) (attacker : Attacker)
    (constraints : List Constraint) (splittingFeature : index_t) (splittingValue : feature_t)
    (isNumerical : Bool) : List Constraint :=
  constraints.foldl (fun updatedConstraints c =>
    let cLeft := env.propagateLeft c attacker splittingFeature splittingValue isNumerical
    let cRight := env.propagateRight c attacker splittingFeature splittingValue isNumerical
    if cLeft.isSome && cRight.isSome then updatedConstraints ++ [c.setDirection 'U']
    else if cLeft.isSome then updatedConstraints ++ [c.setDirection 'L']
    else if cRight.isSome then updatedConstraints ++ [c.setDirection 'R']
    else updatedConstraints) []

/-- The part of the body of the loop over the feature values of `optimizeOnSubset` that
simulates the split, propagates the constraints and calls `optimizeSSE`: returns
`(optSuccess, yHatLeft, yHatRight, sse)`. -/
def optimizeOnSubset.trySplit (env : Env) (dataset : Dataset) (costs : cost_map)
    (attacker : Attacker) (validInstances : indexes_t) (constraints : List Constraint)
    (currentPredictionScore : ℚ) (splittingFeature : index_t) (splittingValue : feature_t) :
    Except Error (Bool × feature_t × feature_t × feature_t) :=
  let isNumerical := dataset.isFeatureNumerical splittingFeature
  match simulateSplit dataset validInstances attacker costs splittingValue splittingFeature with
  | .error e => .error e
  | .ok (leftSplit, rightSplit, unknownSplit) =>
    let updatedConstraints := optimizeOnSubset.updatedConstraints env attacker constraints
      splittingFeature splittingValue isNumerical
    let yHatLeft : feature_t := currentPredictionScore
    let yHatRight : feature_t := currentPredictionScore
    let sse : feature_t := 0
    .ok (optimizeSSE env.nlopt dataset.getLabels leftSplit rightSplit unknownSplit
      updatedConstraints yHatLeft yHatRight sse)

/-- The loop over the iterator `it` of `uniqueFeatureValues` in `optimizeOnSubset`; the
argument list is the part of the set from `it` on. -/
def optimizeOnSubset.valueLoop (env : Env) (dataset : Dataset) (costs : cost_map)
    (attacker : Attacker) (validInstances : indexes_t) (constraints : List Constraint)
    (currentScore currentPredictionScore : ℚ) (splittingFeature : index_t) :
    List feature_t → OptimizeOutput → Except Error OptimizeOutput
  | [], ret => .ok ret
  | splittingValue :: rest, ret =>
    match optimizeOnSubset.trySplit env dataset costs attacker validInstances constraints
        currentPredictionScore splittingFeature splittingValue with
    | .error e => .error e
    | .ok (optSuccess, yHatLeft, yHatRight, sse) =>
      let ret : OptimizeOutput :=
        if optSuccess then
          let currGain := currentScore - sse
          if currGain > ret.bestGain then
            { bestGain := currGain
              bestSplitFeatureId := splittingFeature
              bestSplitValue := splittingValue
              bestNextSplitValue :=
                match rest with
                | [] => splittingValue
                | next :: _ => next
              bestPredLeft := yHatLeft
              bestPredRight := yHatRight
              bestSSEuma := sse }
          else ret
        else ret
      optimizeOnSubset.valueLoop env dataset costs attacker validInstances constraints
        currentScore currentPredictionScore splittingFeature rest ret

/-- The loop `for (const auto &splittingFeature : validFeaturesSubset)` of
`optimizeOnSubset`. -/
def optimizeOnSubset.featureLoop (env : Env) (dataset : Dataset) (costs : cost_map)
    (attacker : Attacker) (validInstances : indexes_t) (constraints : List Constraint)
    (currentScore currentPredictionScore : ℚ) :
    List index_t → OptimizeOutput → Except Error OptimizeOutput
  | [], ret => .ok ret
  | splittingFeature :: rest, ret =>
    let currentColumn := dataset.getFeatureColumn splittingFeature
    match optimizeOnSubset.valueLoop env dataset costs attacker validInstances constraints
        currentScore currentPredictionScore splittingFeature
        (uniqueFeatureValues currentColumn) ret with
    | .error e => .error e
    | .ok ret =>
      optimizeOnSubset.featureLoop env dataset costs attacker validInstances constraints
        currentScore currentPredictionScore rest ret

/-- The lambda `optimizeOnSubset` of `optimizeGain`. Dereferencing `begin()` of an empty
`validFeaturesSubset` is undefined behaviour in the source: the model raises
`emptyVector`. -/
def optimizeOnSubset (env : Env) (dataset : Dataset) (costs : cost_map) (attacker : Attacker)
    (validFeaturesSubset : indexes_t) (validInstances : indexes_t)
    (constraints : List Constraint) (currentScore currentPredictionScore : ℚ) :
    Except Error OptimizeOutput :=
  match validFeaturesSubset with
  | [] => .error .emptyVector
  | first :: _ =>
    let ret : OptimizeOutput :=
      { bestGain := -1
        bestSplitFeatureId := first
        bestSplitValue := 0
        bestNextSplitValue := 0
        bestPredLeft := 0
        bestPredRight := 0
        bestSSEuma := 0 }
    optimizeOnSubset.featureLoop env dataset costs attacker validInstances constraints
      currentScore currentPredictionScore validFeaturesSubset ret

/-- The lambda of `optimizeGain` that splits the features in `batches`. -/
def optimizeGain.batches (numThreads : Nat) (validFeatures : indexes_t) :
    Except Error (List (List index_t)) :=
  if numThreads = 0 then .error .invalidThreads
  else if numThreads = 1 then .ok [validFeatures]
  else if numThreads < validFeatures.length then
    let chunkSize := validFeatures.length / numThreads
    .ok ((List.range numThreads).map (fun i =>
      let start := validFeatures.drop (chunkSize * i)
      if i = numThreads - 1 then start else start.take chunkSize))
  else .ok (validFeatures.map (fun f => [f]))

/-! ## The search of the best split -/

/-- The in/out parameters of `SplitOptimizer::optimizeGain`. -/
structure GainOutputs where
  bestGain : gain_t
  bestSplitLeft : indexes_t
  bestSplitRight : indexes_t
  bestSplitFeatureId : index_t
  bestSplitValue : split_value_t
  bestNextSplitValue : split_value_t
  bestPredLeft : prediction_t
  bestPredRight : prediction_t
  bestSSEuma : ℚ
  constraintsLeft : List Constraint
  constraintsRight : List Constraint
  costsLeft : cost_map
  costsRight : cost_map

/-- The loop `for (auto& fut : batchResults)` of `optimizeGain`. A future is `none` when
no `std::async` call was assigned to it (`get` then fails), else it holds the result of its
call or the exception thrown by it. -/
def optimizeGain.reduction :
    List (Option (Except Error OptimizeOutput)) → GainOutputs → Except Error GainOutputs
  | [], out => .ok out
  | fut :: rest, out =>
    match fut with
    | none => .error .noState
    | some (.error e) => .error e
    | some (.ok result) =>
      let out : GainOutputs :=
        if result.bestGain > out.bestGain then
          { out with
            bestGain := result.bestGain
            bestSplitFeatureId := result.bestSplitFeatureId
            bestSplitValue := result.bestSplitValue
            bestNextSplitValue := result.bestNextSplitValue
            bestPredLeft := result.bestPredLeft
            bestPredRight := result.bestPredRight
            bestSSEuma := result.bestSSEuma }
        else out
      optimizeGain.reduction rest out

/-- The loop `for (const auto &c : constraints)` of `optimizeGain` that propagates the
inherited constraints to the two children; the state is
`(constraintsLeft, constraintsRight)`. -/
def optimizeGain.propagate (env : Env) (attacker : Attacker) (constraints : List Constraint)
    (bestSplitFeatureId : index_t) (bestSplitValue : split_value_t) (isNumerical : Bool)
    (constraintsLeft constraintsRight : List Constraint) : List Constraint × List Constraint :=
  constraints.foldl (fun (st : List Constraint × List Constraint) c =>
    let constraintsLeft :=
      match env.propagateLeft c attacker bestSplitFeatureId bestSplitValue isNumerical with
      | some cLeft => st.1 ++ [cLeft]
      | none => st.1
    let constraintsRight :=
      match env.propagateRight c attacker bestSplitFeatureId bestSplitValue isNumerical with
      | some cRight => st.2 ++ [cRight]
      | none => st.2
    (constraintsLeft, constraintsRight)) (constraintsLeft, constraintsRight)

/-- The lambda of `optimizeGain` that computes `costMinRight`; `std::sort` is an insertion
sort. -/
def optimizeGain.costMinRight (dataset : Dataset) (attacks : List (record_t × cost_t))
    (bestSplitFeatureId : index_t) (bestSplitValue : split_value_t) : Except Error cost_t :=
  let costsOnRight : List cost_t := attacks.foldl (fun costsOnRight atk =>
    if dataset.isFeatureNumerical bestSplitFeatureId then
      if vecAt atk.1 bestSplitFeatureId > bestSplitValue then costsOnRight ++ [atk.2]
      else costsOnRight
    else
      if vecAt atk.1 bestSplitFeatureId ≠ bestSplitValue then costsOnRight ++ [atk.2]
      else costsOnRight) []
  if costsOnRight.isEmpty then .error .noRightCost
  else
    match costsOnRight.insertionSort (fun a b => a ≤ b) with
    | [] => .error .emptyVector
    | first :: _ => .ok first

/-- The variables updated by the loop over `bestSplitUnknown` of `optimizeGain`. -/
structure Redistribution where
  costsLeft : cost_map
  costsRight : cost_map
  constraintsLeft : List Constraint
  constraintsRight : List Constraint
  unknownIndexesToLeft : indexes_t
  unknownIndexesToRight : indexes_t

/-- The loop `for (const auto &unknownIndex : bestSplitUnknown)` of `optimizeGain`.
Reading `attacks[0]` of an empty vector is undefined behaviour in the source: the model
raises `emptyVector`. -/
def optimizeGain.unknownLoop (env : Env) (dataset : Dataset) (attacker : Attacker)
    (costs : cost_map) (bestSplitFeatureId : index_t) (bestSplitValue : split_value_t)
    (bestPredLeft bestPredRight : prediction_t) :
    List index_t → Redistribution → Except Error Redistribution
  | [], st => .ok st
  | unknownIndex :: rest, st =>
    let instance_ := dataset.getRecord unknownIndex
    match mapAt costs unknownIndex with
    | .error e => .error e
    | .ok cost =>
      let attacks := attacker.attack instance_ bestSplitFeatureId cost
      match attacks with
      | [] => .error .emptyVector
      | attacks0 :: _ =>
        let y := dataset.getLabels
        let costMinLeft := attacks0.2
        let diffLeft := vecAt y unknownIndex - bestPredLeft
        let unknownToLeft := if diffLeft < 0 then -diffLeft else diffLeft
        let diffRight := vecAt y unknownIndex - bestPredRight
        let unknownToRight := if diffRight < 0 then -diffRight else diffRight
        if unknownToLeft > unknownToRight then
          optimizeGain.unknownLoop env dataset attacker costs bestSplitFeatureId bestSplitValue
            bestPredLeft bestPredRight rest
            { st with
              costsLeft := mapAssign st.costsLeft unknownIndex costMinLeft
              unknownIndexesToLeft := st.unknownIndexesToLeft ++ [unknownIndex]
              constraintsLeft := st.constraintsLeft ++
                [⟨instance_, vecAt y unknownIndex, costMinLeft, true, bestPredRight,
                  env.defaultDirection⟩]
              constraintsRight := st.constraintsRight ++
                [⟨instance_, vecAt y unknownIndex, costMinLeft, false, bestPredRight,
                  env.defaultDirection⟩] }
        else
          match optimizeGain.costMinRight dataset attacks bestSplitFeatureId bestSplitValue with
          | .error e => .error e
          | .ok costMinRight =>
            optimizeGain.unknownLoop env dataset attacker costs bestSplitFeatureId
              bestSplitValue bestPredLeft bestPredRight rest
              { st with
                costsRight := mapAssign st.costsRight unknownIndex costMinRight
                unknownIndexesToRight := st.unknownIndexesToRight ++ [unknownIndex]
                constraintsLeft := st.constraintsLeft ++
                  [⟨instance_, vecAt y unknownIndex, costMinRight, false, bestPredLeft,
                    env.defaultDirection⟩]
                constraintsRight := st.constraintsRight ++
                  [⟨instance_, vecAt y unknownIndex, costMinRight, true, bestPredLeft,
                    env.defaultDirection⟩] }

/-- The loops `for (const auto &leftIndex : bestSplitLeft) costsLeft[leftIndex] =
costs.at(leftIndex)` and its twin on the right of `optimizeGain`. -/
def optimizeGain.copyCosts (costs : cost_map) : List index_t → cost_map → Except Error cost_map
  | [], costsSide => .ok costsSide
  | index :: rest, costsSide =>
    match mapAt costs index with
    | .error e => .error e
    | .ok cost => optimizeGain.copyCosts costs rest (mapAssign costsSide index cost)

/-- The part of `optimizeGain` that follows the reduction: the test `bestGain > 0.0` and
the work on the selected split; `out` holds the in/out parameters after the reduction. -/
def optimizeGain.commit (env : Env) (dataset : Dataset) (validInstances : indexes_t)
    (attacker : Attacker) (costs : cost_map) (constraints : List Constraint)
    (out : GainOutputs) : Except Error (Bool × GainOutputs) :=
  if out.bestGain > 0 then
    match simulateSplit dataset validInstances attacker costs out.bestSplitValue
        out.bestSplitFeatureId with
    | .error e => .error e
    | .ok (leftSplit, rightSplit, unknownSplit) =>
      let out : GainOutputs :=
        { out with bestSplitLeft := leftSplit, bestSplitRight := rightSplit }
      let bestSplitUnknown := unknownSplit
      if !(out.constraintsLeft.isEmpty && out.constraintsRight.isEmpty) then
        .error .constraintsNotEmpty
      else if !(out.costsLeft.isEmpty && out.costsRight.isEmpty) then
        .error .costsNotEmpty
      else
        let propagated := optimizeGain.propagate env attacker constraints
          out.bestSplitFeatureId out.bestSplitValue
          (dataset.isFeatureNumerical out.bestSplitFeatureId)
          out.constraintsLeft out.constraintsRight
        match optimizeGain.unknownLoop env dataset attacker costs out.bestSplitFeatureId
            out.bestSplitValue out.bestPredLeft out.bestPredRight bestSplitUnknown
            { costsLeft := out.costsLeft
              costsRight := out.costsRight
              constraintsLeft := propagated.1
              constraintsRight := propagated.2
              unknownIndexesToLeft := []
              unknownIndexesToRight := [] } with
        | .error e => .error e
        | .ok st =>
          match optimizeGain.copyCosts costs out.bestSplitLeft st.costsLeft with
          | .error e => .error e
          | .ok costsLeft =>
            match optimizeGain.copyCosts costs out.bestSplitRight st.costsRight with
            | .error e => .error e
            | .ok costsRight =>
              .ok (true,
                { out with
                  bestSplitLeft := out.bestSplitLeft ++ st.unknownIndexesToLeft
                  bestSplitRight := out.bestSplitRight ++ st.unknownIndexesToRight
                  constraintsLeft := st.constraintsLeft
                  constraintsRight := st.constraintsRight
                  costsLeft := costsLeft
                  costsRight := costsRight })
  else .ok (false, out)

/-- The futures `batchResults` of `optimizeGain` after the loop that launches one
`std::async` call for each batch: `numThreads` futures, the `i`-th one holding the result of `optimizeOnSubset` on
`batches[i]` when there is such a batch. -/
def optimizeGain.batchResults (env : Env) (dataset : Dataset) (validInstances : indexes_t)
    (attacker : Attacker) (costs : cost_map) (constraints : List Constraint)
    (currentScore currentPredictionScore : ℚ) (numThreads : Nat)
    (batches : List (List index_t)) : List (Option (Except Error OptimizeOutput)) :=
  (List.range numThreads).map (fun i =>
    (batches.get? i).map (fun batch =>
      optimizeOnSubset env dataset costs attacker batch validInstances constraints
        currentScore currentPredictionScore))

/-- `SplitOptimizer::optimizeGain`: returns the boolean result and the in/out parameters
after the call. The `std::async` calls are pure, so that each future holds the value of
`optimizeOnSubset` on its batch. The `assert` on `validInstances` is kept as an error. -/
def optimizeGain (env : Env) (dataset : Dataset) (validInstances validFeatures : indexes_t)
    (attacker : Attacker) (costs : cost_map) (constraints : List Constraint)
    (currentScore currentPredictionScore : ℚ) (numThreads : Nat) (out : GainOutputs) :
    Except Error (Bool × GainOutputs) :=
  if validInstances.isEmpty then .error .assertionFailed
  else
    match optimizeGain.batches numThreads validFeatures with
    | .error e => .error e
    | .ok batches =>
      let batchResults := optimizeGain.batchResults env dataset validInstances attacker costs
        constraints currentScore currentPredictionScore numThreads batches
      let out : GainOutputs := { out with bestGain := -1 }
      match optimizeGain.reduction batchResults out with
      | .error e => .error e
      | .ok out => optimizeGain.commit env dataset validInstances attacker costs constraints out

/-- `SplitOptimizer::evaluateSplit` with the SSE loss `getLoss_` set by the constructor, in
exact arithmetic: the operations of `double` are taken without rounding.
`evaluateSplitDouble` is the same loop with every operation rounded. -/
def evaluateSplit (dataset : Dataset) (rows : indexes_t) (prediction : prediction_t) : ℚ :=
  let labels := dataset.getLabels
  rows.foldl (fun sum i =>
    let diff := vecAt labels i - prediction
    sum + diff * diff) 0

/-- The predicate `P` of a split on a perturbed record: `value[j] <= v` for a numerical
feature, `value[j] = v` for a categorical one. -/
def placesLeft (isNumerical : Bool) (j : index_t) (v : feature_t) (r : record_t) : Prop :=
  if isNumerical then vecAt r j ≤ v else vecAt r j = v

instance (isNumerical : Bool) (j : index_t) (v : feature_t) (r : record_t) :
    Decidable (placesLeft isNumerical j v r) := by
  unfold placesLeft; infer_instance

/-- The attack loop of `simulateSplit` without its early `break`. -/
def attackLoopNoBreak (isNumerical : Bool) (splittingFeature : index_t)
    (splittingValue : feature_t) (attacks : List (record_t × cost_t)) : Bool × Bool :=
  attacks.foldl (fun (s : Bool × Bool) atk =>
    if isNumerical then
      if vecAt atk.1 splittingFeature ≤ splittingValue then (s.1, false) else (false, s.2)
    else
      if vecAt atk.1 splittingFeature = splittingValue then (s.1, false) else (false, s.2))
    (true, true)

/-- The residual cost read by `costs.at(i)` when the key is present. -/
def costOf (costs : cost_map) (i : index_t) : cost_t := (costs.lookup i).getD 0

/-- Every index of `l` is a key of `costs`. -/
def HasCosts (costs : cost_map) (l : indexes_t) : Prop :=
  ∀ i ∈ l, (costs.lookup i).isSome = true

instance (costs : cost_map) (l : indexes_t) : Decidable (HasCosts costs l) := by
  unfold HasCosts; infer_instance

/-- The flags `(allLeft, allRight)` of instance `i` after the attack loop. -/
def flagsOf (dataset : Dataset) (attacker : Attacker) (costs : cost_map)
    (splittingValue : feature_t) (splittingFeature : index_t) (i : index_t) : Bool × Bool :=
  attackLoop (dataset.isFeatureNumerical splittingFeature) splittingFeature splittingValue
    (attacker.attack (dataset.getRecord i) splittingFeature (costOf costs i)) true true

/-! ## Example inputs -/

/-- Three records with one numerical feature, of values 0, 1 and 2, and labels 0, 1, 5. -/
def exDataset : Dataset :=
  ⟨fun i => [(i : ℚ)], fun _ => true, fun _ => [0, 1, 2], [0, 1, 5]⟩

/-- An attacker that can add 1 to every feature of a record, at cost 1. -/
def exAttacker : Attacker :=
  ⟨fun r _ c => if 1 ≤ c then [(r, 0), (r.map (fun x => x + 1), 1)] else [(r, 0)]⟩

/-- A residual cost of 1 for each of the instances 0, 1, 2. -/
def exCosts : cost_map := [(0, 1), (1, 1), (2, 1)]

/-! ## Notions used to state the properties of the search -/

/-- The value of `optimizeOnSubset.trySplit` when it does not throw. -/
def trySplitValue (env : Env) (dataset : Dataset) (costs : cost_map)
    (attacker : Attacker) (validInstances : indexes_t) (constraints : List Constraint)
    (currentPredictionScore : ℚ) (splittingFeature : index_t) (splittingValue : feature_t) :
    Bool × feature_t × feature_t × feature_t :=
  match optimizeOnSubset.trySplit env dataset costs attacker validInstances constraints
      currentPredictionScore splittingFeature splittingValue with
  | .ok r => r
  | .error _ => (false, 0, 0, 0)

/-- The record written by the body of the loop over the feature values for the candidate
`(j, v)` when `optimizeSSE` returned `r`, where `rest` is what follows `v` in the set of the
unique values: `none` when `optimizeSSE` failed. -/
def candidateOf (currentScore : ℚ) (j : index_t) (v : feature_t) (rest : List feature_t)
    (r : Bool × feature_t × feature_t × feature_t) : Option OptimizeOutput :=
  if r.1 then
    some { bestGain := currentScore - r.2.2.2
           bestSplitFeatureId := j
           bestSplitValue := v
           bestNextSplitValue :=
             match rest with
             | [] => v
             | next :: _ => next
           bestPredLeft := r.2.1
           bestPredRight := r.2.2.1
           bestSSEuma := r.2.2.2 }
  else none

/-- The candidates of one feature, in the order of the loop over its unique values. -/
def candidatesOfValues (T : feature_t → Bool × feature_t × feature_t × feature_t)
    (currentScore : ℚ) (j : index_t) : List feature_t → List (Option OptimizeOutput)
  | [] => []
  | v :: rest => candidateOf currentScore j v rest (T v) :: candidatesOfValues T currentScore j rest

/-- The candidates of a list of features, in the order of the two nested loops. -/
def candidatesOfFeatures (T : index_t → feature_t → Bool × feature_t × feature_t × feature_t)
    (dataset : Dataset) (currentScore : ℚ) : List index_t → List (Option OptimizeOutput)
  | [] => []
  | j :: rest =>
    candidatesOfValues (T j) currentScore j (uniqueFeatureValues (dataset.getFeatureColumn j)) ++
      candidatesOfFeatures T dataset currentScore rest

/-- The gain to beat: `-1` as long as no candidate was recorded. -/
def gainOf : Option OptimizeOutput → gain_t
  | none => -1
  | some c => c.bestGain

/-- One comparison `if (currGain > bestGain)`: a candidate replaces the recorded one only
when its gain is strictly greater. -/
def keepBest (acc : Option OptimizeOutput) : Option OptimizeOutput → Option OptimizeOutput
  | none => acc
  | some c => if c.bestGain > gainOf acc then some c else acc

/-- A recorded candidate has a gain above `-1`. -/
def SelInv (acc : Option OptimizeOutput) : Prop := ∀ c, acc = some c → c.bestGain > -1

/-- The candidate recorded after a sequence of comparisons, if any. -/
def selectBest (cs : List (Option OptimizeOutput)) : Option OptimizeOutput :=
  cs.foldl keepBest none

/-- The in/out parameters after the reduction, when `sel` is the recorded candidate. -/
def applySelection (out : GainOutputs) : Option OptimizeOutput → GainOutputs
  | none => { out with bestGain := -1 }
  | some c =>
    { out with
      bestGain := c.bestGain
      bestSplitFeatureId := c.bestSplitFeatureId
      bestSplitValue := c.bestSplitValue
      bestNextSplitValue := c.bestNextSplitValue
      bestPredLeft := c.bestPredLeft
      bestPredRight := c.bestPredRight
      bestSSEuma := c.bestSSEuma }

/-- The worker counts for which every future read by the reduction was assigned a
`std::async` call. -/
def WorkersOk (numThreads : Nat) (validFeatures : indexes_t) : Prop :=
  numThreads = 1 ∨ (2 ≤ numThreads ∧ numThreads ≤ validFeatures.length)

instance (numThreads : Nat) (validFeatures : indexes_t) :
    Decidable (WorkersOk numThreads validFeatures) := by
  unfold WorkersOk; infer_instance

/-- The test `unknownToLeft > unknownToRight` of the redistribution of the unknown
instances, for a label `yi`. -/
def goesLeft (yi : label_t) (bestPredLeft bestPredRight : prediction_t) : Bool :=
  decide ((if yi - bestPredLeft < 0 then -(yi - bestPredLeft) else yi - bestPredLeft) >
    (if yi - bestPredRight < 0 then -(yi - bestPredRight) else yi - bestPredRight))

/-- The record `ret` of `optimizeOnSubset` agrees with the recorded candidate `acc`: it is
that candidate, or no candidate was recorded and its gain is the initial `-1`. -/
def Recorded (ret : OptimizeOutput) (acc : Option OptimizeOutput) : Prop :=
  acc = some ret ∨ (acc = none ∧ ret.bestGain = -1)

/-- The costs of the attacks that land on the right of a split, in the order of the
attacks (the vector `costsOnRight` of `optimizeGain`). -/
def costsOnRightOf (isNumerical : Bool) (j : index_t) (v : feature_t)
    (attacks : List (record_t × cost_t)) : List cost_t :=
  (attacks.filter (fun atk => !decide (placesLeft isNumerical j v atk.1))).map (fun atk => atk.2)

/-- The attacks of the instance `i` on the feature `j` under its residual cost. -/
def attacksOf (dataset : Dataset) (attacker : Attacker) (costs : cost_map) (j : index_t)
    (i : index_t) : List (record_t × cost_t) :=
  attacker.attack (dataset.getRecord i) j (costOf costs i)

/-- The valid instances that `simulateSplit` puts in `leftSplit`. -/
def certainLeft (dataset : Dataset) (validInstances : indexes_t) (attacker : Attacker)
    (costs : cost_map) (v : feature_t) (j : index_t) : indexes_t :=
  validInstances.filter (fun i => (flagsOf dataset attacker costs v j i).1)

/-- The valid instances that `simulateSplit` puts in `rightSplit`. -/
def certainRight (dataset : Dataset) (validInstances : indexes_t) (attacker : Attacker)
    (costs : cost_map) (v : feature_t) (j : index_t) : indexes_t :=
  validInstances.filter (fun i => !(flagsOf dataset attacker costs v j i).1 &&
    (flagsOf dataset attacker costs v j i).2)

/-- The valid instances that `simulateSplit` puts in `unknownSplit`. -/
def uncertain (dataset : Dataset) (validInstances : indexes_t) (attacker : Attacker)
    (costs : cost_map) (v : feature_t) (j : index_t) : indexes_t :=
  validInstances.filter (fun i => !(flagsOf dataset attacker costs v j i).1 &&
    !(flagsOf dataset attacker costs v j i).2)

/-! ## Example inputs for the search of the best split -/

deriving instance DecidableEq for GainOutputs

/-- Three records with two identical numerical features, of values 0, 2 and 4. -/
def exTwinDataset (labels : List label_t) : Dataset :=
  ⟨fun i => [2 * (i : ℚ), 2 * (i : ℚ)], fun _ => true, fun _ => [0, 2, 4], labels⟩

/-- An attacker that can subtract 3 from every feature of a record, at cost 1; the
unperturbed record comes first, with cost 0. -/
def exTwinAttacker : Attacker :=
  ⟨fun r _ c => if 1 ≤ c then [(r, 0), (r.map (fun x => x - 3), 1)] else [(r, 0)]⟩

/-- A solver that succeeds on every split: it returns the point `opt` when instance 0
alone is certainly on the left, and stays at its initial point otherwise; the value it
reports is the objective at the point it returns. -/
def exSolver (opt : List ℚ) : Solver := fun d _ x =>
  if d.leftIndexes_ = [0] then
    some (1, opt, sseCostFunction.f d.y_ d.leftIndexes_ d.rightIndexes_ d.unknownIndexes_ opt)
  else some (1, x, sseCostFunction.f d.y_ d.leftIndexes_ d.rightIndexes_ d.unknownIndexes_ x)

/-- The solver `exSolver opt`, and constraints that are never propagated. -/
def exEnv (opt : List ℚ) : Env :=
  ⟨exSolver opt, 'U', fun _ _ _ _ _ => none, fun _ _ _ _ _ => none⟩

/-- Output parameters that are empty on entry. -/
def emptyOutputs : GainOutputs := ⟨0, [], [], 0, 0, 0, 0, 0, 0, [], [], [], []⟩

/-- The outputs of `optimizeGain` on `exTwinDataset [0, 10, 10]` when the split
`feature <= 0` of the feature `j` is selected: instance 1 is unknown and goes left. -/
def exOutputsLeft (j : index_t) : GainOutputs :=
  ⟨50 / 3, [0, 1], [2], j, 0, 2, 5, 10, 50,
    [⟨[2, 2], 10, 0, true, 10, 'U'⟩], [⟨[2, 2], 10, 0, false, 10, 'U'⟩],
    [(1, 0), (0, 1)], [(2, 1)]⟩

/-- The outputs of `optimizeGain` on `exTwinDataset [0, 0, 10]` when the split
`feature 0 <= 0` is selected: instance 1 is unknown and goes right. -/
def exOutputsRight : GainOutputs :=
  ⟨50 / 3, [0], [2, 1], 0, 0, 2, 0, 5, 50,
    [⟨[2, 2], 0, 0, false, 0, 'U'⟩], [⟨[2, 2], 0, 0, true, 0, 'U'⟩],
    [(0, 1)], [(1, 0), (2, 1)]⟩

/-- The cost that the loop over the unknown instances of `optimizeGain` stores for the
instance `i` and gives to its two constraints: `costMinLeft` when `i` goes left,
`costMinRight` when it goes right (`0` stands for a value that the loop cannot compute, in
which case it throws). -/
def storedCostOf (dataset : Dataset) (attacker : Attacker) (costs : cost_map) (f : index_t)
    (v : split_value_t) (pl pr : prediction_t) (i : index_t) : cost_t :=
  if goesLeft (vecAt dataset.getLabels i) pl pr then
    ((attacksOf dataset attacker costs f i).head?.map (fun atk => atk.2)).getD 0
  else
    (optimizeGain.costMinRight dataset (attacksOf dataset attacker costs f i) f v).toOption.getD 0

/-- The constraint that the loop over the unknown instances of `optimizeGain` appends to
`constraintsLeft` for the instance `i`. -/
def emittedLeft (env : Env) (dataset : Dataset) (attacker : Attacker) (costs : cost_map)
    (f : index_t) (v : split_value_t) (pl pr : prediction_t) (i : index_t) : Constraint :=
  ⟨dataset.getRecord i, vecAt dataset.getLabels i, storedCostOf dataset attacker costs f v pl pr i,
    goesLeft (vecAt dataset.getLabels i) pl pr,
    if goesLeft (vecAt dataset.getLabels i) pl pr then pr else pl, env.defaultDirection⟩

/-- The constraint that the loop over the unknown instances of `optimizeGain` appends to
`constraintsRight` for the instance `i`. -/
def emittedRight (env : Env) (dataset : Dataset) (attacker : Attacker) (costs : cost_map)
    (f : index_t) (v : split_value_t) (pl pr : prediction_t) (i : index_t) : Constraint :=
  ⟨dataset.getRecord i, vecAt dataset.getLabels i, storedCostOf dataset attacker costs f v pl pr i,
    !goesLeft (vecAt dataset.getLabels i) pl pr,
    if goesLeft (vecAt dataset.getLabels i) pl pr then pr else pl, env.defaultDirection⟩

/-- Three records with one numerical feature of value 7, and labels 0, 10, 10. -/
def exConstDataset : Dataset :=
  ⟨fun _ => [7], fun _ => true, fun _ => [7, 7, 7], [0, 10, 10]⟩

/-- An attacker without any perturbation: the attack list is the unperturbed record alone. -/
def exNoAttacker : Attacker := ⟨fun r _ _ => [(r, 0)]⟩

/-! ## The constructor of `Dataset` (`src/Dataset.cpp`) -/

namespace DatasetCpp

set_option linter.dupNamespace false

/-- The feature types of a header line (`FeatureTypes` of `Dataset.h`). -/
inductive FeatureTypes
  | BOOL
  | INT
  | DOUBLE
  deriving DecidableEq, Repr

/-- The exceptions of the constructor of `Dataset`; `undefinedBehaviour` stands for an access
outside of a vector. -/
inductive DatasetError
  | recordStreamNotOpen
  | cannotRecognizeType (type : String)
  | cannotReadFirstLine
  | cannotFindToken
  | noRecord
  | invalidBoolean
  | stoiFailed
  | stodFailed
  | labelStreamNotOpen
  | undefinedBehaviour
  deriving DecidableEq, Repr

/-- The typed columns: `BoolFeatureVector`, `IntFeatureVector` and `DoubleFeatureVector`. -/
inductive FeatureVector
  | BoolFeatureVector (column : List Bool)
  | IntFeatureVector (column : List Int)
  | DoubleFeatureVector (column : List ℚ)
  deriving DecidableEq, Repr

/-- The two functions of the standard library that convert the tokens; `none` stands for the
exception they throw (`std::invalid_argument`, `std::out_of_range`). -/
structure StdLib where
  stoi : String → Option Int
  stod : String → Option ℚ

/-- The members of `Dataset` that the constructor fills. -/
structure Dataset where
  headers_ : List FeatureTypes
  featureVectors_ : List FeatureVector
  labelVector_ : List Int
  deriving DecidableEq, Repr

/-- All the strings that repeated calls of `std::getline(is, token, delim)` extract from a
stream until a call fails: a call takes the characters up to the next `delim` (which it
drops) or up to the end of the stream, and fails when it is at the end of the stream and has
extracted nothing. `cur` holds the characters of the string being read. -/
def getlineAll (delim : Char) : List Char → List Char → List String
  | [], cur => if cur.isEmpty then [] else [String.mk cur]
  | c :: cs, cur =>
    if c = delim then String.mk cur :: getlineAll delim cs []
    else getlineAll delim cs (cur ++ [c])

/-- The loop over the types of the header line. -/
def parseHeaders : List String → List FeatureTypes → Except DatasetError (List FeatureTypes)
  | [], headers_ => .ok headers_
  | type :: rest, headers_ =>
    if type = "BOOL" then parseHeaders rest (headers_ ++ [FeatureTypes.BOOL])
    else if type = "INT" then parseHeaders rest (headers_ ++ [FeatureTypes.INT])
    else if type = "DOUBLE" then parseHeaders rest (headers_ ++ [FeatureTypes.DOUBLE])
    else .error (.cannotRecognizeType type)

/-- The loop `for j < headers_.size()` over one record line: column `j` receives the next
token of the line, and the line throws when it has no token left. The tokens that remain
after the last column are not read. -/
def pushRow : List (List String) → List String → Except DatasetError (List (List String))
  | [], _ => .ok []
  | _ :: _, [] => .error .cannotFindToken
  | column :: columns, token :: tokens => do
    let rest ← pushRow columns tokens
    .ok ((column ++ [token]) :: rest)

/-- The loop over the record lines. -/
def readRows : List String → List (List String) → Except DatasetError (List (List String))
  | [], columnsAsStrings => .ok columnsAsStrings
  | line :: lines, columnsAsStrings => do
    let next ← pushRow columnsAsStrings (getlineAll ' ' line.data [])
    readRows lines next

/-- The loop `column[i] = conv(columnsAsStrings[j][i])` over one column of strings. -/
def fillColumn {α : Type} (conv : String → Except DatasetError α) :
    List String → Nat → List α → Except DatasetError (List α)
  | [], _, column => .ok column
  | s :: rest, i, column => do
    let x ← conv s
    fillColumn conv rest (i + 1) (column.set i x)

def toBool (s : String) : Except DatasetError Bool :=
  if s = "0" ∨ s = "false" then .ok false
  else if s = "1" ∨ s = "true" then .ok true
  else .error .invalidBoolean

/-- The body of the `switch (type)` for one column. -/
def convertColumn (std : StdLib) (type : FeatureTypes) (strings : List String)
    (numberOfRecords : Nat) : Except DatasetError FeatureVector :=
  match type with
  | .BOOL => do
    let column ← fillColumn toBool strings 0 (List.replicate numberOfRecords false)
    .ok (.BoolFeatureVector column)
  | .INT => do
    let column ← fillColumn (fun s => match std.stoi s with
      | some x => .ok x
      | none => .error .stoiFailed) strings 0 (List.replicate numberOfRecords 0)
    .ok (.IntFeatureVector column)
  | .DOUBLE => do
    let column ← fillColumn (fun s => match std.stod s with
      | some x => .ok x
      | none => .error .stodFailed) strings 0 (List.replicate numberOfRecords 0)
    .ok (.DoubleFeatureVector column)

/-- The loop `for j < headers_.size()` that translates the matrix of strings. -/
def convertColumns (std : StdLib) : List FeatureTypes → List (List String) → Nat →
    List FeatureVector → Except DatasetError (List FeatureVector)
  | [], _, _, featureVectors_ => .ok featureVectors_
  | _ :: _, [], _, _ => .error .undefinedBehaviour
  | type :: types, strings :: columns, numberOfRecords, featureVectors_ => do
    let column ← convertColumn std type strings numberOfRecords
    convertColumns std types columns numberOfRecords (featureVectors_ ++ [column])

/-- The loop over the lines of the label file: each line is converted by `std::stoi` and
pushed at the back of `labelVector_`. -/
def readLabels (std : StdLib) : List String → List Int → Nat →
    Except DatasetError (List Int × Nat)
  | [], labelVector_, labelNumber => .ok (labelVector_, labelNumber)
  | line :: lines, labelVector_, labelNumber =>
    match std.stoi line with
    | none => .error .stoiFailed
    | some label => readLabels std lines (labelVector_ ++ [label]) (labelNumber + 1)

/-- The first part of the constructor `Dataset::Dataset(featureFilePath, labelFilePath)`, up
to the `ifs.close()` of the feature file: it gives `headers_`, `featureVectors_` and
`numberOfRecords`. A file is given by its content, `none` when the stream is not open or not
good. -/
def readFeatureFile (std : StdLib) (featureFile : Option String) :
    Except DatasetError (List FeatureTypes × List FeatureVector × Nat) :=
  match featureFile with
  | none => .error .recordStreamNotOpen
  | some features =>
    match getlineAll '\n' features.data [] with
    | [] => .error .cannotReadFirstLine
    | line :: lines => do
      let headers_ ← parseHeaders (getlineAll ' ' line.data []) []
      let columnsAsStrings ← readRows lines (List.replicate headers_.length [])
      match columnsAsStrings with
      | [] => .error .undefinedBehaviour
      | first :: _ =>
        if first.isEmpty then .error .noRecord
        else do
          let numberOfRecords := first.length
          let featureVectors_ ← convertColumns std headers_ columnsAsStrings numberOfRecords []
          .ok (headers_, featureVectors_, numberOfRecords)

/-- The constructor `Dataset::Dataset(featureFilePath, labelFilePath)`: the part on the
feature file, then the part on the label file. `labelVector_` is resized to
`numberOfRecords` before the labels are pushed at its back, and the `std::runtime_error` of
a label count different from `numberOfRecords` is built without a `throw`. -/
def Dataset.Dataset (std : StdLib) (featureFile labelFile : Option String) :
    Except DatasetError Dataset := do
  let (headers_, featureVectors_, numberOfRecords) ← readFeatureFile std featureFile
  match labelFile with
  | none => .error .labelStreamNotOpen
  | some labels => do
    let (labelVector_, labelNumber) ← readLabels std (getlineAll '\n' labels.data [])
      (List.replicate numberOfRecords 0) 0
    if labelNumber ≠ numberOfRecords then
      .ok ⟨headers_, featureVectors_, labelVector_⟩
    else
      .ok ⟨headers_, featureVectors_, labelVector_⟩

/-- The leading decimal digits of a list of characters, as a number; `none` without any. -/
def exDigits : List Char → Option Nat → Option Nat
  | [], acc => acc
  | c :: cs, acc =>
    if c.isDigit then exDigits cs (some (acc.getD 0 * 10 + (c.toNat - '0'.toNat)))
    else acc

/-- A `std::stoi` in base 10: leading blanks, an optional sign, the leading digits; it throws
without a digit and outside of the range of `int`. -/
def exStoi (s : String) : Option Int :=
  let cs := s.data.dropWhile Char.isWhitespace
  let (neg, ds) := match cs with
    | '-' :: rest => (true, rest)
    | '+' :: rest => (false, rest)
    | _ => (false, cs)
  match exDigits ds none with
  | none => none
  | some n =>
    let x : Int := if neg then -(n : Int) else n
    if -2147483648 ≤ x ∧ x ≤ 2147483647 then some x else none

/-- An example of the standard library: `exStoi`, and a `std::stod` restricted to the
strings that `exStoi` reads. -/
def exStd : StdLib := ⟨exStoi, fun s => (exStoi s).map (fun x => (x : ℚ))⟩

end DatasetCpp

/-! ## The node `BinIntNode` (`include/nodes/BinIntNode.h`) -/

namespace Nodes

/-- The variant `feature_t` of a record of the tree nodes: the alternative `int_feature_t`
that `BinIntNode` reads, and the other alternatives, whose declaration is outside of the
sources and is the parameter `Alt`. -/
inductive feature_t (Alt : Type)
  | int_feature_t (x : Int)
  | other (alt : Alt)

abbrev record_t (Alt : Type) := List (feature_t Alt)

/-- The exceptions of `predict`; `undefinedBehaviour` stands for an index outside of the
record and for a null child. -/
inductive NodeError
  | nonIntFeature
  | undefinedBehaviour
  | childError (what : String)
  deriving DecidableEq, Repr

/-- The interface `INode`, by its virtual function `predict`. -/
structure INode (Alt : Type) where
  predict : record_t Alt → Except NodeError label_t

/-- The members of `BinIntNode`; `none` is the null pointer. -/
structure BinIntNode (Alt : Type) where
  featureIndex_ : index_t
  v : Int
  leftChild : Option (INode Alt)
  rightChild : Option (INode Alt)

/-- The children of a `BinIntNode`, to record the calls of `predict` on them. -/
inductive Child
  | left
  | right
  deriving DecidableEq, Repr

/-- The function `BinIntNode::predict`, with the list of the children whose `predict` it
calls. -/
def BinIntNode.predict {Alt : Type} (node : BinIntNode Alt) (record : record_t Alt) :
    List Child × Except NodeError label_t :=
  match record[node.featureIndex_]? with
  | none => ([], .error .undefinedBehaviour)
  | some (.other _) => ([], .error .nonIntFeature)
  | some (.int_feature_t x) =>
    if x > node.v then
      match node.rightChild with
      | none => ([], .error .undefinedBehaviour)
      | some child => ([Child.right], child.predict record)
    else
      match node.leftChild with
      | none => ([], .error .undefinedBehaviour)
      | some child => ([Child.left], child.predict record)

/-- A leaf that predicts `p`. -/
def exLeaf (p : label_t) : INode Bool := ⟨fun _ => .ok p⟩

/-- The node `feature 0 <= 5` over the leaves 1 (left) and 2 (right). -/
def exNode : BinIntNode Bool := ⟨0, 5, some (exLeaf 1), some (exLeaf 2)⟩

/-- The variant `feature_vector_t` of a column: the alternative `int_vector_t` that
`BinIntNode::split` reads, and the other alternatives, whose declaration is outside of the
sources and is the parameter `Alt`. -/
inductive feature_vector_t (Alt : Type)
  | int_vector_t (column : List Int)
  | other (alt : Alt)

/-- The exceptions of `split`; `undefinedBehaviour` stands for an index outside of the
column, an overflow of the signed sum and a division by zero. -/
inductive SplitError
  | nonIntVector
  | undefinedBehaviour
  deriving DecidableEq, Repr

/-- The conversion of an `int_feature_t` to `std::size_t` (64 bits): the value modulo
`2^64`. -/
def toSizeT (x : Int) : Nat := (x % 2 ^ 64).toNat

/-- The conversion of a `std::size_t` to `int_feature_t` (32 bits, as the `std::int32_t` of
the integer columns): the value modulo `2^32`, in two's complement. -/
def toIntFeature (n : Nat) : Int :=
  if n % 2 ^ 32 < 2 ^ 31 then ((n % 2 ^ 32 : Nat) : Int) else ((n % 2 ^ 32 : Nat) : Int) - 2 ^ 32

/-- The loop `v += (*intVectorPtr)[i]` of `split`, in the signed arithmetic of
`int_feature_t`. -/
def BinIntNode.split.sumLoop (column : List Int) : List index_t → Int → Except SplitError Int
  | [], v => .ok v
  | i :: rest, v =>
    match column[i]? with
    | none => .error .undefinedBehaviour
    | some x =>
      if -2 ^ 31 ≤ v + x ∧ v + x < 2 ^ 31 then BinIntNode.split.sumLoop column rest (v + x)
      else .error .undefinedBehaviour

/-- The loop of `split` that creates the two partitions; the state is `(p[0], p[1])`. -/
def BinIntNode.split.partitionLoop (column : List Int) (v : Int) :
    List index_t → List index_t × List index_t → Except SplitError (List index_t × List index_t)
  | [], p => .ok p
  | i :: rest, p =>
    match column[i]? with
    | none => .error .undefinedBehaviour
    | some x =>
      if x > v then BinIntNode.split.partitionLoop column v rest (p.1, p.2 ++ [i])
      else BinIntNode.split.partitionLoop column v rest (p.1 ++ [i], p.2)

/-- The function `BinIntNode::split`: returns the node after the call (its member `v` is
set) and the vector `p`. In `v /= validIndexes.size()` the left operand is converted to
`std::size_t`, the division is unsigned and its result is converted back. -/
def BinIntNode.split {Alt AltV : Type} (node : BinIntNode Alt) (validIndexes : List index_t)
    (featureVector : feature_vector_t AltV) :
    Except SplitError (BinIntNode Alt × List (List index_t)) :=
  match featureVector with
  | .other _ => .error .nonIntVector
  | .int_vector_t column =>
    match BinIntNode.split.sumLoop column validIndexes 0 with
    | .error e => .error e
    | .ok sum =>
      if validIndexes.length = 0 then .error .undefinedBehaviour
      else
        let v := toIntFeature (toSizeT sum / validIndexes.length)
        match BinIntNode.split.partitionLoop column v validIndexes ([], []) with
        | .error e => .error e
        | .ok p => .ok ({ node with v := v }, [p.1, p.2])

end Nodes

/-! ## The option parser of `main` (`main.cpp`) -/

namespace Main

/-- The exceptions of the lambda of `main` that parses the arguments; `abort` stands for the
call of `abort()`, `stodFailed` and `stoiFailed` for the exceptions of `std::stod` and
`std::stoi`. -/
inductive MainError
  | invalidBudget
  | invalidDepth
  | invalidThreads
  | invalidEstimators
  | invalidIcml
  | unknownOption
  | stodFailed
  | stoiFailed
  | abort
  deriving DecidableEq, Repr

/-- The variables that the lambda returns as a tuple: `attackerFile`, `datasetFile`,
`maxDepth`, `budget`, `threads`, `estimators`, `icml`, `outputFile`. -/
structure Options where
  attackerFile : String
  datasetFile : String
  maxDepth : Nat
  budget : cost_t
  threads : Int
  estimators : Int
  icml : Int
  outputFile : String
  deriving DecidableEq, Repr

/-- The values of the variables before the loop over the options. -/
def defaultOptions : Options := ⟨"", "", 1, 0, 1, 1, 0, ""⟩

/-- The successive results `(c, optarg)` of `getopt(argc, argv, optstring)` on the words
that follow `argv[0]`, for an option string in which every option takes an argument (as
`"a:b:d:f:j:e:i:o:"`, given by the list `options` of its letters) and with `opterr = 0`: a
word `-x` takes the next word as its argument, a word `-xtext` takes `text`; an unknown
letter and a missing argument give `?`; the scan stops at `--` and at the first word that
is not an option. The list ends with the first `?`, on which the parser throws. -/
def getoptAll (options : List Char) : List String → List (Char × String)
  | [] => []
  | [word] =>
    match word.data with
    | '-' :: x :: text =>
      if x = '-' ∧ text = [] then []
      else if x ∈ options then
        if text ≠ [] then [(x, String.mk text)] else [('?', "")]
      else [('?', "")]
    | _ => []
  | word :: optarg :: rest =>
    match word.data with
    | '-' :: x :: text =>
      if x = '-' ∧ text = [] then []
      else if x ∈ options then
        if text ≠ [] then (x, String.mk text) :: getoptAll options (optarg :: rest)
        else (x, optarg) :: getoptAll options rest
      else [('?', "")]
    | _ => []

/-- The body of the `switch (c)` for one result of `getopt`. The locals `bflag`, `dflag`,
`jflag`, `eflag` and `iflag` are assigned before they are read in each case. -/
def parseOption (std : DatasetCpp.StdLib) (c : Char) (optarg : String) (st : Options) :
    Except MainError Options :=
  if c = 'a' then .ok { st with attackerFile := optarg }
  else if c = 'b' then
    match std.stod optarg with
    | none => .error .stodFailed
    | some bflag =>
      if st.budget < 0 then .error .invalidBudget
      else .ok { st with budget := bflag }
  else if c = 'd' then
    match std.stoi optarg with
    | none => .error .stoiFailed
    | some dflag =>
      if dflag < 0 then .error .invalidDepth
      else .ok { st with maxDepth := dflag.toNat }
  else if c = 'f' then .ok { st with datasetFile := optarg }
  else if c = 'j' then
    match std.stoi optarg with
    | none => .error .stoiFailed
    | some jflag =>
      if jflag < 1 then .error .invalidThreads
      else .ok { st with threads := jflag }
  else if c = 'e' then
    match std.stoi optarg with
    | none => .error .stoiFailed
    | some eflag =>
      if eflag < 1 then .error .invalidEstimators
      else .ok { st with estimators := eflag }
  else if c = 'i' then
    match std.stoi optarg with
    | none => .error .stoiFailed
    | some iflag =>
      if iflag ≠ 0 ∧ iflag ≠ 1 then .error .invalidIcml
      else .ok { st with icml := iflag }
  else if c = 'o' then .ok { st with outputFile := optarg }
  else if c = '?' then .error .unknownOption
  else .error .abort

/-- The loop `while ((c = getopt(...)) != -1)` over the results of `getopt`. -/
def parseLoop (std : DatasetCpp.StdLib) : List (Char × String) → Options →
    Except MainError Options
  | [], st => .ok st
  | (c, optarg) :: rest, st =>
    match parseOption std c optarg st with
    | .error e => .error e
    | .ok st => parseLoop std rest st

/-- The lambda of `main` that parses the arguments and returns the tuple of the options;
`argv` holds the words of the command line, `argv[0]` included. -/
def parseArguments (std : DatasetCpp.StdLib) (argv : List String) : Except MainError Options :=
  parseLoop std (getoptAll ['a', 'b', 'd', 'f', 'j', 'e', 'i', 'o'] argv.tail) defaultOptions

end Main

/-! ## The arithmetic of `double` -/

namespace Binary64

/-- The power `2^e` for an integer exponent. -/
def pow2 (e : Int) : ℚ := if 0 ≤ e then (2 : ℚ) ^ e.toNat else 1 / (2 : ℚ) ^ (-e).toNat

/-- The position of the leading bit of `n`, for `n` not zero: the number of halvings that
leave at least 1 (`fuel` is a bound on that number). -/
def leadingBit : Nat → Nat → Nat
  | 0, _ => 0
  | fuel + 1, n => if n < 2 then 0 else leadingBit fuel (n / 2) + 1

/-- The exponent of a number `x` that is not zero: the integer `e` with
`2^e <= |x| < 2^(e+1)`. -/
def exponent (x : ℚ) : Int :=
  let k : Int := (leadingBit x.num.natAbs x.num.natAbs : Int) - (leadingBit x.den x.den : Int)
  if pow2 k ≤ |x| then k else k - 1

/-- The integer nearest to `r`, the even one of the two when `r` is half-way. -/
def nearestEven (r : ℚ) : Int :=
  let m := r.floor
  if r - m < 1 / 2 then m
  else if r - m > 1 / 2 then m + 1
  else if m % 2 = 0 then m else m + 1

/-- The rounding of a real number to a `double` (IEEE 754 binary64, round to nearest, ties
to even): 53 significant bits, the least exponent `-1022` with gradual underflow. A result
of magnitude `2^1024` or more, which the format turns into an infinity, is kept as it is:
infinities and NaN are not values of the model. -/
def round (x : ℚ) : ℚ :=
  if x = 0 then 0
  else
    let e := max (exponent x) (-1022)
    let quantum := pow2 (e - 52)
    (nearestEven (x / quantum) : ℚ) * quantum

/-- The operator `+` of `double`: the exact sum, rounded. -/
def add (a b : ℚ) : ℚ := round (a + b)

/-- The operator `-` of `double`: the exact difference, rounded. -/
def sub (a b : ℚ) : ℚ := round (a - b)

/-- The operator `*` of `double`: the exact product, rounded. -/
def mul (a b : ℚ) : ℚ := round (a * b)

/-- The operator `/` of `double`: the exact quotient, rounded. -/
def div (a b : ℚ) : ℚ := round (a / b)

end Binary64

/-- The lambda `f` of `sseCostFunction` in the arithmetic of `double`: the same loops as
`sseCostFunction.f`, each operation rounded. -/
def sseCostFunction.fDouble (y : List prediction_t)
    (leftIndexes rightIndexes unknownIndexes : indexes_t) (leftRight : List ℚ) : ℚ :=
  let left := vecAt leftRight 0
  let right := vecAt leftRight 1
  let ret : ℚ := 0
  let ret := leftIndexes.foldl (fun ret leftIndex =>
    let diff := Binary64.sub (vecAt y leftIndex) left
    Binary64.add ret (Binary64.mul diff diff)) ret
  let ret := rightIndexes.foldl (fun ret rightIndex =>
    let diff := Binary64.sub (vecAt y rightIndex) right
    Binary64.add ret (Binary64.mul diff diff)) ret
  let ret := unknownIndexes.foldl (fun ret unknownIndex =>
    let diffL := Binary64.sub (vecAt y unknownIndex) left
    let diffR := Binary64.sub (vecAt y unknownIndex) right
    let diffLsquared := Binary64.mul diffL diffL
    let diffRsquared := Binary64.mul diffR diffR
    let max := if diffLsquared > diffRsquared then diffLsquared else diffRsquared
    Binary64.add ret max) ret
  ret

/-- The function `SplitOptimizer::evaluateSplit` (the loss `getLoss_` of the SSE) in the
arithmetic of `double`: the same loop as `evaluateSplit`, each operation rounded. -/
def evaluateSplitDouble (dataset : Dataset) (rows : indexes_t) (prediction : prediction_t) : ℚ :=
  let labels := dataset.getLabels
  rows.foldl (fun sum i =>
    let diff := Binary64.sub (vecAt labels i) prediction
    Binary64.add sum (Binary64.mul diff diff)) 0

/-- A solver that succeeds only on the splits with instance 0 alone certainly on the left,
where it returns the point `opt`; the value it reports is the objective computed in
`double` at that point. -/
def exSolverDouble (opt : List ℚ) : Solver := fun d _ _ =>
  if d.leftIndexes_ = [0] then
    some (1, opt,
      sseCostFunction.fDouble d.y_ d.leftIndexes_ d.rightIndexes_ d.unknownIndexes_ opt)
  else none

/-- A solver that stays at its initial point on every split; the value it reports is the
objective computed in `double` at that point. -/
def exSolverStayDouble : Solver := fun d _ x =>
  some (1, x, sseCostFunction.fDouble d.y_ d.leftIndexes_ d.rightIndexes_ d.unknownIndexes_ x)

/-- The solver `exSolverDouble opt`, and constraints that are never propagated. -/
def exEnvDouble (opt : List ℚ) : Env :=
  ⟨exSolverDouble opt, 'U', fun _ _ _ _ _ => none, fun _ _ _ _ _ => none⟩

/-- The solver `exSolverStayDouble`, and constraints that are never propagated. -/
def exEnvStayDouble : Env :=
  ⟨exSolverStayDouble, 'U', fun _ _ _ _ _ => none, fun _ _ _ _ _ => none⟩

/-- Three records with two numerical features, the feature 0 of value 7 in every record and
the feature 1 of values 0, 1, 2, and the given labels. -/
def exConstLabelsDataset (labels : List label_t) : Dataset :=
  ⟨fun i => [7, (i : ℚ)], fun _ => true, fun j => if j = 0 then [7, 7, 7] else [0, 1, 2],
    labels⟩

/-- An attacker that can add 3 to every feature of a record whose feature 1 is 1, at cost 1;
the unperturbed record comes first, with cost 0. -/
def exAddAttacker : Attacker :=
  ⟨fun r _ c =>
    if 1 ≤ c ∧ vecAt r 1 = 1 then [(r, 0), (r.map (fun x => x + 3), 1)] else [(r, 0)]⟩

/-- The mean of the labels 0, 1, 3 computed in `double`: the `double` nearest to `4 / 3`. -/
def exMeanDouble : ℚ := 6004799503160661 / 4503599627370496

/-! ## Lemmas on `simulateSplit` -/

theorem attackLoop_eq (num : Bool) (j : index_t) (v : feature_t)
    (l : List (record_t × cost_t)) (a b : Bool) :
    attackLoop num j v l a b =
      (a && l.all (fun atk => decide (placesLeft num j v atk.1)),
       b && l.all (fun atk => !decide (placesLeft num j v atk.1))) := by
  induction l generalizing a b with
  | nil => simp [attackLoop]
  | cons atk rest ih =>
    simp only [attackLoop, List.all_cons]
    cases num <;> by_cases hp : vecAt atk.1 j = v <;> by_cases hq : vecAt atk.1 j ≤ v <;>
      cases a <;> cases b <;> simp [placesLeft, hp, hq, ih]

theorem attackLoopNoBreak_eq (num : Bool) (j : index_t) (v : feature_t)
    (l : List (record_t × cost_t)) :
    attackLoopNoBreak num j v l =
      (l.all (fun atk => decide (placesLeft num j v atk.1)),
       l.all (fun atk => !decide (placesLeft num j v atk.1))) := by
  have key : ∀ (l : List (record_t × cost_t)) (s : Bool × Bool),
      l.foldl (fun (s : Bool × Bool) atk =>
        if num then
          if vecAt atk.1 j ≤ v then (s.1, false) else (false, s.2)
        else
          if vecAt atk.1 j = v then (s.1, false) else (false, s.2)) s =
      (s.1 && l.all (fun atk => decide (placesLeft num j v atk.1)),
       s.2 && l.all (fun atk => !decide (placesLeft num j v atk.1))) := by
    intro l
    induction l with
    | nil => simp
    | cons atk rest ih =>
      intro s
      rw [List.foldl_cons, ih]
      obtain ⟨a, b⟩ := s
      cases num <;> by_cases hp : vecAt atk.1 j = v <;> by_cases hq : vecAt atk.1 j ≤ v <;>
        cases a <;> cases b <;> simp [placesLeft, hp, hq]
  simpa [attackLoopNoBreak] using key l (true, true)

theorem mapAt_of_lookup {costs : cost_map} {i : index_t} {c : cost_t}
    (h : costs.lookup i = some c) : mapAt costs i = .ok c := by
  simp [mapAt, h]

theorem costOf_of_lookup {costs : cost_map} {i : index_t} {c : cost_t}
    (h : costs.lookup i = some c) : costOf costs i = c := by
  simp [costOf, h]

theorem simulateSplitLoop_ok (dataset : Dataset) (attacker : Attacker) (costs : cost_map)
    (v : feature_t) (j : index_t) (l : List index_t)
    (h : HasCosts costs l) (L R U : indexes_t) :
    simulateSplitLoop dataset attacker costs v j (dataset.isFeatureNumerical j) l (L, R, U) =
      .ok (L ++ l.filter (fun i => (flagsOf dataset attacker costs v j i).1),
           R ++ l.filter (fun i => !(flagsOf dataset attacker costs v j i).1 &&
              (flagsOf dataset attacker costs v j i).2),
           U ++ l.filter (fun i => !(flagsOf dataset attacker costs v j i).1 &&
              !(flagsOf dataset attacker costs v j i).2)) := by
  induction l generalizing L R U with
  | nil => simp [simulateSplitLoop]
  | cons i rest ih =>
    obtain ⟨c, hc⟩ := Option.isSome_iff_exists.mp (h i (List.mem_cons_self i rest))
    have hrest : HasCosts costs rest := fun k hk => h k (List.mem_cons_of_mem i hk)
    have hf : flagsOf dataset attacker costs v j i =
        attackLoop (dataset.isFeatureNumerical j) j v
          (attacker.attack (dataset.getRecord i) j c) true true := by
      simp [flagsOf, costOf_of_lookup hc]
    simp only [simulateSplitLoop, mapAt_of_lookup hc, ← hf]
    by_cases h1 : (flagsOf dataset attacker costs v j i).1 = true
    · simp [h1, ih hrest, List.filter_cons]
    · by_cases h2 : (flagsOf dataset attacker costs v j i).2 = true
      · simp [h1, h2, ih hrest, List.filter_cons]
      · simp [h1, h2, ih hrest, List.filter_cons]

/-- With a cost for every valid instance, `simulateSplit` returns the three filters of
`validInstances` by the flags of the attack loop. -/
theorem simulateSplit_ok (dataset : Dataset) (validInstances : indexes_t) (attacker : Attacker)
    (costs : cost_map) (v : feature_t) (j : index_t)
    (h : HasCosts costs validInstances) :
    simulateSplit dataset validInstances attacker costs v j =
      .ok (validInstances.filter (fun i => (flagsOf dataset attacker costs v j i).1),
           validInstances.filter (fun i => !(flagsOf dataset attacker costs v j i).1 &&
              (flagsOf dataset attacker costs v j i).2),
           validInstances.filter (fun i => !(flagsOf dataset attacker costs v j i).1 &&
              !(flagsOf dataset attacker costs v j i).2)) := by
  simp [simulateSplit, simulateSplitLoop_ok dataset attacker costs v j validInstances h]

theorem length_filter_three (l : List index_t) (f : index_t → Bool × Bool) :
    (l.filter (fun i => (f i).1)).length + (l.filter (fun i => !(f i).1 && (f i).2)).length +
      (l.filter (fun i => !(f i).1 && !(f i).2)).length = l.length := by
  induction l with
  | nil => rfl
  | cons i rest ih =>
    simp only [List.filter_cons, List.length_cons]
    rcases h1 : (f i).1 <;> rcases h2 : (f i).2 <;> simp <;> omega

/-- C1: for a valid-instance list without repeated indices whose indices all have a cost,
`simulateSplit` returns `(L, R, U)` partitioning `validInstances`: an index is valid iff it
occurs in one of the three lists, no index occurs in two of them (nor twice in one), and
`|L| + |R| + |U| = |validInstances|`. -/
theorem simulateSplit_partition (dataset : Dataset) (validInstances : indexes_t)
    (attacker : Attacker) (costs : cost_map) (v : feature_t) (j : index_t)
    (hnodup : validInstances.Nodup) (hcosts : HasCosts costs validInstances) :
    ∃ L R U, simulateSplit dataset validInstances attacker costs v j = .ok (L, R, U) ∧
      (∀ i, i ∈ validInstances ↔ (i ∈ L ∨ i ∈ R ∨ i ∈ U)) ∧
      (∀ i, ¬ (i ∈ L ∧ i ∈ R) ∧ ¬ (i ∈ L ∧ i ∈ U) ∧ ¬ (i ∈ R ∧ i ∈ U)) ∧
      (L ++ R ++ U).Nodup ∧
      L.length + R.length + U.length = validInstances.length := by
  refine ⟨_, _, _, simulateSplit_ok dataset validInstances attacker costs v j hcosts, ?_, ?_, ?_,
    length_filter_three validInstances (flagsOf dataset attacker costs v j)⟩
  · intro i
    simp only [List.mem_filter]
    rcases (flagsOf dataset attacker costs v j i).1 <;>
      rcases (flagsOf dataset attacker costs v j i).2 <;> simp
  · intro i
    simp only [List.mem_filter]
    rcases (flagsOf dataset attacker costs v j i).1 <;>
      rcases (flagsOf dataset attacker costs v j i).2 <;> simp
  · rw [List.nodup_append, List.nodup_append]
    refine ⟨⟨hnodup.filter _, hnodup.filter _, ?_⟩, hnodup.filter _, ?_⟩
    · intro i h1 h2
      simp only [List.mem_filter] at h1 h2
      simp [h1.2] at h2
    · intro i h1 h2
      simp only [List.mem_append, List.mem_filter] at h1 h2
      rcases h1 with h1 | h1
      · simp [h1.2] at h2
      · have h3 := h1.2
        have h4 := h2.2
        simp only [Bool.and_eq_true, Bool.not_eq_true'] at h3 h4
        simp [h3.2] at h4

/-- C2: when every valid index has a cost, `simulateSplit` returns `(L, R, U)` such that for
every valid index `i` with a non-empty attack list: `i ∈ L` iff every perturbed record
satisfies the split predicate, `i ∈ R` iff every perturbed record violates it, `i ∈ U`
otherwise; and the attack loop with its early `break` computes the same flags as the loop
without it. -/
theorem simulateSplit_classification (dataset : Dataset) (validInstances : indexes_t)
    (attacker : Attacker) (costs : cost_map) (v : feature_t) (j : index_t)
    (hcosts : HasCosts costs validInstances) :
    ∃ L R U, simulateSplit dataset validInstances attacker costs v j = .ok (L, R, U) ∧
      ∀ i ∈ validInstances, ∀ c, costs.lookup i = some c →
        attacker.attack (dataset.getRecord i) j c ≠ [] →
        (i ∈ L ↔ ∀ atk ∈ attacker.attack (dataset.getRecord i) j c,
            placesLeft (dataset.isFeatureNumerical j) j v atk.1) ∧
        (i ∈ R ↔ ∀ atk ∈ attacker.attack (dataset.getRecord i) j c,
            ¬ placesLeft (dataset.isFeatureNumerical j) j v atk.1) ∧
        (i ∈ U ↔ (¬ ∀ atk ∈ attacker.attack (dataset.getRecord i) j c,
            placesLeft (dataset.isFeatureNumerical j) j v atk.1) ∧
          ¬ ∀ atk ∈ attacker.attack (dataset.getRecord i) j c,
            ¬ placesLeft (dataset.isFeatureNumerical j) j v atk.1) ∧
        attackLoop (dataset.isFeatureNumerical j) j v
            (attacker.attack (dataset.getRecord i) j c) true true =
          attackLoopNoBreak (dataset.isFeatureNumerical j) j v
            (attacker.attack (dataset.getRecord i) j c) := by
  refine ⟨_, _, _, simulateSplit_ok dataset validInstances attacker costs v j hcosts, ?_⟩
  intro i hi c hc hne
  have hf : flagsOf dataset attacker costs v j i =
      attackLoop (dataset.isFeatureNumerical j) j v
        (attacker.attack (dataset.getRecord i) j c) true true := by
    simp [flagsOf, costOf_of_lookup hc]
  obtain ⟨a0, hmem⟩ := List.exists_mem_of_ne_nil _ hne
  have key : flagsOf dataset attacker costs v j i =
      (decide (∀ atk ∈ attacker.attack (dataset.getRecord i) j c,
          placesLeft (dataset.isFeatureNumerical j) j v atk.1),
       decide (∀ atk ∈ attacker.attack (dataset.getRecord i) j c,
          ¬ placesLeft (dataset.isFeatureNumerical j) j v atk.1)) := by
    rw [hf, attackLoop_eq]
    refine Prod.ext (Bool.eq_iff_iff.mpr ?_) (Bool.eq_iff_iff.mpr ?_) <;> simp
  have hnot : ¬ ((∀ atk ∈ attacker.attack (dataset.getRecord i) j c,
          placesLeft (dataset.isFeatureNumerical j) j v atk.1) ∧
       ∀ atk ∈ attacker.attack (dataset.getRecord i) j c,
          ¬ placesLeft (dataset.isFeatureNumerical j) j v atk.1) :=
    fun h => h.2 a0 hmem (h.1 a0 hmem)
  refine ⟨?_, ?_, ?_, ?_⟩
  · simp only [List.mem_filter, hi, true_and, key, decide_eq_true_eq]
  · simp only [List.mem_filter, hi, true_and, key, Bool.and_eq_true, Bool.not_eq_true',
      decide_eq_false_iff_not, decide_eq_true_eq]
    exact ⟨fun h => h.2, fun h => ⟨fun h1 => hnot ⟨h1, h⟩, h⟩⟩
  · simp only [List.mem_filter, hi, true_and, key, Bool.and_eq_true, Bool.not_eq_true',
      decide_eq_false_iff_not]
  · rw [attackLoop_eq, attackLoopNoBreak_eq]
    simp

/-- Instance of `simulateSplit_partition` on the example dataset, split `feature 0 <= 1`. -/
theorem simulateSplit_partition_witness :
    ([0, 1, 2] : indexes_t).Nodup ∧ HasCosts exCosts [0, 1, 2] ∧
    ∃ L R U, simulateSplit exDataset [0, 1, 2] exAttacker exCosts 1 0 = .ok (L, R, U) ∧
      (∀ i, i ∈ ([0, 1, 2] : indexes_t) ↔ (i ∈ L ∨ i ∈ R ∨ i ∈ U)) ∧
      (∀ i, ¬ (i ∈ L ∧ i ∈ R) ∧ ¬ (i ∈ L ∧ i ∈ U) ∧ ¬ (i ∈ R ∧ i ∈ U)) ∧
      (L ++ R ++ U).Nodup ∧
      L.length + R.length + U.length = ([0, 1, 2] : indexes_t).length :=
  ⟨by decide, by decide,
    simulateSplit_partition exDataset [0, 1, 2] exAttacker exCosts 1 0 (by decide) (by decide)⟩

/-- Instance of `simulateSplit_classification` on the example dataset. -/
theorem simulateSplit_classification_witness :
    HasCosts exCosts [0, 1, 2] ∧
    ∃ L R U, simulateSplit exDataset [0, 1, 2] exAttacker exCosts 1 0 = .ok (L, R, U) ∧
      ∀ i ∈ ([0, 1, 2] : indexes_t), ∀ c, exCosts.lookup i = some c →
        exAttacker.attack (exDataset.getRecord i) 0 c ≠ [] →
        (i ∈ L ↔ ∀ atk ∈ exAttacker.attack (exDataset.getRecord i) 0 c,
            placesLeft (exDataset.isFeatureNumerical 0) 0 1 atk.1) ∧
        (i ∈ R ↔ ∀ atk ∈ exAttacker.attack (exDataset.getRecord i) 0 c,
            ¬ placesLeft (exDataset.isFeatureNumerical 0) 0 1 atk.1) ∧
        (i ∈ U ↔ (¬ ∀ atk ∈ exAttacker.attack (exDataset.getRecord i) 0 c,
            placesLeft (exDataset.isFeatureNumerical 0) 0 1 atk.1) ∧
          ¬ ∀ atk ∈ exAttacker.attack (exDataset.getRecord i) 0 c,
            ¬ placesLeft (exDataset.isFeatureNumerical 0) 0 1 atk.1) ∧
        attackLoop (exDataset.isFeatureNumerical 0) 0 1
            (exAttacker.attack (exDataset.getRecord i) 0 c) true true =
          attackLoopNoBreak (exDataset.isFeatureNumerical 0) 0 1
            (exAttacker.attack (exDataset.getRecord i) 0 c) :=
  ⟨by decide, simulateSplit_classification exDataset [0, 1, 2] exAttacker exCosts 1 0 (by decide)⟩

/-! ## The objective and the constraints -/

theorem foldl_add_eq_sum (g : index_t → ℚ) (l : List index_t) (a : ℚ) :
    l.foldl (fun ret i => ret + g i) a = a + (l.map g).sum := by
  induction l generalizing a with
  | nil => simp
  | cons i rest ih => simp [ih, add_assoc]

/-- The lambda `f` is the SSE under maximal attack. -/
theorem sseCostFunction_f_eq (y : List prediction_t) (L R U : indexes_t) (left right : ℚ) :
    sseCostFunction.f y L R U [left, right] =
      (L.map (fun i => (vecAt y i - left) ^ 2)).sum +
      (R.map (fun i => (vecAt y i - right) ^ 2)).sum +
      (U.map (fun i => max ((vecAt y i - left) ^ 2) ((vecAt y i - right) ^ 2))).sum := by
  have hmax : ∀ a b : ℚ, (if a > b then a else b) = max a b := by
    intro a b
    by_cases h : a > b
    · simp [h, max_eq_left (le_of_lt h)]
    · simp [h, max_eq_right (not_lt.mp h)]
  simp only [sseCostFunction.f, foldl_add_eq_sum, hmax, vecAt, List.getD_cons_zero,
    List.getD_cons_succ, zero_add, pow_two]

/-- C3: for every label vector `y`, index lists `L`, `R`, `U` and point `(left, right)`,
the value returned by `sseCostFunction` is
`sum_{i in L} (y_i - left)^2 + sum_{i in R} (y_i - right)^2 +
 sum_{i in U} max((y_i - left)^2, (y_i - right)^2)` (exact arithmetic), whatever the
gradient vector and the evaluation count passed in. -/
theorem sseCostFunction_value (y : List label_t) (L R U : indexes_t) (left right : ℚ)
    (grad : List ℚ) (count : Nat) :
    ∃ grad1 d1, sseCostFunction [left, right] grad ⟨y, L, R, U, count⟩ =
      .ok ((L.map (fun i => (vecAt y i - left) ^ 2)).sum +
        (R.map (fun i => (vecAt y i - right) ^ 2)).sum +
        (U.map (fun i => max ((vecAt y i - left) ^ 2) ((vecAt y i - right) ^ 2))).sum,
        grad1, d1) := by
  unfold sseCostFunction
  by_cases hg : grad.isEmpty = true
  · simp [hg, sseCostFunction_f_eq]
  · simp [hg, sseCostFunction.approxJacobian, sseCostFunction_f_eq]

/-- C4: the value returned by `constraintFunction` at the point `(x0, x1)` is
`sign(q) * ((x0 - y)^2 - (b - y)^2)` for direction `L`,
`sign(q) * ((x1 - y)^2 - (b - y)^2)` for direction `R`,
`min((x0 - y)^2, (x1 - y)^2) - (b - y)^2` for direction `U` with `q = false`,
`max((x0 - y)^2, (x1 - y)^2) - (b - y)^2` for direction `U` with `q = true`,
and any other direction raises the error "Unexpected direction". -/
theorem constraintFunction_value (x0 x1 : ℚ) (grad : List ℚ) (c : Constraint) :
    (constraintFunction [x0, x1] grad c).map Prod.fst =
      if c.direction = 'L' then
        .ok (signOf c.inequality * ((x0 - c.y) ^ 2 - (c.bound - c.y) ^ 2))
      else if c.direction = 'R' then
        .ok (signOf c.inequality * ((x1 - c.y) ^ 2 - (c.bound - c.y) ^ 2))
      else if c.direction = 'U' then
        if c.inequality = false then
          .ok (min ((x0 - c.y) ^ 2) ((x1 - c.y) ^ 2) - (c.bound - c.y) ^ 2)
        else
          .ok (max ((x0 - c.y) ^ 2) ((x1 - c.y) ^ 2) - (c.bound - c.y) ^ 2)
      else .error .unexpectedDirection := by
  have hmin : ∀ a b : ℚ, (if a < b then a else b) = min a b := by
    intro a b
    by_cases h : a < b
    · simp [h, min_eq_left (le_of_lt h)]
    · simp [h, min_eq_right (not_lt.mp h)]
  have hmax : ∀ a b : ℚ, (if a < b then b else a) = max a b := by
    intro a b
    by_cases h : a < b
    · simp [h, max_eq_right (le_of_lt h)]
    · simp [h, max_eq_left (not_lt.mp h)]
  obtain ⟨cx, cy, cc, q, b, dir⟩ := c
  simp only [constraintFunction, vecAt, List.getD_cons_zero, List.getD_cons_succ, hmin, hmax]
  by_cases hL : dir = 'L'
  · subst hL
    cases q <;> by_cases hg : grad.isEmpty = true <;>
      simp [hg, signOf, Except.map] <;> ring
  · by_cases hR : dir = 'R'
    · subst hR
      cases q <;> by_cases hg : grad.isEmpty = true <;>
        simp [hg, signOf, Except.map] <;> ring
    · by_cases hU : dir = 'U'
      · subst hU
        cases q <;> by_cases hg : grad.isEmpty = true <;>
          by_cases hlt : (x0 - cy) * (x0 - cy) < (x1 - cy) * (x1 - cy) <;>
          simp [hg, hlt, Except.map, pow_two]
      · by_cases hg : grad.isEmpty = true <;> simp [hg, hL, hR, hU, Except.map]

/-! ## The selection of the best candidate -/

theorem keepBest_none (acc : Option OptimizeOutput) : keepBest acc none = acc := rfl

theorem keepBest_some (acc : Option OptimizeOutput) (c : OptimizeOutput) :
    keepBest acc (some c) = if c.bestGain > gainOf acc then some c else acc := rfl

theorem gainOf_none : gainOf none = -1 := rfl

theorem gainOf_some (c : OptimizeOutput) : gainOf (some c) = c.bestGain := rfl

theorem gainOf_ge (acc : Option OptimizeOutput) (h : SelInv acc) : -1 ≤ gainOf acc := by
  cases acc with
  | none => simp [gainOf]
  | some c => exact le_of_lt (h c rfl)

theorem selInv_none : SelInv none := by
  intro c h; cases h

theorem selInv_keepBest (acc c : Option OptimizeOutput) (h : SelInv acc) :
    SelInv (keepBest acc c) := by
  cases c with
  | none => simpa [keepBest] using h
  | some d =>
    rw [keepBest_some]
    split_ifs with hd
    · intro e he
      cases he
      exact lt_of_le_of_lt (gainOf_ge acc h) hd
    · exact h

theorem selInv_foldl (cs : List (Option OptimizeOutput)) (acc : Option OptimizeOutput)
    (h : SelInv acc) : SelInv (cs.foldl keepBest acc) := by
  induction cs generalizing acc with
  | nil => simpa using h
  | cons c cs ih => exact ih _ (selInv_keepBest acc c h)

theorem selInv_selectBest (cs : List (Option OptimizeOutput)) : SelInv (selectBest cs) :=
  selInv_foldl cs none selInv_none

theorem keepBest_assoc (acc c s : Option OptimizeOutput) (h : SelInv acc) :
    keepBest (keepBest acc c) s = keepBest acc (keepBest (keepBest none c) s) := by
  have hg := gainOf_ge acc h
  cases c with
  | none =>
    cases s with
    | none => rfl
    | some e =>
      simp only [keepBest_none, keepBest_some, gainOf_none]
      by_cases h1 : e.bestGain > -1
      · rw [if_pos h1, keepBest_some]
      · have h2 : ¬ e.bestGain > gainOf acc := fun h3 => h1 (lt_of_le_of_lt hg h3)
        rw [if_neg h1, if_neg h2, keepBest_none]
  | some d =>
    cases s with
    | none =>
      simp only [keepBest_none, keepBest_some, gainOf_none]
      by_cases h1 : d.bestGain > -1
      · rw [if_pos h1, keepBest_some]
      · have h2 : ¬ d.bestGain > gainOf acc := fun h3 => h1 (lt_of_le_of_lt hg h3)
        rw [if_neg h1, if_neg h2, keepBest_none]
    | some e =>
      simp only [keepBest_some, gainOf_none]
      by_cases h1 : d.bestGain > gainOf acc
      · have h2 : d.bestGain > -1 := lt_of_le_of_lt hg h1
        rw [if_pos h1, if_pos h2, gainOf_some]
        by_cases h3 : e.bestGain > d.bestGain
        · rw [if_pos h3, keepBest_some, if_pos (lt_trans h1 h3)]
        · rw [if_neg h3, keepBest_some, if_pos h1]
      · rw [if_neg h1]
        by_cases h2 : d.bestGain > -1
        · rw [if_pos h2, gainOf_some]
          by_cases h3 : e.bestGain > d.bestGain
          · rw [if_pos h3, keepBest_some]
          · have h4 : ¬ e.bestGain > gainOf acc :=
              fun h5 => h3 (lt_of_le_of_lt (not_lt.mp h1) h5)
            rw [if_neg h3, keepBest_some, if_neg h1, if_neg h4]
        · rw [if_neg h2, gainOf_none]
          by_cases h3 : e.bestGain > -1
          · rw [if_pos h3, keepBest_some]
          · have h4 : ¬ e.bestGain > gainOf acc := fun h5 => h3 (lt_of_le_of_lt hg h5)
            rw [if_neg h3, if_neg h4, keepBest_none]

theorem foldl_keepBest (cs : List (Option OptimizeOutput)) (acc : Option OptimizeOutput)
    (h : SelInv acc) : cs.foldl keepBest acc = keepBest acc (selectBest cs) := by
  induction cs generalizing acc with
  | nil => simp [selectBest, keepBest]
  | cons c cs ih =>
    have h1 : selectBest (c :: cs) = keepBest (keepBest none c) (selectBest cs) := by
      simp only [selectBest, List.foldl_cons]
      exact ih _ (selInv_keepBest none c selInv_none)
    rw [List.foldl_cons, ih _ (selInv_keepBest acc c h), h1]
    exact keepBest_assoc acc c (selectBest cs) h

theorem selectBest_append (a b : List (Option OptimizeOutput)) :
    selectBest (a ++ b) = keepBest (selectBest a) (selectBest b) := by
  unfold selectBest
  rw [List.foldl_append]
  exact foldl_keepBest b _ (selInv_selectBest a)

/-! ## The scan of a batch of features -/

theorem trySplit_ok (env : Env) (dataset : Dataset) (costs : cost_map) (attacker : Attacker)
    (validInstances : indexes_t) (constraints : List Constraint) (cps : ℚ) (j : index_t)
    (v : feature_t) (h : HasCosts costs validInstances) :
    optimizeOnSubset.trySplit env dataset costs attacker validInstances constraints cps j v =
      .ok (trySplitValue env dataset costs attacker validInstances constraints cps j v) := by
  have h1 := simulateSplit_ok dataset validInstances attacker costs v j h
  simp only [trySplitValue, optimizeOnSubset.trySplit, h1]

theorem recorded_gain {ret : OptimizeOutput} {acc : Option OptimizeOutput}
    (h : Recorded ret acc) : ret.bestGain = gainOf acc := by
  rcases h with h | ⟨h, h1⟩
  · subst h; rfl
  · subst h; exact h1

theorem valueLoop_eq (env : Env) (dataset : Dataset) (costs : cost_map) (attacker : Attacker)
    (validInstances : indexes_t) (constraints : List Constraint) (cs cps : ℚ) (j : index_t)
    (h : HasCosts costs validInstances) (vals : List feature_t) (ret : OptimizeOutput)
    (acc : Option OptimizeOutput) (hrel : Recorded ret acc) :
    ∃ r, optimizeOnSubset.valueLoop env dataset costs attacker validInstances constraints
        cs cps j vals ret = .ok r ∧
      Recorded r ((candidatesOfValues
        (trySplitValue env dataset costs attacker validInstances constraints cps j)
        cs j vals).foldl keepBest acc) := by
  induction vals generalizing ret acc with
  | nil => exact ⟨ret, rfl, hrel⟩
  | cons v rest ih =>
    simp only [optimizeOnSubset.valueLoop,
      trySplit_ok env dataset costs attacker validInstances constraints cps j v h,
      candidatesOfValues, List.foldl_cons]
    have hg := recorded_gain hrel
    rcases hT : trySplitValue env dataset costs attacker validInstances constraints cps j v
      with ⟨b, l, r, s⟩
    cases b with
    | false =>
      simp only [candidateOf, keepBest_none, Bool.false_eq_true, if_false]
      exact ih ret acc hrel
    | true =>
      simp only [candidateOf, if_true, keepBest_some]
      by_cases hgt : cs - s > ret.bestGain
      · have hgt2 : cs - s > gainOf acc := hg ▸ hgt
        simp only [hgt, hgt2, if_true]
        exact ih _ _ (Or.inl rfl)
      · have hgt2 : ¬ cs - s > gainOf acc := hg ▸ hgt
        simp only [hgt, hgt2, if_false]
        exact ih ret acc hrel

theorem featureLoop_eq (env : Env) (dataset : Dataset) (costs : cost_map) (attacker : Attacker)
    (validInstances : indexes_t) (constraints : List Constraint) (cs cps : ℚ)
    (h : HasCosts costs validInstances) (features : List index_t) (ret : OptimizeOutput)
    (acc : Option OptimizeOutput) (hrel : Recorded ret acc) :
    ∃ r, optimizeOnSubset.featureLoop env dataset costs attacker validInstances constraints
        cs cps features ret = .ok r ∧
      Recorded r ((candidatesOfFeatures
        (trySplitValue env dataset costs attacker validInstances constraints cps)
        dataset cs features).foldl keepBest acc) := by
  induction features generalizing ret acc with
  | nil => exact ⟨ret, rfl, hrel⟩
  | cons j rest ih =>
    obtain ⟨r1, h1, hrel1⟩ := valueLoop_eq env dataset costs attacker validInstances constraints
      cs cps j h (uniqueFeatureValues (dataset.getFeatureColumn j)) ret acc hrel
    simp only [optimizeOnSubset.featureLoop, h1, candidatesOfFeatures, List.foldl_append]
    exact ih r1 _ hrel1

theorem optimizeOnSubset_eq (env : Env) (dataset : Dataset) (costs : cost_map)
    (attacker : Attacker) (validInstances : indexes_t) (constraints : List Constraint)
    (cs cps : ℚ) (h : HasCosts costs validInstances) (subset : List index_t)
    (hne : subset ≠ []) :
    ∃ r, optimizeOnSubset env dataset costs attacker subset validInstances constraints cs cps =
        .ok r ∧
      Recorded r (selectBest (candidatesOfFeatures
        (trySplitValue env dataset costs attacker validInstances constraints cps)
        dataset cs subset)) := by
  cases subset with
  | nil => exact absurd rfl hne
  | cons first rest =>
    simp only [optimizeOnSubset, selectBest]
    exact featureLoop_eq env dataset costs attacker validInstances constraints cs cps h
      (first :: rest) _ none (Or.inr ⟨rfl, rfl⟩)

theorem candidatesOfFeatures_append
    (T : index_t → feature_t → Bool × feature_t × feature_t × feature_t) (dataset : Dataset)
    (cs : ℚ) (a b : List index_t) :
    candidatesOfFeatures T dataset cs (a ++ b) =
      candidatesOfFeatures T dataset cs a ++ candidatesOfFeatures T dataset cs b := by
  induction a with
  | nil => rfl
  | cons j rest ih => simp [candidatesOfFeatures, ih]

theorem applySelection_gain (out : GainOutputs) (acc : Option OptimizeOutput) :
    (applySelection out acc).bestGain = gainOf acc := by
  cases acc <;> rfl

theorem reduction_eq (env : Env) (dataset : Dataset) (costs : cost_map)
    (attacker : Attacker) (validInstances : indexes_t) (constraints : List Constraint)
    (cs cps : ℚ) (h : HasCosts costs validInstances) (out0 : GainOutputs)
    (bs : List (List index_t)) (hbs : ∀ b ∈ bs, b ≠ []) (acc : Option OptimizeOutput)
    (hacc : SelInv acc) :
    optimizeGain.reduction
        (bs.map (fun b => some (optimizeOnSubset env dataset costs attacker b validInstances
          constraints cs cps))) (applySelection out0 acc) =
      .ok (applySelection out0 ((candidatesOfFeatures
        (trySplitValue env dataset costs attacker validInstances constraints cps)
        dataset cs bs.flatten).foldl keepBest acc)) := by
  induction bs generalizing acc with
  | nil => simp [optimizeGain.reduction, candidatesOfFeatures]
  | cons b rest ih =>
    obtain ⟨r, hr, hrel⟩ := optimizeOnSubset_eq env dataset costs attacker validInstances
      constraints cs cps h b (hbs b (List.mem_cons_self b rest))
    have hrest : ∀ b ∈ rest, b ≠ [] := fun x hx => hbs x (List.mem_cons_of_mem b hx)
    simp only [List.map_cons, optimizeGain.reduction, hr, List.flatten_cons,
      candidatesOfFeatures_append, List.foldl_append, applySelection_gain]
    rw [foldl_keepBest _ acc hacc]
    have hg := gainOf_ge acc hacc
    rcases hrel with hrel | ⟨hrel, hr1⟩
    · rw [hrel, keepBest_some]
      by_cases hgt : r.bestGain > gainOf acc
      · simp only [hgt, if_true]
        have : SelInv (some r) := by
          intro c hc; cases hc; exact lt_of_le_of_lt hg hgt
        rw [← ih hrest (some r) this]
        cases acc <;> rfl
      · simp only [hgt, if_false]
        exact ih hrest acc hacc
    · rw [hrel, keepBest_none]
      have hgt : ¬ r.bestGain > gainOf acc := by
        rw [hr1]; exact not_lt.mpr hg
      simp only [hgt, if_false]
      exact ih hrest acc hacc

/-! ## The batches and the futures -/

theorem chunks_flatten (l : List index_t) (cs k : Nat) :
    ((List.range k).map (fun i => (l.drop (cs * i)).take cs)).flatten = l.take (cs * k) := by
  induction k with
  | zero => simp
  | succ k ih =>
    rw [List.range_succ, List.map_append, List.flatten_append, ih, Nat.mul_succ,
      List.take_add]
    simp

theorem flatten_singletons (l : List index_t) : (l.map (fun f => [f])).flatten = l := by
  induction l with
  | nil => rfl
  | cons f rest ih => simp [ih]

theorem batches_chunks (l : List index_t) (cs k : Nat) :
    (List.range (k + 1)).map (fun i =>
        if i = k then l.drop (cs * i) else (l.drop (cs * i)).take cs) =
      (List.range k).map (fun i => (l.drop (cs * i)).take cs) ++ [l.drop (cs * k)] := by
  rw [List.range_succ, List.map_append]
  congr 1
  · apply List.map_congr_left
    intro i hi
    have : i ≠ k := Nat.ne_of_lt (List.mem_range.mp hi)
    simp [this]
  · simp

/-- The batches of `optimizeGain` for at least one thread: they are consecutive pieces of
`validFeatures`, at most `numThreads` of them, exactly `numThreads` of them when
`WorkersOk`, and none of them is empty when `validFeatures` is not. -/
theorem batches_spec (numThreads : Nat) (validFeatures : indexes_t) (hW : 1 ≤ numThreads) :
    ∃ bs, optimizeGain.batches numThreads validFeatures = .ok bs ∧
      bs.flatten = validFeatures ∧ bs.length ≤ numThreads ∧
      (bs.length = numThreads ↔ WorkersOk numThreads validFeatures) ∧
      (validFeatures ≠ [] → ∀ b ∈ bs, b ≠ []) := by
  unfold optimizeGain.batches WorkersOk
  have h0 : numThreads ≠ 0 := by omega
  by_cases h1 : numThreads = 1
  · subst h1
    refine ⟨[validFeatures], by simp, by simp, by simp, by simp, ?_⟩
    intro hne b hb
    simp only [List.mem_singleton] at hb
    subst hb; exact hne
  · by_cases h2 : numThreads < validFeatures.length
    · obtain ⟨k, rfl⟩ : ∃ k, numThreads = k + 1 := ⟨numThreads - 1, by omega⟩
      have hcs : (validFeatures.length / (k + 1)) * (k + 1) ≤ validFeatures.length :=
        Nat.div_mul_le_self _ _
      have hcs1 : 1 ≤ validFeatures.length / (k + 1) := by
        rw [Nat.le_div_iff_mul_le (by omega)]; omega
      have hmul : (validFeatures.length / (k + 1)) * (k + 1) =
          validFeatures.length / (k + 1) * k + validFeatures.length / (k + 1) := by ring
      refine ⟨_, by simp only [h0, h1, h2, if_true, if_false]; rfl, ?_, ?_, ?_, ?_⟩
      · simp only [Nat.add_sub_cancel]
        rw [batches_chunks, List.flatten_append, chunks_flatten]
        simp
      · simp
      · simp only [List.length_map, List.length_range, true_iff]
        right; omega
      · intro _ b hb
        simp only [Nat.add_sub_cancel, List.mem_map, List.mem_range] at hb
        obtain ⟨i, hi, rfl⟩ := hb
        have hik : validFeatures.length / (k + 1) * i < validFeatures.length := by
          have : validFeatures.length / (k + 1) * i ≤ validFeatures.length / (k + 1) * k :=
            Nat.mul_le_mul_left _ (by omega)
          omega
        intro hnil
        have hlen := congrArg List.length hnil
        split_ifs at hlen with hlast
        · simp only [List.length_drop, List.length_nil] at hlen
          omega
        · simp only [List.length_take, List.length_drop, List.length_nil] at hlen
          omega
    · refine ⟨_, by simp only [h0, h1, h2, if_false]; rfl, ?_, ?_, ?_, ?_⟩
      · exact flatten_singletons validFeatures
      · simp only [List.length_map]; omega
      · simp only [List.length_map]
        constructor
        · intro h; right; omega
        · rintro (h | h) <;> omega
      · intro _ b hb
        simp only [List.mem_map] at hb
        obtain ⟨f, _, rfl⟩ := hb
        simp

theorem batchResults_eq (env : Env) (dataset : Dataset) (validInstances : indexes_t)
    (attacker : Attacker) (costs : cost_map) (constraints : List Constraint) (cs cps : ℚ)
    (numThreads : Nat) (bs : List (List index_t)) (h : bs.length = numThreads) :
    optimizeGain.batchResults env dataset validInstances attacker costs constraints cs cps
        numThreads bs =
      bs.map (fun b => some (optimizeOnSubset env dataset costs attacker b validInstances
        constraints cs cps)) := by
  subst h
  unfold optimizeGain.batchResults
  apply List.ext_getElem?
  intro n
  by_cases hn : n < bs.length
  · simp [List.getElem?_map, List.getElem?_range hn, List.getElem?_eq_getElem hn]
  · have hn2 : bs.length ≤ n := not_lt.mp hn
    simp [List.getElem?_map, List.getElem?_eq_none, hn2]

theorem batchResults_none (env : Env) (dataset : Dataset) (validInstances : indexes_t)
    (attacker : Attacker) (costs : cost_map) (constraints : List Constraint) (cs cps : ℚ)
    (numThreads : Nat) (bs : List (List index_t)) (h : bs.length < numThreads) :
    none ∈ optimizeGain.batchResults env dataset validInstances attacker costs constraints
      cs cps numThreads bs := by
  unfold optimizeGain.batchResults
  rw [List.mem_map]
  exact ⟨bs.length, List.mem_range.mpr h, by simp [List.get?_eq_none.mpr (le_refl _)]⟩

theorem reduction_none (futs : List (Option (Except Error OptimizeOutput)))
    (h : none ∈ futs) (out : GainOutputs) :
    ∃ e, optimizeGain.reduction futs out = .error e := by
  induction futs generalizing out with
  | nil => cases h
  | cons fut rest ih =>
    cases fut with
    | none => exact ⟨_, rfl⟩
    | some r =>
      have hrest : none ∈ rest := by
        rcases List.mem_cons.mp h with h1 | h1
        · cases h1
        · exact h1
      cases r with
      | error e => exact ⟨e, rfl⟩
      | ok r =>
        simp only [optimizeGain.reduction]
        exact ih hrest _

/-! ## The work on the selected split -/

theorem mapAt_eq_ok {costs : cost_map} {i : index_t} {c : cost_t} (h : mapAt costs i = .ok c) :
    costs.lookup i = some c := by
  unfold mapAt at h
  cases hl : costs.lookup i with
  | none => rw [hl] at h; cases h
  | some d => rw [hl] at h; cases h; rfl

theorem simulateSplitLoop_hasCosts (dataset : Dataset) (attacker : Attacker) (costs : cost_map)
    (v : feature_t) (j : index_t) (num : Bool) (l : List index_t)
    (acc r : indexes_t × indexes_t × indexes_t)
    (h : simulateSplitLoop dataset attacker costs v j num l acc = .ok r) : HasCosts costs l := by
  induction l generalizing acc with
  | nil => intro i hi; cases hi
  | cons i rest ih =>
    obtain ⟨L, R, U⟩ := acc
    unfold simulateSplitLoop at h
    cases hm : mapAt costs i with
    | error e => rw [hm] at h; cases h
    | ok c =>
      rw [hm] at h
      have hrest : HasCosts costs rest := by
        simp only at h
        split_ifs at h
        · exact ih _ h
        · exact ih _ h
        · exact ih _ h
      intro k hk
      rcases List.mem_cons.mp hk with hk | hk
      · subst hk; simp [mapAt_eq_ok hm]
      · exact hrest k hk

theorem simulateSplit_hasCosts (dataset : Dataset) (validInstances : indexes_t)
    (attacker : Attacker) (costs : cost_map) (v : feature_t) (j : index_t)
    (r : indexes_t × indexes_t × indexes_t)
    (h : simulateSplit dataset validInstances attacker costs v j = .ok r) :
    HasCosts costs validInstances := by
  simp only [simulateSplit, List.isEmpty_nil, Bool.and_self, Bool.not_true,
    Bool.false_eq_true, if_false] at h
  exact simulateSplitLoop_hasCosts _ _ _ _ _ _ _ _ _ h

theorem lookup_cons_eq (i k : index_t) (v : cost_t) (rest : cost_map) :
    List.lookup i ((k, v) :: rest) = if i = k then some v else List.lookup i rest := by
  by_cases h : i = k
  · subst h; simp [List.lookup]
  · have hb : (i == k) = false := by simpa using h
    simp [List.lookup, hb, h]

theorem lookup_mapAssign (m : cost_map) (k : index_t) (v : cost_t) (i : index_t) :
    (mapAssign m k v).lookup i = if i = k then some v else m.lookup i := by
  induction m with
  | nil => simp [mapAssign, lookup_cons_eq]
  | cons e rest ih =>
    obtain ⟨k0, v0⟩ := e
    unfold mapAssign
    by_cases h0 : k0 = k
    · subst h0
      by_cases h : i = k0
      · simp [lookup_cons_eq, h]
      · simp [lookup_cons_eq, h]
    · by_cases h : i = k0
      · subst h
        simp [lookup_cons_eq, h0]
      · simp only [h0, if_false, lookup_cons_eq, h, ih]

theorem copyCosts_lookup (costs : cost_map) (l : List index_t) (m m1 : cost_map)
    (h : optimizeGain.copyCosts costs l m = .ok m1) (i : index_t) :
    m1.lookup i = if i ∈ l then costs.lookup i else m.lookup i := by
  induction l generalizing m with
  | nil =>
    simp only [optimizeGain.copyCosts] at h
    cases h; simp
  | cons k rest ih =>
    unfold optimizeGain.copyCosts at h
    cases hm : mapAt costs k with
    | error e => rw [hm] at h; cases h
    | ok c =>
      rw [hm] at h
      have h1 := ih _ h
      rw [h1, lookup_mapAssign]
      by_cases hi : i ∈ rest
      · simp [hi]
      · by_cases hik : i = k
        · subst hik; simp [hi, mapAt_eq_ok hm]
        · simp [hi, hik]

theorem copyCosts_ok (costs : cost_map) (l : List index_t) (m : cost_map)
    (h : HasCosts costs l) : ∃ m1, optimizeGain.copyCosts costs l m = .ok m1 := by
  induction l generalizing m with
  | nil => exact ⟨m, rfl⟩
  | cons k rest ih =>
    obtain ⟨c, hc⟩ := Option.isSome_iff_exists.mp (h k (List.mem_cons_self k rest))
    unfold optimizeGain.copyCosts
    rw [mapAt_of_lookup hc]
    exact ih _ (fun x hx => h x (List.mem_cons_of_mem k hx))

theorem costsOnRight_foldl (dataset : Dataset) (f : index_t) (v : split_value_t)
    (attacks : List (record_t × cost_t)) (acc : List cost_t) :
    attacks.foldl (fun costsOnRight atk =>
      if dataset.isFeatureNumerical f then
        if vecAt atk.1 f > v then costsOnRight ++ [atk.2] else costsOnRight
      else
        if vecAt atk.1 f ≠ v then costsOnRight ++ [atk.2] else costsOnRight) acc =
      acc ++ costsOnRightOf (dataset.isFeatureNumerical f) f v attacks := by
  induction attacks generalizing acc with
  | nil => simp [costsOnRightOf]
  | cons atk rest ih =>
    rw [List.foldl_cons, ih]
    cases hnum : dataset.isFeatureNumerical f
    · by_cases hp : vecAt atk.1 f = v <;>
        simp [costsOnRightOf, placesLeft, hp, List.filter_cons]
    · by_cases hp : vecAt atk.1 f ≤ v
      · simp [costsOnRightOf, placesLeft, hp, List.filter_cons, not_lt.mpr hp]
      · simp [costsOnRightOf, placesLeft, hp, List.filter_cons, not_le.mp hp]

/-- The lambda `costMinRight` returns the least cost of the attacks landing on the right,
and fails exactly when there is no such attack. -/
theorem costMinRight_spec (dataset : Dataset) (f : index_t) (v : split_value_t)
    (attacks : List (record_t × cost_t)) :
    (costsOnRightOf (dataset.isFeatureNumerical f) f v attacks = [] ∧
      optimizeGain.costMinRight dataset attacks f v = .error .noRightCost) ∨
    (∃ c, optimizeGain.costMinRight dataset attacks f v = .ok c ∧
      c ∈ costsOnRightOf (dataset.isFeatureNumerical f) f v attacks ∧
      ∀ d ∈ costsOnRightOf (dataset.isFeatureNumerical f) f v attacks, c ≤ d) := by
  unfold optimizeGain.costMinRight
  rw [costsOnRight_foldl, List.nil_append]
  cases hl : costsOnRightOf (dataset.isFeatureNumerical f) f v attacks with
  | nil => left; simp
  | cons a rest =>
    right
    have hperm := List.perm_insertionSort (fun a b : ℚ => a ≤ b) (a :: rest)
    have hsorted := List.sorted_insertionSort (fun a b : ℚ => a ≤ b) (a :: rest)
    cases hs : List.insertionSort (fun a b : ℚ => a ≤ b) (a :: rest) with
    | nil =>
      rw [hs] at hperm
      exact absurd hperm.symm (List.cons_ne_nil _ _ ∘ List.Perm.eq_nil)
    | cons c tail =>
      rw [hs] at hperm hsorted
      refine ⟨c, by simp only [List.isEmpty_cons, Bool.false_eq_true, if_false, hs],
        hperm.subset (List.mem_cons_self c tail), ?_⟩
      intro d hd
      have hd2 : d ∈ c :: tail := hperm.symm.subset hd
      rcases List.mem_cons.mp hd2 with h1 | h1
      · rw [h1]
      · exact List.rel_of_sorted_cons hsorted d h1

/-- What the loop over the unknown instances leaves in its state when it ends: the
instances sent to each side, and the entries of the two cost maps. -/
theorem unknownLoop_spec (env : Env) (dataset : Dataset) (attacker : Attacker)
    (costs : cost_map) (f : index_t) (v : split_value_t) (pl pr : prediction_t)
    (l : List index_t) (st0 st : Redistribution)
    (h : optimizeGain.unknownLoop env dataset attacker costs f v pl pr l st0 = .ok st) :
    st.unknownIndexesToLeft = st0.unknownIndexesToLeft ++
        l.filter (fun i => goesLeft (vecAt dataset.getLabels i) pl pr) ∧
    st.unknownIndexesToRight = st0.unknownIndexesToRight ++
        l.filter (fun i => !goesLeft (vecAt dataset.getLabels i) pl pr) ∧
    (∀ i, st.costsLeft.lookup i =
      if i ∈ l ∧ goesLeft (vecAt dataset.getLabels i) pl pr = true then
        (attacksOf dataset attacker costs f i).head?.map (fun atk => atk.2)
      else st0.costsLeft.lookup i) ∧
    (∀ i, st.costsRight.lookup i =
      if i ∈ l ∧ goesLeft (vecAt dataset.getLabels i) pl pr = false then
        (optimizeGain.costMinRight dataset (attacksOf dataset attacker costs f i) f v).toOption
      else st0.costsRight.lookup i) := by
  induction l generalizing st0 with
  | nil =>
    simp only [optimizeGain.unknownLoop] at h
    cases h
    simp
  | cons k rest ih =>
    unfold optimizeGain.unknownLoop at h
    cases hm : mapAt costs k with
    | error e => rw [hm] at h; cases h
    | ok cost =>
      rw [hm] at h
      have hcost : costOf costs k = cost := costOf_of_lookup (mapAt_eq_ok hm)
      simp only at h
      cases hatt : attacker.attack (dataset.getRecord k) f cost with
      | nil => rw [hatt] at h; cases h
      | cons a0 tail =>
        rw [hatt] at h
        have hattk : attacksOf dataset attacker costs f k = a0 :: tail := by
          simp [attacksOf, hcost, hatt]
        simp only at h
        by_cases hgl : goesLeft (vecAt dataset.getLabels k) pl pr = true
        · have hcond := hgl
          simp only [goesLeft, decide_eq_true_eq] at hcond
          rw [if_pos hcond] at h
          obtain ⟨h1, h2, h3, h4⟩ := ih _ h
          refine ⟨?_, ?_, ?_, ?_⟩
          · simp [h1, List.filter_cons, hgl]
          · simp [h2, List.filter_cons, hgl]
          · intro i
            rw [h3 i]
            simp only [lookup_mapAssign, List.mem_cons]
            by_cases hi : i ∈ rest ∧ goesLeft (vecAt dataset.getLabels i) pl pr = true
            · simp [hi]
            · by_cases hik : i = k
              · subst hik
                simp [hi, hgl, hattk]
              · simp [hi, hik]
          · intro i
            rw [h4 i]
            simp only [List.mem_cons]
            by_cases hik : i = k
            · subst hik
              simp [hgl]
            · simp [hik]
        · have hgl2 : goesLeft (vecAt dataset.getLabels k) pl pr = false := by
            simpa using hgl
          have hcond := hgl
          simp only [goesLeft, decide_eq_true_eq] at hcond
          rw [if_neg hcond] at h
          cases hc : optimizeGain.costMinRight dataset (a0 :: tail) f v with
          | error e => rw [hc] at h; cases h
          | ok c =>
            rw [hc] at h
            obtain ⟨h1, h2, h3, h4⟩ := ih _ h
            refine ⟨?_, ?_, ?_, ?_⟩
            · simp [h1, List.filter_cons, hgl2]
            · simp [h2, List.filter_cons, hgl2]
            · intro i
              rw [h3 i]
              simp only [List.mem_cons]
              by_cases hik : i = k
              · subst hik
                simp [hgl2]
              · simp [hik]
            · intro i
              rw [h4 i]
              simp only [lookup_mapAssign, List.mem_cons]
              by_cases hi : i ∈ rest ∧ goesLeft (vecAt dataset.getLabels i) pl pr = false
              · simp [hi]
              · by_cases hik : i = k
                · subst hik
                  simp [hi, hgl2, hattk, hc, Except.toOption]
                · simp [hi, hik]

theorem simulateSplit_eq (dataset : Dataset) (validInstances : indexes_t) (attacker : Attacker)
    (costs : cost_map) (v : feature_t) (j : index_t) (h : HasCosts costs validInstances) :
    simulateSplit dataset validInstances attacker costs v j =
      .ok (certainLeft dataset validInstances attacker costs v j,
           certainRight dataset validInstances attacker costs v j,
           uncertain dataset validInstances attacker costs v j) :=
  simulateSplit_ok dataset validInstances attacker costs v j h

theorem flagsOf_eq (dataset : Dataset) (attacker : Attacker) (costs : cost_map)
    (v : feature_t) (j : index_t) (i : index_t) :
    flagsOf dataset attacker costs v j i =
      ((attacksOf dataset attacker costs j i).all
          (fun atk => decide (placesLeft (dataset.isFeatureNumerical j) j v atk.1)),
       (attacksOf dataset attacker costs j i).all
          (fun atk => !decide (placesLeft (dataset.isFeatureNumerical j) j v atk.1))) := by
  simp [flagsOf, attacksOf, attackLoop_eq]

/-- An instance of the unknown set has an attack landing on the right of the split. -/
theorem uncertain_costsOnRight (dataset : Dataset) (validInstances : indexes_t)
    (attacker : Attacker) (costs : cost_map) (v : feature_t) (j : index_t) (i : index_t)
    (hi : i ∈ uncertain dataset validInstances attacker costs v j) :
    costsOnRightOf (dataset.isFeatureNumerical j) j v (attacksOf dataset attacker costs j i) ≠
      [] := by
  simp only [uncertain, List.mem_filter, flagsOf_eq, Bool.and_eq_true, Bool.not_eq_true',
    List.all_eq_false, decide_eq_true_eq] at hi
  obtain ⟨_, ⟨atk, hmem, hnot⟩, _⟩ := hi
  intro hnil
  have : atk.2 ∈ costsOnRightOf (dataset.isFeatureNumerical j) j v
      (attacksOf dataset attacker costs j i) := by
    simp only [costsOnRightOf, List.mem_map, List.mem_filter]
    exact ⟨atk, ⟨hmem, by simpa using hnot⟩, rfl⟩
  rw [hnil] at this
  cases this

theorem unknownLoop_ok (env : Env) (dataset : Dataset) (attacker : Attacker)
    (costs : cost_map) (f : index_t) (v : split_value_t) (pl pr : prediction_t)
    (l : List index_t) (hcosts : HasCosts costs l)
    (hright : ∀ i ∈ l, costsOnRightOf (dataset.isFeatureNumerical f) f v
      (attacksOf dataset attacker costs f i) ≠ [])
    (st0 : Redistribution) :
    ∃ st, optimizeGain.unknownLoop env dataset attacker costs f v pl pr l st0 = .ok st := by
  induction l generalizing st0 with
  | nil => exact ⟨st0, rfl⟩
  | cons k rest ih =>
    obtain ⟨cost, hc⟩ := Option.isSome_iff_exists.mp (hcosts k (List.mem_cons_self k rest))
    have hrest : HasCosts costs rest := fun x hx => hcosts x (List.mem_cons_of_mem k hx)
    have hright2 : ∀ i ∈ rest, costsOnRightOf (dataset.isFeatureNumerical f) f v
        (attacksOf dataset attacker costs f i) ≠ [] :=
      fun x hx => hright x (List.mem_cons_of_mem k hx)
    have hk := hright k (List.mem_cons_self k rest)
    have hattk : attacksOf dataset attacker costs f k =
        attacker.attack (dataset.getRecord k) f cost := by
      simp [attacksOf, costOf_of_lookup hc]
    rw [hattk] at hk
    unfold optimizeGain.unknownLoop
    rw [mapAt_of_lookup hc]
    simp only
    cases hatt : attacker.attack (dataset.getRecord k) f cost with
    | nil => rw [hatt] at hk; exact absurd rfl hk
    | cons a0 tail =>
      simp only
      by_cases hgl : goesLeft (vecAt dataset.getLabels k) pl pr = true
      · have hcond := hgl
        simp only [goesLeft, decide_eq_true_eq] at hcond
        rw [if_pos hcond]
        exact ih hrest hright2 _
      · have hcond := hgl
        simp only [goesLeft, decide_eq_true_eq] at hcond
        rw [if_neg hcond]
        rcases costMinRight_spec dataset f v (a0 :: tail) with ⟨h1, _⟩ | ⟨c, h1, _⟩
        · rw [hatt] at hk; exact absurd h1 hk
        · rw [h1]
          exact ih hrest hright2 _

/-- When the gain left by the reduction is positive and `commit` returns, it returns
`true`, every valid instance has a cost, the constraints and the cost maps passed in were
empty, and the outputs are those of the three loops on the selected split. -/
theorem commit_true (env : Env) (dataset : Dataset) (validInstances : indexes_t)
    (attacker : Attacker) (costs : cost_map) (constraints : List Constraint)
    (out1 out : GainOutputs) (b : Bool) (hg : out1.bestGain > 0)
    (h : optimizeGain.commit env dataset validInstances attacker costs constraints out1 =
      .ok (b, out)) :
    b = true ∧ HasCosts costs validInstances ∧
    out1.constraintsLeft = [] ∧ out1.constraintsRight = [] ∧
    out1.costsLeft = [] ∧ out1.costsRight = [] ∧
    ∃ st cl cr,
      optimizeGain.unknownLoop env dataset attacker costs out1.bestSplitFeatureId
        out1.bestSplitValue out1.bestPredLeft out1.bestPredRight
        (uncertain dataset validInstances attacker costs out1.bestSplitValue
          out1.bestSplitFeatureId)
        { costsLeft := []
          costsRight := []
          constraintsLeft := (optimizeGain.propagate env attacker constraints
            out1.bestSplitFeatureId out1.bestSplitValue
            (dataset.isFeatureNumerical out1.bestSplitFeatureId) [] []).1
          constraintsRight := (optimizeGain.propagate env attacker constraints
            out1.bestSplitFeatureId out1.bestSplitValue
            (dataset.isFeatureNumerical out1.bestSplitFeatureId) [] []).2
          unknownIndexesToLeft := []
          unknownIndexesToRight := [] } = .ok st ∧
      optimizeGain.copyCosts costs (certainLeft dataset validInstances attacker costs
        out1.bestSplitValue out1.bestSplitFeatureId) st.costsLeft = .ok cl ∧
      optimizeGain.copyCosts costs (certainRight dataset validInstances attacker costs
        out1.bestSplitValue out1.bestSplitFeatureId) st.costsRight = .ok cr ∧
      out = { out1 with
        bestSplitLeft := certainLeft dataset validInstances attacker costs
          out1.bestSplitValue out1.bestSplitFeatureId ++ st.unknownIndexesToLeft
        bestSplitRight := certainRight dataset validInstances attacker costs
          out1.bestSplitValue out1.bestSplitFeatureId ++ st.unknownIndexesToRight
        constraintsLeft := st.constraintsLeft
        constraintsRight := st.constraintsRight
        costsLeft := cl
        costsRight := cr } := by
  unfold optimizeGain.commit at h
  rw [if_pos hg] at h
  cases hsim : simulateSplit dataset validInstances attacker costs out1.bestSplitValue
      out1.bestSplitFeatureId with
  | error e => rw [hsim] at h; cases h
  | ok r =>
    have hcosts := simulateSplit_hasCosts _ _ _ _ _ _ _ hsim
    rw [simulateSplit_eq _ _ _ _ _ _ hcosts] at h
    simp only at h
    cases hcl : out1.constraintsLeft with
    | cons c t => simp [hcl] at h
    | nil =>
      cases hcr : out1.constraintsRight with
      | cons c t => simp [hcl, hcr] at h
      | nil =>
        cases hkl : out1.costsLeft with
        | cons c t => simp [hcl, hcr, hkl] at h
        | nil =>
          cases hkr : out1.costsRight with
          | cons c t => simp [hcl, hcr, hkl, hkr] at h
          | nil =>
            simp only [hcl, hcr, hkl, hkr, List.isEmpty_nil, Bool.and_self, Bool.not_true,
              Bool.false_eq_true, if_false] at h
            refine ⟨?_, hcosts, rfl, rfl, rfl, rfl, ?_⟩
            · revert h
              split
              · intro h; cases h
              · split
                · intro h; cases h
                · split
                  · intro h; cases h
                  · intro h; cases h; rfl
            · revert h
              split
              · intro h; cases h
              · rename_i st hst
                split
                · intro h; cases h
                · rename_i cl hcl2
                  split
                  · intro h; cases h
                  · rename_i cr hcr2
                    intro h
                    cases h
                    exact ⟨st, cl, cr, hst, hcl2, hcr2, rfl⟩

theorem commit_false (env : Env) (dataset : Dataset) (validInstances : indexes_t)
    (attacker : Attacker) (costs : cost_map) (constraints : List Constraint)
    (out1 : GainOutputs) (hg : ¬ out1.bestGain > 0) :
    optimizeGain.commit env dataset validInstances attacker costs constraints out1 =
      .ok (false, out1) := by
  unfold optimizeGain.commit
  rw [if_neg hg]

theorem uncertain_hasCosts (dataset : Dataset) (validInstances : indexes_t)
    (attacker : Attacker) (costs : cost_map) (v : feature_t) (j : index_t)
    (h : HasCosts costs validInstances) :
    HasCosts costs (uncertain dataset validInstances attacker costs v j) ∧
    HasCosts costs (certainLeft dataset validInstances attacker costs v j) ∧
    HasCosts costs (certainRight dataset validInstances attacker costs v j) :=
  ⟨fun i hi => h i (List.mem_filter.mp hi).1, fun i hi => h i (List.mem_filter.mp hi).1,
    fun i hi => h i (List.mem_filter.mp hi).1⟩

/-- With a positive gain after the reduction, a cost for every valid instance and empty
output constraints and cost maps, `commit` returns `true`: none of its errors is raised. -/
theorem commit_ok (env : Env) (dataset : Dataset) (validInstances : indexes_t)
    (attacker : Attacker) (costs : cost_map) (constraints : List Constraint)
    (out1 : GainOutputs) (hg : out1.bestGain > 0) (hcosts : HasCosts costs validInstances)
    (h1 : out1.constraintsLeft = []) (h2 : out1.constraintsRight = [])
    (h3 : out1.costsLeft = []) (h4 : out1.costsRight = []) :
    ∃ out, optimizeGain.commit env dataset validInstances attacker costs constraints out1 =
      .ok (true, out) := by
  obtain ⟨hU, hL, hR⟩ := uncertain_hasCosts dataset validInstances attacker costs
    out1.bestSplitValue out1.bestSplitFeatureId hcosts
  unfold optimizeGain.commit
  rw [if_pos hg, simulateSplit_eq _ _ _ _ _ _ hcosts]
  simp only [h1, h2, h3, h4, List.isEmpty_nil, Bool.and_self, Bool.not_true,
    Bool.false_eq_true, if_false]
  obtain ⟨st, hst⟩ := unknownLoop_ok env dataset attacker costs out1.bestSplitFeatureId
    out1.bestSplitValue out1.bestPredLeft out1.bestPredRight _ hU
    (fun i hi => uncertain_costsOnRight dataset validInstances attacker costs _ _ i hi)
    { costsLeft := []
      costsRight := []
      constraintsLeft := (optimizeGain.propagate env attacker constraints
        out1.bestSplitFeatureId out1.bestSplitValue
        (dataset.isFeatureNumerical out1.bestSplitFeatureId) [] []).1
      constraintsRight := (optimizeGain.propagate env attacker constraints
        out1.bestSplitFeatureId out1.bestSplitValue
        (dataset.isFeatureNumerical out1.bestSplitFeatureId) [] []).2
      unknownIndexesToLeft := []
      unknownIndexesToRight := [] }
  obtain ⟨cl, hcl⟩ := copyCosts_ok costs _ st.costsLeft hL
  obtain ⟨cr, hcr⟩ := copyCosts_ok costs _ st.costsRight hR
  rw [hst]
  simp only
  rw [hcl]
  simp only
  rw [hcr]
  exact ⟨_, rfl⟩

/-- For a non-empty list of valid instances with a cost each, a non-empty list of features and
a worker count that fills every future, `optimizeGain` is `commit` applied to the
selection among the candidates of `validFeatures`, taken in the order of the list. -/
theorem optimizeGain_eq_commit (env : Env) (dataset : Dataset)
    (validInstances validFeatures : indexes_t) (attacker : Attacker) (costs : cost_map)
    (constraints : List Constraint) (cs cps : ℚ) (numThreads : Nat) (out0 : GainOutputs)
    (hne : validInstances ≠ []) (hcosts : HasCosts costs validInstances)
    (hW : WorkersOk numThreads validFeatures) (hvf : validFeatures ≠ []) :
    optimizeGain env dataset validInstances validFeatures attacker costs constraints cs cps
        numThreads out0 =
      optimizeGain.commit env dataset validInstances attacker costs constraints
        (applySelection out0 (selectBest (candidatesOfFeatures
          (trySplitValue env dataset costs attacker validInstances constraints cps)
          dataset cs validFeatures))) := by
  have hW1 : 1 ≤ numThreads := by
    rcases hW with h | h <;> omega
  obtain ⟨bs, hbs, hflat, _, hlen, hnonempty⟩ := batches_spec numThreads validFeatures hW1
  have hemp : validInstances.isEmpty = false := by
    cases validInstances with
    | nil => exact absurd rfl hne
    | cons a l => rfl
  unfold optimizeGain
  rw [hemp, hbs]
  simp only [Bool.false_eq_true, if_false]
  rw [batchResults_eq _ _ _ _ _ _ _ _ _ _ (hlen.mpr hW)]
  have hred := reduction_eq env dataset costs attacker validInstances constraints cs cps hcosts
    out0 bs (hnonempty hvf) none selInv_none
  rw [hflat] at hred
  have happ : ({ out0 with bestGain := -1 } : GainOutputs) = applySelection out0 none := rfl
  rw [happ, hred]
  rfl

/-- What a normal return of `optimizeGain` tells about its arguments. -/
theorem optimizeGain_ok_inv (env : Env) (dataset : Dataset)
    (validInstances validFeatures : indexes_t) (attacker : Attacker) (costs : cost_map)
    (constraints : List Constraint) (cs cps : ℚ) (numThreads : Nat) (out0 out : GainOutputs)
    (b : Bool)
    (h : optimizeGain env dataset validInstances validFeatures attacker costs constraints cs cps
      numThreads out0 = .ok (b, out)) :
    validInstances ≠ [] ∧ WorkersOk numThreads validFeatures ∧ validFeatures ≠ [] ∧
    (b = true → HasCosts costs validInstances) ∧
    (HasCosts costs validInstances →
      optimizeGain.commit env dataset validInstances attacker costs constraints
        (applySelection out0 (selectBest (candidatesOfFeatures
          (trySplitValue env dataset costs attacker validInstances constraints cps)
          dataset cs validFeatures))) = .ok (b, out)) := by
  have hne : validInstances ≠ [] := by
    intro hnil
    subst hnil
    simp [optimizeGain] at h
  have hemp : validInstances.isEmpty = false := by
    cases validInstances with
    | nil => exact absurd rfl hne
    | cons a l => rfl
  have hW1 : 1 ≤ numThreads := by
    by_contra hW0
    have : numThreads = 0 := by omega
    subst this
    simp [optimizeGain, hemp, optimizeGain.batches] at h
  obtain ⟨bs, hbs, hflat, hle, hlen, hnonempty⟩ := batches_spec numThreads validFeatures hW1
  unfold optimizeGain at h
  rw [hemp, hbs] at h
  simp only [Bool.false_eq_true, if_false] at h
  cases hred : optimizeGain.reduction
      (optimizeGain.batchResults env dataset validInstances attacker costs constraints cs cps
        numThreads bs) { out0 with bestGain := -1 } with
  | error e => rw [hred] at h; cases h
  | ok out1 =>
    rw [hred] at h
    simp only at h
    have hW : WorkersOk numThreads validFeatures := by
      by_contra hnW
      have hlt : bs.length < numThreads := by
        rcases Nat.lt_or_eq_of_le hle with h1 | h1
        · exact h1
        · exact absurd (hlen.mp h1) hnW
      obtain ⟨e, he⟩ := reduction_none _ (batchResults_none env dataset validInstances attacker
        costs constraints cs cps numThreads bs hlt) { out0 with bestGain := -1 }
      rw [he] at hred
      cases hred
    have hvf : validFeatures ≠ [] := by
      intro hnil
      subst hnil
      have hone : numThreads = 1 := by
        rcases hW with h1 | ⟨h1, h2⟩
        · exact h1
        · simp at h2; omega
      subst hone
      simp only [optimizeGain.batches, one_ne_zero, if_false, if_true] at hbs
      cases hbs
      simp [optimizeGain.batchResults, optimizeOnSubset, optimizeGain.reduction] at hred
    refine ⟨hne, hW, hvf, ?_, ?_⟩
    · intro hb
      subst hb
      by_cases hg : out1.bestGain > 0
      · exact (commit_true env dataset validInstances attacker costs constraints out1 out true
          hg h).2.1
      · rw [commit_false _ _ _ _ _ _ _ hg] at h
        cases h
    · intro hcosts
      rw [← optimizeGain_eq_commit env dataset validInstances validFeatures attacker costs
        constraints cs cps numThreads out0 hne hcosts hW hvf]
      unfold optimizeGain
      rw [hemp, hbs]
      simp only [Bool.false_eq_true, if_false]
      rw [hred]
      exact h

/-! ## The set of the unique values of a column -/

theorem mem_setInsert (a x : feature_t) (s : List feature_t) :
    x ∈ setInsert a s ↔ x = a ∨ x ∈ s := by
  induction s with
  | nil => simp [setInsert]
  | cons b bs ih =>
    unfold setInsert
    split_ifs with h1 h2
    · simp
    · subst h2; simp
    · simp only [List.mem_cons, ih]
      tauto

theorem sorted_setInsert (a : feature_t) (s : List feature_t)
    (h : s.Pairwise (fun x y => x < y)) : (setInsert a s).Pairwise (fun x y => x < y) := by
  induction s with
  | nil => simp [setInsert]
  | cons b bs ih =>
    rw [List.pairwise_cons] at h
    unfold setInsert
    split_ifs with h1 h2
    · rw [List.pairwise_cons]
      refine ⟨?_, List.pairwise_cons.mpr h⟩
      intro x hx
      rcases List.mem_cons.mp hx with hx | hx
      · rw [hx]; exact h1
      · exact lt_trans h1 (h.1 x hx)
    · exact List.pairwise_cons.mpr h
    · rw [List.pairwise_cons]
      refine ⟨?_, ih h.2⟩
      intro x hx
      rcases (mem_setInsert a x bs).mp hx with hx | hx
      · rw [hx]
        exact lt_of_le_of_ne (not_lt.mp h1) (fun hba => h2 hba.symm)
      · exact h.1 x hx

theorem uniqueFeatureValues_spec (col : List feature_t) :
    (uniqueFeatureValues col).Pairwise (fun x y => x < y) ∧
    ∀ x, x ∈ uniqueFeatureValues col ↔ x ∈ col := by
  have key : ∀ (col s : List feature_t), s.Pairwise (fun x y => x < y) →
      (col.foldl (fun s a => setInsert a s) s).Pairwise (fun x y => x < y) ∧
      ∀ x, x ∈ col.foldl (fun s a => setInsert a s) s ↔ x ∈ col ∨ x ∈ s := by
    intro col
    induction col with
    | nil => intro s hs; simp [hs]
    | cons a rest ih =>
      intro s hs
      obtain ⟨h1, h2⟩ := ih (setInsert a s) (sorted_setInsert a s hs)
      refine ⟨h1, ?_⟩
      intro x
      rw [List.foldl_cons, h2, mem_setInsert, List.mem_cons]
      tauto
  obtain ⟨h1, h2⟩ := key col [] List.Pairwise.nil
  exact ⟨h1, fun x => by simpa using h2 x⟩

/-! ## The candidate kept by the comparisons -/

theorem keepBest_none_left (s : Option OptimizeOutput) (h : SelInv s) : keepBest none s = s := by
  cases s with
  | none => rfl
  | some c => rw [keepBest_some, gainOf_none, if_pos (h c rfl)]

theorem keepBest_cases (s1 s2 : Option OptimizeOutput) (h1 : SelInv s1) (c : OptimizeOutput)
    (h : keepBest s1 s2 = some c) :
    (s2 = some c ∧ c.bestGain > gainOf s1) ∨ (s1 = some c ∧ gainOf s2 ≤ c.bestGain) := by
  cases s2 with
  | none =>
    rw [keepBest_none] at h
    right
    exact ⟨h, by rw [gainOf_none]; exact le_of_lt (h1 c h)⟩
  | some d =>
    rw [keepBest_some] at h
    by_cases hgt : d.bestGain > gainOf s1
    · rw [if_pos hgt] at h
      cases h
      left; exact ⟨rfl, hgt⟩
    · rw [if_neg hgt] at h
      right
      refine ⟨h, ?_⟩
      rw [gainOf_some]
      have := not_lt.mp hgt
      rw [h, gainOf_some] at this
      exact this

theorem gainOf_keepBest (s1 s2 : Option OptimizeOutput) (h1 : SelInv s1) :
    gainOf s1 ≤ gainOf (keepBest s1 s2) ∧ gainOf s2 ≤ gainOf (keepBest s1 s2) := by
  cases s2 with
  | none =>
    rw [keepBest_none]
    exact ⟨le_refl _, gainOf_ge s1 h1⟩
  | some d =>
    rw [keepBest_some]
    by_cases hgt : d.bestGain > gainOf s1
    · rw [if_pos hgt, gainOf_some]
      exact ⟨le_of_lt hgt, le_refl _⟩
    · rw [if_neg hgt, gainOf_some]
      exact ⟨le_refl _, not_lt.mp hgt⟩

theorem selectBest_cons (x : Option OptimizeOutput) (xs : List (Option OptimizeOutput)) :
    selectBest (x :: xs) = keepBest (keepBest none x) (selectBest xs) := by
  have := selectBest_append [x] xs
  simpa [selectBest] using this

/-- The candidate kept among those of one feature: it is one of them, its gain is the
greatest, and it has the least value among those of the greatest gain. -/
theorem selectBest_values (T : feature_t → Bool × feature_t × feature_t × feature_t) (cs : ℚ)
    (j : index_t) (vals : List feature_t) (hsorted : vals.Pairwise (fun x y => x < y)) :
    (∀ c, selectBest (candidatesOfValues T cs j vals) = some c →
      c.bestSplitFeatureId = j ∧ c.bestSplitValue ∈ vals ∧
      T c.bestSplitValue = (true, c.bestPredLeft, c.bestPredRight, c.bestSSEuma) ∧
      c.bestGain = cs - c.bestSSEuma) ∧
    (∀ v ∈ vals, ∀ l r s, T v = (true, l, r, s) →
      cs - s ≤ gainOf (selectBest (candidatesOfValues T cs j vals)) ∧
      ∀ c, selectBest (candidatesOfValues T cs j vals) = some c → cs - s = c.bestGain →
        c.bestSplitValue ≤ v) := by
  induction vals with
  | nil =>
    refine ⟨?_, ?_⟩
    · intro c hc; simp [candidatesOfValues, selectBest] at hc
    · intro v hv; cases hv
  | cons v0 rest ih =>
    rw [List.pairwise_cons] at hsorted
    obtain ⟨ih1, ih2⟩ := ih hsorted.2
    have hinv1 : SelInv (keepBest none (candidateOf cs j v0 rest (T v0))) :=
      selInv_keepBest none _ selInv_none
    have hA1 : ∀ c, keepBest none (candidateOf cs j v0 rest (T v0)) = some c →
        c.bestSplitFeatureId = j ∧ c.bestSplitValue = v0 ∧
        T v0 = (true, c.bestPredLeft, c.bestPredRight, c.bestSSEuma) ∧
        c.bestGain = cs - c.bestSSEuma := by
      intro c hc
      rcases hT : T v0 with ⟨b0, l0, r0, s0⟩
      cases b0 with
      | false => simp [candidateOf, hT, keepBest_none] at hc
      | true =>
        simp only [candidateOf, hT, if_true, keepBest_some, gainOf_none] at hc
        split_ifs at hc
        cases hc
        exact ⟨rfl, rfl, rfl, rfl⟩
    have hA2 : ∀ l r s, T v0 = (true, l, r, s) →
        cs - s ≤ gainOf (keepBest none (candidateOf cs j v0 rest (T v0))) := by
      intro l r s hT
      simp only [candidateOf, hT, if_true, keepBest_some, gainOf_none]
      by_cases hgt : cs - s > -1
      · rw [if_pos hgt, gainOf_some]
      · rw [if_neg hgt, gainOf_none]; exact not_lt.mp hgt
    simp only [candidatesOfValues, selectBest_cons]
    refine ⟨?_, ?_⟩
    · intro c hc
      rcases keepBest_cases _ _ hinv1 c hc with ⟨h2, _⟩ | ⟨h1, _⟩
      · obtain ⟨a1, a2, a3, a4⟩ := ih1 c h2
        exact ⟨a1, List.mem_cons_of_mem _ a2, a3, a4⟩
      · obtain ⟨a1, a2, a3, a4⟩ := hA1 c h1
        exact ⟨a1, by rw [a2]; exact List.mem_cons_self _ _, by rw [a2]; exact a3, a4⟩
    · intro v hv l r s hT
      have hmono := gainOf_keepBest (keepBest none (candidateOf cs j v0 rest (T v0)))
        (selectBest (candidatesOfValues T cs j rest)) hinv1
      rcases List.mem_cons.mp hv with hv0 | hvrest
      · subst hv0
        refine ⟨le_trans (hA2 l r s hT) hmono.1, ?_⟩
        intro c hc htie
        rcases keepBest_cases _ _ hinv1 c hc with ⟨_, h3⟩ | ⟨h1, _⟩
        · have := hA2 l r s hT
          rw [htie] at this
          exact absurd h3 (not_lt.mpr this)
        · exact le_of_eq (hA1 c h1).2.1
      · obtain ⟨b1, b2⟩ := ih2 v hvrest l r s hT
        refine ⟨le_trans b1 hmono.2, ?_⟩
        intro c hc htie
        rcases keepBest_cases _ _ hinv1 c hc with ⟨h2, _⟩ | ⟨h1, _⟩
        · exact b2 c h2 htie
        · rw [(hA1 c h1).2.1]
          exact le_of_lt (hsorted.1 v hvrest)

/-- The candidate kept among those of a list of features: it is one of them, its gain is
the greatest, and among the candidates of the greatest gain it is the one whose feature
comes first in the list and, for that feature, whose value is the least. -/
theorem selectBest_features
    (T : index_t → feature_t → Bool × feature_t × feature_t × feature_t) (dataset : Dataset)
    (cs : ℚ) (fs : List index_t) :
    (∀ c, selectBest (candidatesOfFeatures T dataset cs fs) = some c →
      c.bestSplitFeatureId ∈ fs ∧
      c.bestSplitValue ∈ uniqueFeatureValues (dataset.getFeatureColumn c.bestSplitFeatureId) ∧
      T c.bestSplitFeatureId c.bestSplitValue =
        (true, c.bestPredLeft, c.bestPredRight, c.bestSSEuma) ∧
      c.bestGain = cs - c.bestSSEuma) ∧
    (∀ j ∈ fs, ∀ v ∈ uniqueFeatureValues (dataset.getFeatureColumn j), ∀ l r s,
      T j v = (true, l, r, s) →
      cs - s ≤ gainOf (selectBest (candidatesOfFeatures T dataset cs fs)) ∧
      ∀ c, selectBest (candidatesOfFeatures T dataset cs fs) = some c → cs - s = c.bestGain →
        fs.indexOf c.bestSplitFeatureId ≤ fs.indexOf j ∧
        (j = c.bestSplitFeatureId → c.bestSplitValue ≤ v)) := by
  induction fs with
  | nil =>
    refine ⟨?_, ?_⟩
    · intro c hc; simp [candidatesOfFeatures, selectBest] at hc
    · intro j hj; cases hj
  | cons j0 rest ih =>
    obtain ⟨ih1, ih2⟩ := ih
    obtain ⟨hV1, hV2⟩ := selectBest_values (T j0) cs j0
      (uniqueFeatureValues (dataset.getFeatureColumn j0))
      (uniqueFeatureValues_spec (dataset.getFeatureColumn j0)).1
    have hinv1 := selInv_selectBest (candidatesOfValues (T j0) cs j0
      (uniqueFeatureValues (dataset.getFeatureColumn j0)))
    simp only [candidatesOfFeatures, selectBest_append]
    have hmono := gainOf_keepBest
      (selectBest (candidatesOfValues (T j0) cs j0
        (uniqueFeatureValues (dataset.getFeatureColumn j0))))
      (selectBest (candidatesOfFeatures T dataset cs rest)) hinv1
    refine ⟨?_, ?_⟩
    · intro c hc
      rcases keepBest_cases _ _ hinv1 c hc with ⟨h2, _⟩ | ⟨h1, _⟩
      · obtain ⟨a1, a2, a3, a4⟩ := ih1 c h2
        exact ⟨List.mem_cons_of_mem _ a1, a2, a3, a4⟩
      · obtain ⟨a1, a2, a3, a4⟩ := hV1 c h1
        refine ⟨by rw [a1]; exact List.mem_cons_self _ _, by rw [a1]; exact a2,
          by rw [a1]; exact a3, a4⟩
    · intro j hj v hv l r s hT
      refine ⟨?_, ?_⟩
      · rcases List.mem_cons.mp hj with hj0 | hjrest
        · subst hj0
          exact le_trans (hV2 v hv l r s hT).1 hmono.1
        · exact le_trans (ih2 j hjrest v hv l r s hT).1 hmono.2
      · intro c hc htie
        rcases keepBest_cases _ _ hinv1 c hc with ⟨h2, h3⟩ | ⟨h1, _⟩
        · obtain ⟨a1, a2, a3, a4⟩ := ih1 c h2
          have hcne : j0 ≠ c.bestSplitFeatureId := by
            intro heq
            have := (hV2 c.bestSplitValue (by rw [heq]; exact a2) _ _ _
              (by rw [heq]; exact a3)).1
            rw [← a4] at this
            exact absurd h3 (not_lt.mpr this)
          have hjne : j0 ≠ j := by
            intro heq
            subst heq
            have := (hV2 v hv l r s hT).1
            rw [htie] at this
            exact absurd h3 (not_lt.mpr this)
          have hjrest : j ∈ rest := by
            rcases List.mem_cons.mp hj with hj0 | hjrest
            · exact absurd hj0.symm hjne
            · exact hjrest
          obtain ⟨b1, b2⟩ := (ih2 j hjrest v hv l r s hT).2 c h2 htie
          rw [List.indexOf_cons_ne _ hcne, List.indexOf_cons_ne _ hjne]
          exact ⟨Nat.succ_le_succ b1, b2⟩
        · obtain ⟨a1, a2, a3, a4⟩ := hV1 c h1
          rw [a1, List.indexOf_cons_self]
          refine ⟨Nat.zero_le _, ?_⟩
          intro heq
          subst heq
          exact (hV2 v hv l r s hT).2 c h1 htie

/-! ## What `optimizeGain` returns -/

theorem trySplit_hasCosts (env : Env) (dataset : Dataset) (costs : cost_map)
    (attacker : Attacker) (validInstances : indexes_t) (constraints : List Constraint) (cps : ℚ)
    (j : index_t) (v : feature_t) (r : Bool × feature_t × feature_t × feature_t)
    (h : optimizeOnSubset.trySplit env dataset costs attacker validInstances constraints cps j v =
      .ok r) : HasCosts costs validInstances := by
  unfold optimizeOnSubset.trySplit at h
  cases hsim : simulateSplit dataset validInstances attacker costs v j with
  | error e => rw [hsim] at h; cases h
  | ok s => exact simulateSplit_hasCosts _ _ _ _ _ _ _ hsim

/-- When `optimizeGain` returns `true`: a candidate was kept by the comparisons, its gain
is positive, and the outputs are its fields and the results of the loops on its split. -/
theorem optimizeGain_true (env : Env) (dataset : Dataset)
    (validInstances validFeatures : indexes_t) (attacker : Attacker) (costs : cost_map)
    (constraints : List Constraint) (cs cps : ℚ) (numThreads : Nat) (out0 out : GainOutputs)
    (h : optimizeGain env dataset validInstances validFeatures attacker costs constraints cs cps
      numThreads out0 = .ok (true, out)) :
    HasCosts costs validInstances ∧
    ∃ c, selectBest (candidatesOfFeatures
        (trySplitValue env dataset costs attacker validInstances constraints cps)
        dataset cs validFeatures) = some c ∧ c.bestGain > 0 ∧
      ∃ st cl cr,
        optimizeGain.unknownLoop env dataset attacker costs c.bestSplitFeatureId
          c.bestSplitValue c.bestPredLeft c.bestPredRight
          (uncertain dataset validInstances attacker costs c.bestSplitValue
            c.bestSplitFeatureId)
          { costsLeft := []
            costsRight := []
            constraintsLeft := (optimizeGain.propagate env attacker constraints
              c.bestSplitFeatureId c.bestSplitValue
              (dataset.isFeatureNumerical c.bestSplitFeatureId) [] []).1
            constraintsRight := (optimizeGain.propagate env attacker constraints
              c.bestSplitFeatureId c.bestSplitValue
              (dataset.isFeatureNumerical c.bestSplitFeatureId) [] []).2
            unknownIndexesToLeft := []
            unknownIndexesToRight := [] } = .ok st ∧
        optimizeGain.copyCosts costs (certainLeft dataset validInstances attacker costs
          c.bestSplitValue c.bestSplitFeatureId) st.costsLeft = .ok cl ∧
        optimizeGain.copyCosts costs (certainRight dataset validInstances attacker costs
          c.bestSplitValue c.bestSplitFeatureId) st.costsRight = .ok cr ∧
        out =
          { bestGain := c.bestGain
            bestSplitLeft := certainLeft dataset validInstances attacker costs
              c.bestSplitValue c.bestSplitFeatureId ++ st.unknownIndexesToLeft
            bestSplitRight := certainRight dataset validInstances attacker costs
              c.bestSplitValue c.bestSplitFeatureId ++ st.unknownIndexesToRight
            bestSplitFeatureId := c.bestSplitFeatureId
            bestSplitValue := c.bestSplitValue
            bestNextSplitValue := c.bestNextSplitValue
            bestPredLeft := c.bestPredLeft
            bestPredRight := c.bestPredRight
            bestSSEuma := c.bestSSEuma
            constraintsLeft := st.constraintsLeft
            constraintsRight := st.constraintsRight
            costsLeft := cl
            costsRight := cr } := by
  obtain ⟨_, _, _, hb, hcommit⟩ := optimizeGain_ok_inv env dataset validInstances validFeatures
    attacker costs constraints cs cps numThreads out0 out true h
  have hcosts := hb rfl
  refine ⟨hcosts, ?_⟩
  have hc := hcommit hcosts
  cases hsel : selectBest (candidatesOfFeatures
      (trySplitValue env dataset costs attacker validInstances constraints cps)
      dataset cs validFeatures) with
  | none =>
    rw [hsel] at hc
    have hg : ¬ (applySelection out0 none).bestGain > 0 := by
      simp [applySelection]
    rw [commit_false _ _ _ _ _ _ _ hg] at hc
    cases hc
  | some c =>
    rw [hsel] at hc
    by_cases hg : (applySelection out0 (some c)).bestGain > 0
    · obtain ⟨_, _, h1, h2, h3, h4, st, cl, cr, hst, hcl, hcr, hout⟩ :=
        commit_true env dataset validInstances attacker costs constraints _ out true hg hc
      exact ⟨c, rfl, hg, st, cl, cr, hst, hcl, hcr, hout⟩
    · rw [commit_false _ _ _ _ _ _ _ hg] at hc
      cases hc

/-- C6: whenever `optimizeGain` returns, it returns `true` if and only if some candidate
(a feature of `validFeatures` and a value of its column) on which `optimizeSSE` succeeded
has a gain `currentScore - sse > 0`, and when it returns `true` the outputs satisfy
`bestGain = currentScore - bestSSEuma` and `bestGain > 0`. It does return when
`validInstances` is not empty and has a cost for each index, `validFeatures` is not empty,
the worker count is 1 or between 2 and the number of features, and the output constraints
and cost maps are empty on entry. -/
theorem optimizeGain_returns_true_iff (env : Env) (dataset : Dataset)
    (validInstances validFeatures : indexes_t) (attacker : Attacker) (costs : cost_map)
    (constraints : List Constraint) (cs cps : ℚ) (numThreads : Nat) (out0 : GainOutputs) :
    (∀ b out, optimizeGain env dataset validInstances validFeatures attacker costs constraints
        cs cps numThreads out0 = .ok (b, out) →
      (b = true ↔ ∃ j ∈ validFeatures, ∃ v ∈ dataset.getFeatureColumn j, ∃ l r s,
        optimizeOnSubset.trySplit env dataset costs attacker validInstances constraints cps
          j v = .ok (true, l, r, s) ∧ cs - s > 0) ∧
      (b = true → out.bestGain = cs - out.bestSSEuma ∧ out.bestGain > 0)) ∧
    (validInstances ≠ [] → HasCosts costs validInstances → validFeatures ≠ [] →
      WorkersOk numThreads validFeatures →
      out0.constraintsLeft = [] → out0.constraintsRight = [] →
      out0.costsLeft = [] → out0.costsRight = [] →
      ∃ b out, optimizeGain env dataset validInstances validFeatures attacker costs constraints
        cs cps numThreads out0 = .ok (b, out)) := by
  refine ⟨?_, ?_⟩
  · intro b out h
    obtain ⟨hF1, hF2⟩ := selectBest_features
      (trySplitValue env dataset costs attacker validInstances constraints cps) dataset cs
      validFeatures
    have htrue : b = true → (∃ j ∈ validFeatures, ∃ v ∈ dataset.getFeatureColumn j, ∃ l r s,
        optimizeOnSubset.trySplit env dataset costs attacker validInstances constraints cps
          j v = .ok (true, l, r, s) ∧ cs - s > 0) ∧
        out.bestGain = cs - out.bestSSEuma ∧ out.bestGain > 0 := by
      intro hb
      subst hb
      obtain ⟨hcosts, c, hsel, hg, st, cl, cr, _, _, _, hout⟩ := optimizeGain_true env dataset
        validInstances validFeatures attacker costs constraints cs cps numThreads out0 out h
      obtain ⟨a1, a2, a3, a4⟩ := hF1 c hsel
      refine ⟨⟨c.bestSplitFeatureId, a1, c.bestSplitValue,
        ((uniqueFeatureValues_spec _).2 _).mp a2, c.bestPredLeft, c.bestPredRight,
        c.bestSSEuma, ?_, ?_⟩, ?_, ?_⟩
      · rw [trySplit_ok _ _ _ _ _ _ _ _ _ hcosts, a3]
      · rw [← a4]; exact hg
      · rw [hout]; exact a4
      · rw [hout]; exact hg
    refine ⟨⟨fun hb => (htrue hb).1, ?_⟩, fun hb => (htrue hb).2⟩
    rintro ⟨j, hj, v, hv, l, r, s, hT, hpos⟩
    have hcosts := trySplit_hasCosts _ _ _ _ _ _ _ _ _ _ hT
    rw [trySplit_ok _ _ _ _ _ _ _ _ _ hcosts] at hT
    have hT2 : trySplitValue env dataset costs attacker validInstances constraints cps j v =
        (true, l, r, s) := Except.ok.inj hT
    have hmax := (hF2 j hj v (((uniqueFeatureValues_spec _).2 _).mpr hv) l r s hT2).1
    obtain ⟨_, _, _, _, hcommit⟩ := optimizeGain_ok_inv env dataset validInstances validFeatures
      attacker costs constraints cs cps numThreads out0 out b h
    have hc := hcommit hcosts
    have hg : (applySelection out0 (selectBest (candidatesOfFeatures
        (trySplitValue env dataset costs attacker validInstances constraints cps)
        dataset cs validFeatures))).bestGain > 0 := by
      rw [applySelection_gain]
      exact lt_of_lt_of_le hpos hmax
    exact (commit_true env dataset validInstances attacker costs constraints _ out b hg hc).1
  · intro hne hcosts hvf hW h1 h2 h3 h4
    rw [optimizeGain_eq_commit env dataset validInstances validFeatures attacker costs
      constraints cs cps numThreads out0 hne hcosts hW hvf]
    by_cases hg : (applySelection out0 (selectBest (candidatesOfFeatures
        (trySplitValue env dataset costs attacker validInstances constraints cps)
        dataset cs validFeatures))).bestGain > 0
    · have e1 : ∀ acc, (applySelection out0 acc).constraintsLeft = [] := by
        intro acc; cases acc <;> exact h1
      have e2 : ∀ acc, (applySelection out0 acc).constraintsRight = [] := by
        intro acc; cases acc <;> exact h2
      have e3 : ∀ acc, (applySelection out0 acc).costsLeft = [] := by
        intro acc; cases acc <;> exact h3
      have e4 : ∀ acc, (applySelection out0 acc).costsRight = [] := by
        intro acc; cases acc <;> exact h4
      obtain ⟨out, hout⟩ := commit_ok env dataset validInstances attacker costs constraints _ hg
        hcosts (e1 _) (e2 _) (e3 _) (e4 _)
      exact ⟨true, out, hout⟩
    · exact ⟨false, _, commit_false _ _ _ _ _ _ _ hg⟩

theorem indexOf_le_of_sorted (l : List index_t) (hs : l.Pairwise (fun a b => a < b))
    (a b : index_t) (ha : a ∈ l) (hb : b ∈ l) (h : l.indexOf a ≤ l.indexOf b) : a ≤ b := by
  induction l with
  | nil => cases ha
  | cons x rest ih =>
    rw [List.pairwise_cons] at hs
    by_cases hax : x = a
    · subst hax
      rcases List.mem_cons.mp hb with hb | hb
      · exact le_of_eq hb.symm
      · exact le_of_lt (hs.1 b hb)
    · have harest : a ∈ rest := by
        rcases List.mem_cons.mp ha with ha | ha
        · exact absurd ha.symm hax
        · exact ha
      rw [List.indexOf_cons_ne _ hax] at h
      by_cases hbx : x = b
      · subst hbx
        rw [List.indexOf_cons_self] at h
        omega
      · have hbrest : b ∈ rest := by
          rcases List.mem_cons.mp hb with hb | hb
          · exact absurd hb.symm hbx
          · exact hb
        rw [List.indexOf_cons_ne _ hbx] at h
        exact ih hs.2 harest hbrest (Nat.le_of_succ_le_succ h)

/-- C5 (amended): when `optimizeGain` returns `true`, the selected
`(bestSplitFeatureId, bestSplitValue)` is a candidate (a feature of `validFeatures` and a
value of its column) on which `optimizeSSE` succeeded, its gain `currentScore - sse` is
maximal among the candidates on which `optimizeSSE` succeeded, and among the candidates of
that maximal gain it is the one whose feature comes first in `validFeatures` (the lowest
feature index when `validFeatures` is in ascending order) and then the one of lowest
value. -/
theorem optimizeGain_selects_first_maximal_gain (env : Env) (dataset : Dataset)
    (validInstances validFeatures : indexes_t) (attacker : Attacker) (costs : cost_map)
    (constraints : List Constraint) (cs cps : ℚ) (numThreads : Nat) (out0 out : GainOutputs)
    (h : optimizeGain env dataset validInstances validFeatures attacker costs constraints cs cps
      numThreads out0 = .ok (true, out)) :
    out.bestSplitFeatureId ∈ validFeatures ∧
    out.bestSplitValue ∈ dataset.getFeatureColumn out.bestSplitFeatureId ∧
    optimizeOnSubset.trySplit env dataset costs attacker validInstances constraints cps
      out.bestSplitFeatureId out.bestSplitValue =
        .ok (true, out.bestPredLeft, out.bestPredRight, out.bestSSEuma) ∧
    out.bestGain = cs - out.bestSSEuma ∧
    ∀ j ∈ validFeatures, ∀ v ∈ dataset.getFeatureColumn j, ∀ l r s,
      optimizeOnSubset.trySplit env dataset costs attacker validInstances constraints cps j v =
        .ok (true, l, r, s) →
      cs - s ≤ out.bestGain ∧
      (cs - s = out.bestGain →
        validFeatures.indexOf out.bestSplitFeatureId ≤ validFeatures.indexOf j ∧
        (j = out.bestSplitFeatureId → out.bestSplitValue ≤ v) ∧
        (validFeatures.Pairwise (fun a b => a < b) → out.bestSplitFeatureId ≤ j)) := by
  obtain ⟨hcosts, c, hsel, hg, st, cl, cr, _, _, _, hout⟩ := optimizeGain_true env dataset
    validInstances validFeatures attacker costs constraints cs cps numThreads out0 out h
  obtain ⟨hF1, hF2⟩ := selectBest_features
    (trySplitValue env dataset costs attacker validInstances constraints cps) dataset cs
    validFeatures
  obtain ⟨a1, a2, a3, a4⟩ := hF1 c hsel
  subst hout
  refine ⟨a1, ((uniqueFeatureValues_spec _).2 _).mp a2, ?_, a4, ?_⟩
  · rw [trySplit_ok _ _ _ _ _ _ _ _ _ hcosts, a3]
  · intro j hj v hv l r s hT
    rw [trySplit_ok _ _ _ _ _ _ _ _ _ hcosts] at hT
    obtain ⟨b1, b2⟩ := hF2 j hj v (((uniqueFeatureValues_spec _).2 _).mpr hv) l r s
      (Except.ok.inj hT)
    rw [hsel, gainOf_some] at b1
    refine ⟨b1, ?_⟩
    intro htie
    obtain ⟨d1, d2⟩ := b2 c hsel htie
    exact ⟨d1, d2, fun hs => indexOf_le_of_sorted validFeatures hs _ _ a1 hj d1⟩

/-- Instance of `optimizeGain_selects_first_maximal_gain`: the twin dataset, features
`[1, 0]`, one thread. -/
theorem optimizeGain_selects_first_maximal_gain_witness :
    optimizeGain (exEnv [5, 10]) (exTwinDataset [0, 10, 10]) [0, 1, 2] [1, 0] exTwinAttacker
      exCosts [] (200 / 3) (20 / 3) 1 emptyOutputs = .ok (true, exOutputsLeft 1) ∧
    ((exOutputsLeft 1).bestSplitFeatureId ∈ ([1, 0] : indexes_t) ∧
    (exOutputsLeft 1).bestSplitValue ∈
      (exTwinDataset [0, 10, 10]).getFeatureColumn (exOutputsLeft 1).bestSplitFeatureId ∧
    optimizeOnSubset.trySplit (exEnv [5, 10]) (exTwinDataset [0, 10, 10]) exCosts
      exTwinAttacker [0, 1, 2] [] (20 / 3)
      (exOutputsLeft 1).bestSplitFeatureId (exOutputsLeft 1).bestSplitValue =
        .ok (true, (exOutputsLeft 1).bestPredLeft, (exOutputsLeft 1).bestPredRight,
          (exOutputsLeft 1).bestSSEuma) ∧
    (exOutputsLeft 1).bestGain = 200 / 3 - (exOutputsLeft 1).bestSSEuma ∧
    ∀ j ∈ ([1, 0] : indexes_t), ∀ v ∈ (exTwinDataset [0, 10, 10]).getFeatureColumn j, ∀ l r s,
      optimizeOnSubset.trySplit (exEnv [5, 10]) (exTwinDataset [0, 10, 10]) exCosts
        exTwinAttacker [0, 1, 2] [] (20 / 3) j v = .ok (true, l, r, s) →
      200 / 3 - s ≤ (exOutputsLeft 1).bestGain ∧
      (200 / 3 - s = (exOutputsLeft 1).bestGain →
        ([1, 0] : indexes_t).indexOf (exOutputsLeft 1).bestSplitFeatureId ≤
          ([1, 0] : indexes_t).indexOf j ∧
        (j = (exOutputsLeft 1).bestSplitFeatureId → (exOutputsLeft 1).bestSplitValue ≤ v) ∧
        (([1, 0] : indexes_t).Pairwise (fun a b => a < b) →
          (exOutputsLeft 1).bestSplitFeatureId ≤ j))) :=
  ⟨by decide!,
    optimizeGain_selects_first_maximal_gain (exEnv [5, 10]) (exTwinDataset [0, 10, 10])
      [0, 1, 2] [1, 0] exTwinAttacker exCosts [] (200 / 3) (20 / 3) 1 emptyOutputs
      (exOutputsLeft 1) (by decide!)⟩

/-- C5 fails as stated: with the features listed as `[1, 0]` and two identical columns,
`optimizeGain` returns `true` and selects the feature 1, although the candidate
`(feature 0, value 0)` succeeded with the same, maximal, gain: the selected candidate is not
the one of lowest feature index among those of maximal gain. -/
theorem optimizeGain_tie_not_lowest_feature :
    optimizeGain (exEnv [5, 10]) (exTwinDataset [0, 10, 10]) [0, 1, 2] [1, 0] exTwinAttacker
      exCosts [] (200 / 3) (20 / 3) 1 emptyOutputs = .ok (true, exOutputsLeft 1) ∧
    ¬ (∀ j ∈ ([1, 0] : indexes_t), ∀ v ∈ (exTwinDataset [0, 10, 10]).getFeatureColumn j,
      ∀ l r s, optimizeOnSubset.trySplit (exEnv [5, 10]) (exTwinDataset [0, 10, 10]) exCosts
        exTwinAttacker [0, 1, 2] [] (20 / 3) j v = .ok (true, l, r, s) →
      200 / 3 - s = (exOutputsLeft 1).bestGain →
      (exOutputsLeft 1).bestSplitFeatureId ≤ j) :=
  ⟨by decide!, fun hall =>
    absurd (hall 0 (by decide) 0 (by decide) 5 10 50 (by decide!) (by decide!)) (by decide)⟩

/-- Instance of `optimizeGain_returns_true_iff` on the twin dataset. -/
theorem optimizeGain_returns_true_iff_witness :
    optimizeGain (exEnv [5, 10]) (exTwinDataset [0, 10, 10]) [0, 1, 2] [0] exTwinAttacker
      exCosts [] (200 / 3) (20 / 3) 1 emptyOutputs = .ok (true, exOutputsLeft 0) ∧
    ((true = true ↔ ∃ j ∈ ([0] : indexes_t),
        ∃ v ∈ (exTwinDataset [0, 10, 10]).getFeatureColumn j, ∃ l r s,
        optimizeOnSubset.trySplit (exEnv [5, 10]) (exTwinDataset [0, 10, 10]) exCosts
          exTwinAttacker [0, 1, 2] [] (20 / 3) j v = .ok (true, l, r, s) ∧ 200 / 3 - s > 0) ∧
      (true = true → (exOutputsLeft 0).bestGain = 200 / 3 - (exOutputsLeft 0).bestSSEuma ∧
        (exOutputsLeft 0).bestGain > 0)) ∧
    ∃ b out, optimizeGain (exEnv [5, 10]) (exTwinDataset [0, 10, 10]) [0, 1, 2] [0]
      exTwinAttacker exCosts [] (200 / 3) (20 / 3) 1 emptyOutputs = .ok (b, out) :=
  ⟨by decide!,
    (optimizeGain_returns_true_iff (exEnv [5, 10]) (exTwinDataset [0, 10, 10]) [0, 1, 2] [0]
      exTwinAttacker exCosts [] (200 / 3) (20 / 3) 1 emptyOutputs).1 true (exOutputsLeft 0)
      (by decide!),
    (optimizeGain_returns_true_iff (exEnv [5, 10]) (exTwinDataset [0, 10, 10]) [0, 1, 2] [0]
      exTwinAttacker exCosts [] (200 / 3) (20 / 3) 1 emptyOutputs).2 (by decide) (by decide)
      (by decide) (by decide) rfl rfl rfl rfl⟩

/-! ## Independence of the worker count -/

theorem simulateSplitLoop_error (dataset : Dataset) (attacker : Attacker) (costs : cost_map)
    (v : feature_t) (j : index_t) (num : Bool) (l : List index_t)
    (acc : indexes_t × indexes_t × indexes_t) (h : ¬ HasCosts costs l) :
    simulateSplitLoop dataset attacker costs v j num l acc = .error .outOfRange := by
  induction l generalizing acc with
  | nil => exact absurd (fun i hi => by cases hi) h
  | cons i rest ih =>
    obtain ⟨L, R, U⟩ := acc
    unfold simulateSplitLoop
    cases hl : costs.lookup i with
    | none => simp [mapAt, hl]
    | some c =>
      have hrest : ¬ HasCosts costs rest := by
        intro hr
        apply h
        intro k hk
        rcases List.mem_cons.mp hk with hk | hk
        · subst hk; simp [hl]
        · exact hr k hk
      simp only [mapAt, hl]
      split_ifs
      · exact ih _ hrest
      · exact ih _ hrest
      · exact ih _ hrest

theorem trySplit_error (env : Env) (dataset : Dataset) (costs : cost_map) (attacker : Attacker)
    (validInstances : indexes_t) (constraints : List Constraint) (cps : ℚ) (j : index_t)
    (v : feature_t) (h : ¬ HasCosts costs validInstances) :
    optimizeOnSubset.trySplit env dataset costs attacker validInstances constraints cps j v =
      .error .outOfRange := by
  have h1 : simulateSplit dataset validInstances attacker costs v j = .error .outOfRange := by
    simp only [simulateSplit, List.isEmpty_nil, Bool.and_self, Bool.not_true,
      Bool.false_eq_true, if_false]
    exact simulateSplitLoop_error _ _ _ _ _ _ _ _ h
  simp only [optimizeOnSubset.trySplit, h1]

theorem featureLoop_error (env : Env) (dataset : Dataset) (costs : cost_map)
    (attacker : Attacker) (validInstances : indexes_t) (constraints : List Constraint)
    (cs cps : ℚ) (h : ¬ HasCosts costs validInstances) (features : List index_t)
    (ret : OptimizeOutput) :
    optimizeOnSubset.featureLoop env dataset costs attacker validInstances constraints
        cs cps features ret =
      if features.all (fun j => (uniqueFeatureValues (dataset.getFeatureColumn j)).isEmpty)
      then .ok ret else .error .outOfRange := by
  induction features with
  | nil => rfl
  | cons j rest ih =>
    unfold optimizeOnSubset.featureLoop
    cases hu : uniqueFeatureValues (dataset.getFeatureColumn j) with
    | nil => simp [optimizeOnSubset.valueLoop, ih, hu]
    | cons v vs =>
      simp [optimizeOnSubset.valueLoop,
        trySplit_error env dataset costs attacker validInstances constraints cps j v h, hu]

theorem reduction_error (env : Env) (dataset : Dataset) (costs : cost_map)
    (attacker : Attacker) (validInstances : indexes_t) (constraints : List Constraint)
    (cs cps : ℚ) (h : ¬ HasCosts costs validInstances) (bs : List (List index_t))
    (hbs : ∀ b ∈ bs, b ≠ []) (out : GainOutputs) (hout : out.bestGain = -1) :
    optimizeGain.reduction
        (bs.map (fun b => some (optimizeOnSubset env dataset costs attacker b validInstances
          constraints cs cps))) out =
      if bs.flatten.all (fun j => (uniqueFeatureValues (dataset.getFeatureColumn j)).isEmpty)
      then .ok out else .error .outOfRange := by
  induction bs with
  | nil => rfl
  | cons b rest ih =>
    have hrest : ∀ b ∈ rest, b ≠ [] := fun x hx => hbs x (List.mem_cons_of_mem b hx)
    cases b with
    | nil => exact absurd rfl (hbs [] (List.mem_cons_self _ _))
    | cons first tail =>
      have hb : optimizeOnSubset env dataset costs attacker (first :: tail) validInstances
          constraints cs cps =
          if (first :: tail).all
            (fun j => (uniqueFeatureValues (dataset.getFeatureColumn j)).isEmpty)
          then .ok { bestGain := -1, bestSplitFeatureId := first, bestSplitValue := 0,
                     bestNextSplitValue := 0, bestPredLeft := 0, bestPredRight := 0,
                     bestSSEuma := 0 }
          else .error .outOfRange := by
        simp only [optimizeOnSubset,
          featureLoop_error env dataset costs attacker validInstances constraints cs cps h]
      simp only [List.map_cons, optimizeGain.reduction, hb, List.flatten_cons, List.all_append]
      by_cases hall : (first :: tail).all
          (fun j => (uniqueFeatureValues (dataset.getFeatureColumn j)).isEmpty) = true
      · simp only [hall, if_true, hout, gt_iff_lt, lt_self_iff_false, if_false, Bool.true_and]
        exact ih hrest
      · simp only [hall, Bool.false_eq_true, if_false, Bool.false_and]

/-- Without a cost for some valid instance, `optimizeGain` fails as soon as there is a
candidate, and returns `false` when there is none. -/
theorem optimizeGain_no_costs (env : Env) (dataset : Dataset)
    (validInstances validFeatures : indexes_t) (attacker : Attacker) (costs : cost_map)
    (constraints : List Constraint) (cs cps : ℚ) (numThreads : Nat) (out0 : GainOutputs)
    (hne : validInstances ≠ []) (hcosts : ¬ HasCosts costs validInstances)
    (hW : WorkersOk numThreads validFeatures) (hvf : validFeatures ≠ []) :
    optimizeGain env dataset validInstances validFeatures attacker costs constraints cs cps
        numThreads out0 =
      if validFeatures.all
          (fun j => (uniqueFeatureValues (dataset.getFeatureColumn j)).isEmpty)
      then .ok (false, { out0 with bestGain := -1 }) else .error .outOfRange := by
  have hW1 : 1 ≤ numThreads := by
    rcases hW with h | h <;> omega
  obtain ⟨bs, hbs, hflat, _, hlen, hnonempty⟩ := batches_spec numThreads validFeatures hW1
  have hemp : validInstances.isEmpty = false := by
    cases validInstances with
    | nil => exact absurd rfl hne
    | cons a l => rfl
  unfold optimizeGain
  rw [hemp, hbs]
  simp only [Bool.false_eq_true, if_false]
  rw [batchResults_eq _ _ _ _ _ _ _ _ _ _ (hlen.mpr hW),
    reduction_error env dataset costs attacker validInstances constraints cs cps hcosts bs
      (hnonempty hvf) _ rfl, hflat]
  split_ifs
  · simp only
    rw [commit_false]
    simp
  · rfl

/-- For worker counts that fill every future (1, or between 2 and the number of
features), the result of `optimizeGain` does not depend on the worker count. -/
theorem optimizeGain_workers_irrelevant (env : Env) (dataset : Dataset)
    (validInstances validFeatures : indexes_t) (attacker : Attacker) (costs : cost_map)
    (constraints : List Constraint) (cs cps : ℚ) (W1 W2 : Nat) (out0 : GainOutputs)
    (h1 : WorkersOk W1 validFeatures) (h2 : WorkersOk W2 validFeatures) :
    optimizeGain env dataset validInstances validFeatures attacker costs constraints cs cps
        W1 out0 =
      optimizeGain env dataset validInstances validFeatures attacker costs constraints cs cps
        W2 out0 := by
  by_cases hvf : validFeatures = []
  · have e1 : W1 = 1 := by
      rcases h1 with h | ⟨ha, hb⟩
      · exact h
      · rw [hvf] at hb; simp at hb; omega
    have e2 : W2 = 1 := by
      rcases h2 with h | ⟨ha, hb⟩
      · exact h
      · rw [hvf] at hb; simp at hb; omega
    rw [e1, e2]
  · by_cases hne : validInstances = []
    · subst hne
      simp [optimizeGain]
    · by_cases hcosts : HasCosts costs validInstances
      · rw [optimizeGain_eq_commit env dataset validInstances validFeatures attacker costs
            constraints cs cps W1 out0 hne hcosts h1 hvf,
          optimizeGain_eq_commit env dataset validInstances validFeatures attacker costs
            constraints cs cps W2 out0 hne hcosts h2 hvf]
      · rw [optimizeGain_no_costs env dataset validInstances validFeatures attacker costs
            constraints cs cps W1 out0 hne hcosts h1 hvf,
          optimizeGain_no_costs env dataset validInstances validFeatures attacker costs
            constraints cs cps W2 out0 hne hcosts h2 hvf]

/-- With more workers than features (and at least two workers), `optimizeGain` does not
return: the reduction reads a future that no `std::async` call has filled. -/
theorem optimizeGain_too_many_workers (env : Env) (dataset : Dataset)
    (validInstances validFeatures : indexes_t) (attacker : Attacker) (costs : cost_map)
    (constraints : List Constraint) (cs cps : ℚ) (numThreads : Nat) (out0 : GainOutputs)
    (h2 : 2 ≤ numThreads) (hlt : validFeatures.length < numThreads) :
    ∃ e, optimizeGain env dataset validInstances validFeatures attacker costs constraints cs cps
      numThreads out0 = .error e := by
  cases hres : optimizeGain env dataset validInstances validFeatures attacker costs constraints
      cs cps numThreads out0 with
  | error e => exact ⟨e, rfl⟩
  | ok r =>
    obtain ⟨b, out⟩ := r
    obtain ⟨_, hW, _⟩ := optimizeGain_ok_inv env dataset validInstances validFeatures attacker
      costs constraints cs cps numThreads out0 out b hres
    rcases hW with h | ⟨_, h⟩ <;> omega

/-- C7, at the failing input: on the twin dataset with the single feature 0, one worker
makes `optimizeGain` return `true` with the split `feature 0 <= 0`, while two workers make
it fail on the future that no `std::async` call has filled (the error `noState`). -/
theorem optimizeGain_worker_count_changes_result :
    optimizeGain (exEnv [5, 10]) (exTwinDataset [0, 10, 10]) [0, 1, 2] [0] exTwinAttacker
      exCosts [] (200 / 3) (20 / 3) 1 emptyOutputs = .ok (true, exOutputsLeft 0) ∧
    optimizeGain (exEnv [5, 10]) (exTwinDataset [0, 10, 10]) [0, 1, 2] [0] exTwinAttacker
      exCosts [] (200 / 3) (20 / 3) 2 emptyOutputs = .error .noState :=
  ⟨by decide!, by decide!⟩

/-! ## The loss at the children -/

theorem sseCostFunction_f_eq_sum (y : List prediction_t) (L R U : indexes_t) (x : List ℚ) :
    sseCostFunction.f y L R U x =
      (L.map (fun i => (vecAt y i - vecAt x 0) ^ 2)).sum +
      (R.map (fun i => (vecAt y i - vecAt x 1) ^ 2)).sum +
      (U.map (fun i => max ((vecAt y i - vecAt x 0) ^ 2) ((vecAt y i - vecAt x 1) ^ 2))).sum := by
  have hmax : ∀ a b : ℚ, (if a > b then a else b) = max a b := by
    intro a b
    by_cases h : a > b
    · simp [h, max_eq_left (le_of_lt h)]
    · simp [h, max_eq_right (not_lt.mp h)]
  simp only [sseCostFunction.f, foldl_add_eq_sum, hmax, zero_add, pow_two]

theorem evaluateSplit_eq_sum (dataset : Dataset) (rows : indexes_t) (p : prediction_t) :
    evaluateSplit dataset rows p = (rows.map (fun i => (vecAt dataset.getLabels i - p) ^ 2)).sum := by
  simp only [evaluateSplit, foldl_add_eq_sum, zero_add, pow_two]

theorem goesLeft_sq (yi pl pr : ℚ) :
    (goesLeft yi pl pr = true → max ((yi - pl) ^ 2) ((yi - pr) ^ 2) = (yi - pl) ^ 2) ∧
    (goesLeft yi pl pr = false → max ((yi - pl) ^ 2) ((yi - pr) ^ 2) = (yi - pr) ^ 2) := by
  have habs : ∀ a : ℚ, (if a < 0 then -a else a) = |a| := by
    intro a
    by_cases h : a < 0
    · rw [if_pos h, abs_of_neg h]
    · rw [if_neg h, abs_of_nonneg (not_lt.mp h)]
  simp only [goesLeft, habs, decide_eq_true_eq, decide_eq_false_iff_not, not_lt]
  constructor
  · intro h
    exact max_eq_left (sq_le_sq.mpr (le_of_lt h))
  · intro h
    exact max_eq_right (sq_le_sq.mpr h)

theorem sum_filter_split (l : List index_t) (p : index_t → Bool) (g1 g2 g : index_t → ℚ)
    (h1 : ∀ i, p i = true → g i = g1 i) (h2 : ∀ i, p i = false → g i = g2 i) :
    ((l.filter p).map g1).sum + ((l.filter (fun i => !p i)).map g2).sum = (l.map g).sum := by
  induction l with
  | nil => simp
  | cons i rest ih =>
    cases hp : p i
    · simp only [List.filter_cons, hp, Bool.false_eq_true, if_false, Bool.not_false, if_true,
        List.map_cons, List.sum_cons, h2 i hp, ← ih]
      ring
    · simp only [List.filter_cons, hp, if_true, Bool.not_true, Bool.false_eq_true, if_false,
        List.map_cons, List.sum_cons, h1 i hp, ← ih]
      ring

theorem optimizeSSE_true (nlopt : Solver) (y : List label_t) (L R U : indexes_t)
    (constraints : List Constraint) (a b s0 l r s : ℚ)
    (h : optimizeSSE nlopt y L R U constraints a b s0 = (true, l, r, s)) :
    ∃ code x, nlopt ⟨y, L, R, U, 0⟩ constraints [a, b] = some (code, x, s) ∧
      l = vecAt x 0 ∧ r = vecAt x 1 := by
  unfold optimizeSSE at h
  cases hn : nlopt ⟨y, L, R, U, 0⟩ constraints [a, b] with
  | none => simp [hn] at h
  | some res =>
    obtain ⟨code, x, f⟩ := res
    simp only [hn] at h
    split_ifs at h
    · simp at h
    · simp only [Prod.mk.injEq, true_and] at h
      obtain ⟨h1, h2, h3⟩ := h
      exact ⟨code, x, by rw [h3], h1.symm, h2.symm⟩

theorem trySplitValue_eq (env : Env) (dataset : Dataset) (costs : cost_map)
    (attacker : Attacker) (validInstances : indexes_t) (constraints : List Constraint) (cps : ℚ)
    (j : index_t) (v : feature_t) (h : HasCosts costs validInstances) :
    trySplitValue env dataset costs attacker validInstances constraints cps j v =
      optimizeSSE env.nlopt dataset.getLabels
        (certainLeft dataset validInstances attacker costs v j)
        (certainRight dataset validInstances attacker costs v j)
        (uncertain dataset validInstances attacker costs v j)
        (optimizeOnSubset.updatedConstraints env attacker constraints j v
          (dataset.isFeatureNumerical j)) cps cps 0 := by
  simp only [trySplitValue, optimizeOnSubset.trySplit,
    simulateSplit_eq dataset validInstances attacker costs v j h]

/-- C8 (amended): in exact arithmetic (the operations of `double` taken without rounding),
when the value reported by the solver is the objective at the point it returns and
`optimizeGain` returns `true`, the SSE of the two children after the redistribution of the
unknown instances, `evaluateSplit(bestSplitLeft, bestPredLeft) +
evaluateSplit(bestSplitRight, bestPredRight)`, is the worst-case objective of the selected
split `(L, R, U)` at `(bestPredLeft, bestPredRight)`, which is
`bestSSEuma = currentScore - bestGain`. -/
theorem optimizeGain_children_sse (env : Env) (dataset : Dataset)
    (validInstances validFeatures : indexes_t) (attacker : Attacker) (costs : cost_map)
    (constraints : List Constraint) (cs cps : ℚ) (numThreads : Nat) (out0 out : GainOutputs)
    (hsolver : ∀ d cons x0 code x f, env.nlopt d cons x0 = some (code, x, f) →
      f = sseCostFunction.f d.y_ d.leftIndexes_ d.rightIndexes_ d.unknownIndexes_ x)
    (h : optimizeGain env dataset validInstances validFeatures attacker costs constraints cs cps
      numThreads out0 = .ok (true, out)) :
    ∃ L R U, simulateSplit dataset validInstances attacker costs out.bestSplitValue
        out.bestSplitFeatureId = .ok (L, R, U) ∧
      evaluateSplit dataset out.bestSplitLeft out.bestPredLeft +
          evaluateSplit dataset out.bestSplitRight out.bestPredRight =
        sseCostFunction.f dataset.getLabels L R U [out.bestPredLeft, out.bestPredRight] ∧
      sseCostFunction.f dataset.getLabels L R U [out.bestPredLeft, out.bestPredRight] =
        out.bestSSEuma ∧
      out.bestSSEuma = cs - out.bestGain := by
  obtain ⟨hcosts, c, hsel, hg, st, cl, cr, hst, _, _, hout⟩ := optimizeGain_true env dataset
    validInstances validFeatures attacker costs constraints cs cps numThreads out0 out h
  obtain ⟨hF1, _⟩ := selectBest_features
    (trySplitValue env dataset costs attacker validInstances constraints cps) dataset cs
    validFeatures
  obtain ⟨_, _, a3, a4⟩ := hF1 c hsel
  rw [trySplitValue_eq _ _ _ _ _ _ _ _ _ hcosts] at a3
  obtain ⟨code, x, hn, hl, hr⟩ := optimizeSSE_true _ _ _ _ _ _ _ _ _ _ _ _ a3
  have hf := hsolver _ _ _ _ _ _ hn
  simp only at hf
  obtain ⟨u1, u2, _, _⟩ := unknownLoop_spec env dataset attacker costs _ _ _ _ _ _ _ hst
  simp only [List.nil_append] at u1 u2
  have hobj : c.bestSSEuma = sseCostFunction.f dataset.getLabels
      (certainLeft dataset validInstances attacker costs c.bestSplitValue
        c.bestSplitFeatureId)
      (certainRight dataset validInstances attacker costs c.bestSplitValue
        c.bestSplitFeatureId)
      (uncertain dataset validInstances attacker costs c.bestSplitValue
        c.bestSplitFeatureId) [c.bestPredLeft, c.bestPredRight] := by
    rw [hf, sseCostFunction_f_eq_sum, sseCostFunction_f_eq_sum, hl, hr]
    rfl
  subst hout
  refine ⟨_, _, _, simulateSplit_eq dataset validInstances attacker costs _ _ hcosts, ?_,
    hobj.symm, by rw [a4]; ring⟩
  simp only
  rw [sseCostFunction_f_eq_sum, evaluateSplit_eq_sum, evaluateSplit_eq_sum, u1, u2,
    List.map_append, List.map_append, List.sum_append, List.sum_append]
  have hsplit := sum_filter_split
    (uncertain dataset validInstances attacker costs c.bestSplitValue c.bestSplitFeatureId)
    (fun i => goesLeft (vecAt dataset.getLabels i) c.bestPredLeft c.bestPredRight)
    (fun i => (vecAt dataset.getLabels i - c.bestPredLeft) ^ 2)
    (fun i => (vecAt dataset.getLabels i - c.bestPredRight) ^ 2)
    (fun i => max ((vecAt dataset.getLabels i - c.bestPredLeft) ^ 2)
      ((vecAt dataset.getLabels i - c.bestPredRight) ^ 2))
    (fun i hi => (goesLeft_sq _ _ _).1 hi) (fun i hi => (goesLeft_sq _ _ _).2 hi)
  simp only [vecAt, List.getD_cons_zero, List.getD_cons_succ] at hsplit ⊢
  rw [← hsplit]
  ring

/-- Instance of `optimizeGain_children_sse` on the twin dataset: the children have the SSE
`25 + 25 + 0 = 50`. -/
theorem optimizeGain_children_sse_witness :
    (∀ d cons x0 code x f, (exEnv [5, 10]).nlopt d cons x0 = some (code, x, f) →
      f = sseCostFunction.f d.y_ d.leftIndexes_ d.rightIndexes_ d.unknownIndexes_ x) ∧
    optimizeGain (exEnv [5, 10]) (exTwinDataset [0, 10, 10]) [0, 1, 2] [0] exTwinAttacker
      exCosts [] (200 / 3) (20 / 3) 1 emptyOutputs = .ok (true, exOutputsLeft 0) ∧
    ∃ L R U, simulateSplit (exTwinDataset [0, 10, 10]) [0, 1, 2] exTwinAttacker exCosts
        (exOutputsLeft 0).bestSplitValue (exOutputsLeft 0).bestSplitFeatureId = .ok (L, R, U) ∧
      evaluateSplit (exTwinDataset [0, 10, 10]) (exOutputsLeft 0).bestSplitLeft
          (exOutputsLeft 0).bestPredLeft +
        evaluateSplit (exTwinDataset [0, 10, 10]) (exOutputsLeft 0).bestSplitRight
          (exOutputsLeft 0).bestPredRight =
        sseCostFunction.f (exTwinDataset [0, 10, 10]).getLabels L R U
          [(exOutputsLeft 0).bestPredLeft, (exOutputsLeft 0).bestPredRight] ∧
      sseCostFunction.f (exTwinDataset [0, 10, 10]).getLabels L R U
          [(exOutputsLeft 0).bestPredLeft, (exOutputsLeft 0).bestPredRight] =
        (exOutputsLeft 0).bestSSEuma ∧
      (exOutputsLeft 0).bestSSEuma = 200 / 3 - (exOutputsLeft 0).bestGain :=
  have hsolver : ∀ d cons x0 code x f, (exEnv [5, 10]).nlopt d cons x0 = some (code, x, f) →
      f = sseCostFunction.f d.y_ d.leftIndexes_ d.rightIndexes_ d.unknownIndexes_ x := by
    intro d cons x0 code x f hn
    simp only [exEnv, exSolver] at hn
    split_ifs at hn <;> (cases hn; rfl)
  ⟨hsolver, by decide!,
    optimizeGain_children_sse (exEnv [5, 10]) (exTwinDataset [0, 10, 10]) [0, 1, 2] [0]
      exTwinAttacker exCosts [] (200 / 3) (20 / 3) 1 emptyOutputs (exOutputsLeft 0) hsolver
      (by decide!)⟩

/-! ## The residual costs of the redistributed instances -/

theorem goesLeft_iff_abs (yi pl pr : ℚ) : goesLeft yi pl pr = true ↔ |yi - pl| > |yi - pr| := by
  have habs : ∀ a : ℚ, (if a < 0 then -a else a) = |a| := by
    intro a
    by_cases h : a < 0
    · rw [if_pos h, abs_of_neg h]
    · rw [if_neg h, abs_of_nonneg (not_lt.mp h)]
  simp only [goesLeft, habs, decide_eq_true_eq]

theorem not_mem_certain_of_uncertain (dataset : Dataset) (validInstances : indexes_t)
    (attacker : Attacker) (costs : cost_map) (v : feature_t) (j : index_t) (i : index_t)
    (hi : i ∈ uncertain dataset validInstances attacker costs v j) :
    i ∉ certainLeft dataset validInstances attacker costs v j ∧
    i ∉ certainRight dataset validInstances attacker costs v j := by
  simp only [uncertain, certainLeft, certainRight, List.mem_filter, Bool.and_eq_true,
    Bool.not_eq_true'] at hi ⊢
  obtain ⟨_, h1, h2⟩ := hi
  constructor
  · rintro ⟨_, h3⟩; rw [h1] at h3; cases h3
  · rintro ⟨_, _, h3⟩; rw [h2] at h3; cases h3

/-- What the code stores in `costsLeft` for an unknown instance sent to the left: the cost
of the first attack of its attack list (`attacks[0].second`). -/
theorem optimizeGain_costsLeft_unknown (env : Env) (dataset : Dataset)
    (validInstances validFeatures : indexes_t) (attacker : Attacker) (costs : cost_map)
    (constraints : List Constraint) (cs cps : ℚ) (numThreads : Nat) (out0 out : GainOutputs)
    (h : optimizeGain env dataset validInstances validFeatures attacker costs constraints cs cps
      numThreads out0 = .ok (true, out))
    (i : index_t)
    (hi : i ∈ uncertain dataset validInstances attacker costs out.bestSplitValue
      out.bestSplitFeatureId)
    (hleft : |vecAt dataset.getLabels i - out.bestPredLeft| >
      |vecAt dataset.getLabels i - out.bestPredRight|) :
    out.costsLeft.lookup i =
      (attacksOf dataset attacker costs out.bestSplitFeatureId i).head?.map (fun atk => atk.2) := by
  obtain ⟨hcosts, c, hsel, hg, st, cl, cr, hst, hcl, hcr, hout⟩ := optimizeGain_true env dataset
    validInstances validFeatures attacker costs constraints cs cps numThreads out0 out h
  subst hout
  simp only at hi hleft ⊢
  obtain ⟨_, _, u3, _⟩ := unknownLoop_spec env dataset attacker costs _ _ _ _ _ _ _ hst
  rw [copyCosts_lookup _ _ _ _ hcl i,
    if_neg (not_mem_certain_of_uncertain _ _ _ _ _ _ _ hi).1, u3 i,
    if_pos ⟨hi, (goesLeft_iff_abs _ _ _).mpr hleft⟩]

/-- C9, at the failing input: on the twin dataset with labels 0, 10, 10 the split
`feature 0 <= 0` is selected with predictions 5 and 10; instance 1 (feature value 2, label
10, residual cost 1) is unknown and goes left; its attacks are the unperturbed record at cost
0, which lands on the right, and the record moved to -1 at cost 1, which lands on the left.
The code stores `costsLeft[1] = 0`, while every attack that places the instance on the left
costs 1. -/
theorem optimizeGain_costMinLeft_not_minimum :
    optimizeGain (exEnv [5, 10]) (exTwinDataset [0, 10, 10]) [0, 1, 2] [0] exTwinAttacker
      exCosts [] (200 / 3) (20 / 3) 1 emptyOutputs = .ok (true, exOutputsLeft 0) ∧
    simulateSplit (exTwinDataset [0, 10, 10]) [0, 1, 2] exTwinAttacker exCosts
      (exOutputsLeft 0).bestSplitValue (exOutputsLeft 0).bestSplitFeatureId =
        .ok ([0], [2], [1]) ∧
    goesLeft (vecAt (exTwinDataset [0, 10, 10]).getLabels 1) (exOutputsLeft 0).bestPredLeft
      (exOutputsLeft 0).bestPredRight = true ∧
    exCosts.lookup 1 = some 1 ∧
    exTwinAttacker.attack ((exTwinDataset [0, 10, 10]).getRecord 1) 0 1 =
      [([2, 2], 0), ([-1, -1], 1)] ∧
    (∀ atk ∈ exTwinAttacker.attack ((exTwinDataset [0, 10, 10]).getRecord 1) 0 1,
      placesLeft true 0 0 atk.1 → atk.2 = 1) ∧
    (exOutputsLeft 0).costsLeft.lookup 1 = some 0 ∧
    (exOutputsLeft 0).constraintsLeft = [⟨[2, 2], 10, 0, true, 10, 'U'⟩] ∧
    (exOutputsLeft 0).constraintsRight = [⟨[2, 2], 10, 0, false, 10, 'U'⟩] :=
  ⟨by decide!, by decide!, by decide!, by decide!, by decide!, by decide!, by decide!, rfl, rfl⟩

/-- C10: when `optimizeGain` returns `true`, for every instance `i` of the unknown set of
the selected split with `|y_i - bestPredLeft| <= |y_i - bestPredRight|`, `i` is sent to the
right child and `costsRight[i]` is the least cost among the attacks of
`attacker.attack(record_i, bestSplitFeatureId, costs[i])` that place `i` on the right of the
split (that violate the split predicate): it is the cost of such an attack, and no such
attack costs less. -/
theorem optimizeGain_costMinRight (env : Env) (dataset : Dataset)
    (validInstances validFeatures : indexes_t) (attacker : Attacker) (costs : cost_map)
    (constraints : List Constraint) (cs cps : ℚ) (numThreads : Nat) (out0 out : GainOutputs)
    (h : optimizeGain env dataset validInstances validFeatures attacker costs constraints cs cps
      numThreads out0 = .ok (true, out)) :
    ∃ L R U, simulateSplit dataset validInstances attacker costs out.bestSplitValue
        out.bestSplitFeatureId = .ok (L, R, U) ∧
      ∀ i ∈ U, |vecAt dataset.getLabels i - out.bestPredLeft| ≤
          |vecAt dataset.getLabels i - out.bestPredRight| →
        i ∈ out.bestSplitRight ∧
        ∃ cost c, costs.lookup i = some cost ∧ out.costsRight.lookup i = some c ∧
          (∃ atk ∈ attacker.attack (dataset.getRecord i) out.bestSplitFeatureId cost,
            ¬ placesLeft (dataset.isFeatureNumerical out.bestSplitFeatureId)
              out.bestSplitFeatureId out.bestSplitValue atk.1 ∧ atk.2 = c) ∧
          ∀ atk ∈ attacker.attack (dataset.getRecord i) out.bestSplitFeatureId cost,
            ¬ placesLeft (dataset.isFeatureNumerical out.bestSplitFeatureId)
              out.bestSplitFeatureId out.bestSplitValue atk.1 → c ≤ atk.2 := by
  obtain ⟨hcosts, c, hsel, hg, st, cl, cr, hst, hcl, hcr, hout⟩ := optimizeGain_true env dataset
    validInstances validFeatures attacker costs constraints cs cps numThreads out0 out h
  subst hout
  refine ⟨_, _, _, simulateSplit_eq dataset validInstances attacker costs _ _ hcosts, ?_⟩
  intro i hi hright
  simp only at hi hright ⊢
  have hgl : goesLeft (vecAt dataset.getLabels i) c.bestPredLeft c.bestPredRight = false := by
    rw [← Bool.not_eq_true, goesLeft_iff_abs]
    exact not_lt.mpr hright
  obtain ⟨_, u2, _, u4⟩ := unknownLoop_spec env dataset attacker costs _ _ _ _ _ _ _ hst
  have hval : (uncertain dataset validInstances attacker costs c.bestSplitValue
      c.bestSplitFeatureId) ⊆ validInstances := fun x hx => (List.mem_filter.mp hx).1
  obtain ⟨cost, hcost⟩ := Option.isSome_iff_exists.mp (hcosts i (hval hi))
  have hatt : attacksOf dataset attacker costs c.bestSplitFeatureId i =
      attacker.attack (dataset.getRecord i) c.bestSplitFeatureId cost := by
    simp [attacksOf, costOf_of_lookup hcost]
  refine ⟨?_, cost, ?_⟩
  · rw [u2]
    apply List.mem_append_right
    apply List.mem_append_right
    exact List.mem_filter.mpr ⟨hi, by simp [hgl]⟩
  · have hlook : cr.lookup i = (optimizeGain.costMinRight dataset
        (attacker.attack (dataset.getRecord i) c.bestSplitFeatureId cost)
        c.bestSplitFeatureId c.bestSplitValue).toOption := by
      rw [copyCosts_lookup _ _ _ _ hcr i,
        if_neg (not_mem_certain_of_uncertain _ _ _ _ _ _ _ hi).2, u4 i, if_pos ⟨hi, hgl⟩, hatt]
    have hne := uncertain_costsOnRight dataset validInstances attacker costs _ _ i hi
    rw [hatt] at hne
    rcases costMinRight_spec dataset c.bestSplitFeatureId c.bestSplitValue
        (attacker.attack (dataset.getRecord i) c.bestSplitFeatureId cost)
      with ⟨h1, _⟩ | ⟨m, h1, h2, h3⟩
    · exact absurd h1 hne
    · refine ⟨m, hcost, by rw [hlook, h1]; rfl, ?_, ?_⟩
      · simp only [costsOnRightOf, List.mem_map, List.mem_filter, Bool.not_eq_true',
          decide_eq_false_iff_not] at h2
        obtain ⟨atk, ⟨hmem, hnot⟩, heq⟩ := h2
        exact ⟨atk, hmem, hnot, heq⟩
      · intro atk hmem hnot
        apply h3
        simp only [costsOnRightOf, List.mem_map, List.mem_filter, Bool.not_eq_true',
          decide_eq_false_iff_not]
        exact ⟨atk, ⟨hmem, hnot⟩, rfl⟩

/-- Instance of `optimizeGain_costMinRight` on the twin dataset with labels 0, 0, 10, where
the unknown instance 1 goes right with the residual cost 0. -/
theorem optimizeGain_costMinRight_witness :
    optimizeGain (exEnv [0, 5]) (exTwinDataset [0, 0, 10]) [0, 1, 2] [0] exTwinAttacker
      exCosts [] (200 / 3) (10 / 3) 1 emptyOutputs = .ok (true, exOutputsRight) ∧
    ∃ L R U, simulateSplit (exTwinDataset [0, 0, 10]) [0, 1, 2] exTwinAttacker exCosts
        exOutputsRight.bestSplitValue exOutputsRight.bestSplitFeatureId = .ok (L, R, U) ∧
      ∀ i ∈ U, |vecAt (exTwinDataset [0, 0, 10]).getLabels i - exOutputsRight.bestPredLeft| ≤
          |vecAt (exTwinDataset [0, 0, 10]).getLabels i - exOutputsRight.bestPredRight| →
        i ∈ exOutputsRight.bestSplitRight ∧
        ∃ cost c, exCosts.lookup i = some cost ∧ exOutputsRight.costsRight.lookup i = some c ∧
          (∃ atk ∈ exTwinAttacker.attack ((exTwinDataset [0, 0, 10]).getRecord i)
              exOutputsRight.bestSplitFeatureId cost,
            ¬ placesLeft ((exTwinDataset [0, 0, 10]).isFeatureNumerical
                exOutputsRight.bestSplitFeatureId)
              exOutputsRight.bestSplitFeatureId exOutputsRight.bestSplitValue atk.1 ∧
            atk.2 = c) ∧
          ∀ atk ∈ exTwinAttacker.attack ((exTwinDataset [0, 0, 10]).getRecord i)
              exOutputsRight.bestSplitFeatureId cost,
            ¬ placesLeft ((exTwinDataset [0, 0, 10]).isFeatureNumerical
                exOutputsRight.bestSplitFeatureId)
              exOutputsRight.bestSplitFeatureId exOutputsRight.bestSplitValue atk.1 →
            c ≤ atk.2 :=
  ⟨by decide!,
    optimizeGain_costMinRight (exEnv [0, 5]) (exTwinDataset [0, 0, 10]) [0, 1, 2] [0]
      exTwinAttacker exCosts [] (200 / 3) (10 / 3) 1 emptyOutputs exOutputsRight (by decide!)⟩

/-! ## The two children of the selected split -/

theorem count_filter_ite (l : List index_t) (p : index_t → Bool) (a : index_t) :
    (l.filter p).count a = if p a = true then l.count a else 0 := by
  by_cases hp : p a = true
  · rw [if_pos hp, List.count_filter hp]
  · rw [if_neg hp]
    apply List.count_eq_zero_of_not_mem
    intro hmem
    exact hp (List.mem_filter.mp hmem).2

theorem goesLeft_eq_decide (yi pl pr : ℚ) :
    goesLeft yi pl pr = decide (|yi - pl| > |yi - pr|) := by
  rw [Bool.eq_iff_iff, goesLeft_iff_abs]
  simp

/-- C11: when `optimizeGain` returns `true`, with `(L, R, U)` the result of `simulateSplit` on
the selected split, the final `bestSplitLeft` is `L` followed by the instances of `U` with
`|y_i - bestPredLeft| > |y_i - bestPredRight|` in their order in `U`, the final
`bestSplitRight` is `R` followed by the other instances of `U`, and the two lists partition
`validInstances`: together they are a rearrangement of `validInstances` (so an index is valid
iff it is in one of them, as many times), and no index is in both. -/
theorem optimizeGain_final_split (env : Env) (dataset : Dataset)
    (validInstances validFeatures : indexes_t) (attacker : Attacker) (costs : cost_map)
    (constraints : List Constraint) (cs cps : ℚ) (numThreads : Nat) (out0 out : GainOutputs)
    (h : optimizeGain env dataset validInstances validFeatures attacker costs constraints cs cps
      numThreads out0 = .ok (true, out)) :
    ∃ L R U, simulateSplit dataset validInstances attacker costs out.bestSplitValue
        out.bestSplitFeatureId = .ok (L, R, U) ∧
      out.bestSplitLeft = L ++ U.filter (fun i =>
        decide (|vecAt dataset.getLabels i - out.bestPredLeft| >
          |vecAt dataset.getLabels i - out.bestPredRight|)) ∧
      out.bestSplitRight = R ++ U.filter (fun i =>
        !decide (|vecAt dataset.getLabels i - out.bestPredLeft| >
          |vecAt dataset.getLabels i - out.bestPredRight|)) ∧
      (out.bestSplitLeft ++ out.bestSplitRight).Perm validInstances ∧
      (∀ i, i ∈ validInstances ↔ (i ∈ out.bestSplitLeft ∨ i ∈ out.bestSplitRight)) ∧
      (∀ i, ¬ (i ∈ out.bestSplitLeft ∧ i ∈ out.bestSplitRight)) := by
  obtain ⟨hcosts, c, hsel, hg, st, cl, cr, hst, _, _, hout⟩ := optimizeGain_true env dataset
    validInstances validFeatures attacker costs constraints cs cps numThreads out0 out h
  obtain ⟨u1, u2, _, _⟩ := unknownLoop_spec env dataset attacker costs _ _ _ _ _ _ _ hst
  simp only [List.nil_append] at u1 u2
  subst hout
  simp only
  have hgl : (fun i => goesLeft (vecAt dataset.getLabels i) c.bestPredLeft c.bestPredRight) =
      (fun i => decide (|vecAt dataset.getLabels i - c.bestPredLeft| >
          |vecAt dataset.getLabels i - c.bestPredRight|)) := by
    funext i; exact goesLeft_eq_decide _ _ _
  have hngl : (fun i => !goesLeft (vecAt dataset.getLabels i) c.bestPredLeft c.bestPredRight) =
      (fun i => !decide (|vecAt dataset.getLabels i - c.bestPredLeft| >
          |vecAt dataset.getLabels i - c.bestPredRight|)) := by
    funext i; rw [goesLeft_eq_decide]
  rw [hgl] at u1
  rw [hngl] at u2
  have hperm : (certainLeft dataset validInstances attacker costs c.bestSplitValue
        c.bestSplitFeatureId ++ st.unknownIndexesToLeft ++
      (certainRight dataset validInstances attacker costs c.bestSplitValue
        c.bestSplitFeatureId ++ st.unknownIndexesToRight)).Perm validInstances := by
    rw [List.perm_iff_count]
    intro a
    rw [u1, u2]
    simp only [List.count_append, certainLeft, certainRight, uncertain, List.filter_filter,
      count_filter_ite]
    rcases (flagsOf dataset attacker costs c.bestSplitValue c.bestSplitFeatureId a).1 <;>
      rcases (flagsOf dataset attacker costs c.bestSplitValue c.bestSplitFeatureId a).2 <;>
      rcases decide (|vecAt dataset.getLabels a - c.bestPredLeft| >
          |vecAt dataset.getLabels a - c.bestPredRight|) <;> simp
  refine ⟨_, _, _, simulateSplit_eq dataset validInstances attacker costs _ _ hcosts,
    by rw [u1], by rw [u2], hperm, fun i => (hperm.mem_iff).symm.trans List.mem_append, ?_⟩
  intro i
  rw [u1, u2]
  simp only [List.mem_append, certainLeft, certainRight, uncertain, List.mem_filter]
  rcases (flagsOf dataset attacker costs c.bestSplitValue c.bestSplitFeatureId i).1 <;>
    rcases (flagsOf dataset attacker costs c.bestSplitValue c.bestSplitFeatureId i).2 <;>
    rcases decide (|vecAt dataset.getLabels i - c.bestPredLeft| >
        |vecAt dataset.getLabels i - c.bestPredRight|) <;> simp

/-- Instance of `optimizeGain_final_split` on the twin dataset: the children are `[0, 1]`
and `[2]`. -/
theorem optimizeGain_final_split_witness :
    optimizeGain (exEnv [5, 10]) (exTwinDataset [0, 10, 10]) [0, 1, 2] [0] exTwinAttacker
      exCosts [] (200 / 3) (20 / 3) 1 emptyOutputs = .ok (true, exOutputsLeft 0) ∧
    ∃ L R U, simulateSplit (exTwinDataset [0, 10, 10]) [0, 1, 2] exTwinAttacker exCosts
        (exOutputsLeft 0).bestSplitValue (exOutputsLeft 0).bestSplitFeatureId = .ok (L, R, U) ∧
      (exOutputsLeft 0).bestSplitLeft = L ++ U.filter (fun i =>
        decide (|vecAt (exTwinDataset [0, 10, 10]).getLabels i - (exOutputsLeft 0).bestPredLeft| >
          |vecAt (exTwinDataset [0, 10, 10]).getLabels i - (exOutputsLeft 0).bestPredRight|)) ∧
      (exOutputsLeft 0).bestSplitRight = R ++ U.filter (fun i =>
        !decide (|vecAt (exTwinDataset [0, 10, 10]).getLabels i -
            (exOutputsLeft 0).bestPredLeft| >
          |vecAt (exTwinDataset [0, 10, 10]).getLabels i - (exOutputsLeft 0).bestPredRight|)) ∧
      ((exOutputsLeft 0).bestSplitLeft ++ (exOutputsLeft 0).bestSplitRight).Perm [0, 1, 2] ∧
      (∀ i, i ∈ ([0, 1, 2] : indexes_t) ↔
        (i ∈ (exOutputsLeft 0).bestSplitLeft ∨ i ∈ (exOutputsLeft 0).bestSplitRight)) ∧
      (∀ i, ¬ (i ∈ (exOutputsLeft 0).bestSplitLeft ∧ i ∈ (exOutputsLeft 0).bestSplitRight)) :=
  ⟨by decide!,
    optimizeGain_final_split (exEnv [5, 10]) (exTwinDataset [0, 10, 10]) [0, 1, 2] [0]
      exTwinAttacker exCosts [] (200 / 3) (20 / 3) 1 emptyOutputs (exOutputsLeft 0)
      (by decide!)⟩

/-! ## The constraints emitted for the unknown instances -/

/-- The loop over the unknown instances appends one constraint to each of the two lists for
each instance, in the order of the instances. -/
theorem unknownLoop_constraints (env : Env) (dataset : Dataset) (attacker : Attacker)
    (costs : cost_map) (f : index_t) (v : split_value_t) (pl pr : prediction_t)
    (l : List index_t) (st0 st : Redistribution)
    (h : optimizeGain.unknownLoop env dataset attacker costs f v pl pr l st0 = .ok st) :
    st.constraintsLeft = st0.constraintsLeft ++
        l.map (emittedLeft env dataset attacker costs f v pl pr) ∧
    st.constraintsRight = st0.constraintsRight ++
        l.map (emittedRight env dataset attacker costs f v pl pr) := by
  induction l generalizing st0 with
  | nil =>
    simp only [optimizeGain.unknownLoop] at h
    cases h
    simp
  | cons k rest ih =>
    unfold optimizeGain.unknownLoop at h
    cases hm : mapAt costs k with
    | error e => rw [hm] at h; cases h
    | ok cost =>
      rw [hm] at h
      have hcost : costOf costs k = cost := costOf_of_lookup (mapAt_eq_ok hm)
      simp only at h
      cases hatt : attacker.attack (dataset.getRecord k) f cost with
      | nil => rw [hatt] at h; cases h
      | cons a0 tail =>
        rw [hatt] at h
        have hattk : attacksOf dataset attacker costs f k = a0 :: tail := by
          simp [attacksOf, hcost, hatt]
        simp only at h
        by_cases hgl : goesLeft (vecAt dataset.getLabels k) pl pr = true
        · have hcond := hgl
          simp only [goesLeft, decide_eq_true_eq] at hcond
          rw [if_pos hcond] at h
          obtain ⟨h1, h2⟩ := ih _ h
          refine ⟨?_, ?_⟩
          · rw [h1]
            simp [emittedLeft, storedCostOf, hgl, hattk]
          · rw [h2]
            simp [emittedRight, storedCostOf, hgl, hattk]
        · have hgl2 : goesLeft (vecAt dataset.getLabels k) pl pr = false := by
            simpa using hgl
          have hcond := hgl
          simp only [goesLeft, decide_eq_true_eq] at hcond
          rw [if_neg hcond] at h
          cases hc : optimizeGain.costMinRight dataset (a0 :: tail) f v with
          | error e => rw [hc] at h; cases h
          | ok c =>
            rw [hc] at h
            obtain ⟨h1, h2⟩ := ih _ h
            refine ⟨?_, ?_⟩
            · rw [h1]
              simp [emittedLeft, storedCostOf, hgl2, hattk, hc, Except.toOption]
            · rw [h2]
              simp [emittedRight, storedCostOf, hgl2, hattk, hc, Except.toOption]

/-- C12: when `optimizeGain` returns `true`, with `(L, R, U)` the result of `simulateSplit`
on the selected split, `constraintsLeft` is the list of the propagated inherited constraints
followed by exactly one constraint for each instance of `U` (in the order of `U`), and so is
`constraintsRight`. The two constraints of an instance `i` carry `record_i`, the label
`y_i` and the same cost, which is the cost stored for `i` in the cost map of the child `i`
is assigned to; their bound is the prediction of the other child (`bestPredRight` if `i`
goes left, `bestPredLeft` if it goes right); the one added to the child of `i` has the
inequality flag `true`, the one added to the other child has the flag `false`. -/
theorem optimizeGain_emitted_constraints (env : Env) (dataset : Dataset)
    (validInstances validFeatures : indexes_t) (attacker : Attacker) (costs : cost_map)
    (constraints : List Constraint) (cs cps : ℚ) (numThreads : Nat) (out0 out : GainOutputs)
    (h : optimizeGain env dataset validInstances validFeatures attacker costs constraints cs cps
      numThreads out0 = .ok (true, out)) :
    ∃ L R U, simulateSplit dataset validInstances attacker costs out.bestSplitValue
        out.bestSplitFeatureId = .ok (L, R, U) ∧
      ∃ newLeft newRight : index_t → Constraint,
        out.constraintsLeft = (optimizeGain.propagate env attacker constraints
          out.bestSplitFeatureId out.bestSplitValue
          (dataset.isFeatureNumerical out.bestSplitFeatureId) [] []).1 ++ U.map newLeft ∧
        out.constraintsRight = (optimizeGain.propagate env attacker constraints
          out.bestSplitFeatureId out.bestSplitValue
          (dataset.isFeatureNumerical out.bestSplitFeatureId) [] []).2 ++ U.map newRight ∧
        ∀ i ∈ U,
          (newLeft i).x = dataset.getRecord i ∧ (newRight i).x = dataset.getRecord i ∧
          (newLeft i).y = vecAt dataset.getLabels i ∧
          (newRight i).y = vecAt dataset.getLabels i ∧
          (newLeft i).cost = (newRight i).cost ∧
          (|vecAt dataset.getLabels i - out.bestPredLeft| >
              |vecAt dataset.getLabels i - out.bestPredRight| →
            i ∈ out.bestSplitLeft ∧ out.costsLeft.lookup i = some (newLeft i).cost ∧
            (newLeft i).bound = out.bestPredRight ∧ (newRight i).bound = out.bestPredRight ∧
            (newLeft i).inequality = true ∧ (newRight i).inequality = false) ∧
          (¬ |vecAt dataset.getLabels i - out.bestPredLeft| >
              |vecAt dataset.getLabels i - out.bestPredRight| →
            i ∈ out.bestSplitRight ∧ out.costsRight.lookup i = some (newLeft i).cost ∧
            (newLeft i).bound = out.bestPredLeft ∧ (newRight i).bound = out.bestPredLeft ∧
            (newLeft i).inequality = false ∧ (newRight i).inequality = true) := by
  obtain ⟨hcosts, c, hsel, hg, st, cl, cr, hst, hcl, hcr, hout⟩ := optimizeGain_true env dataset
    validInstances validFeatures attacker costs constraints cs cps numThreads out0 out h
  obtain ⟨u1, u2, u3, u4⟩ := unknownLoop_spec env dataset attacker costs _ _ _ _ _ _ _ hst
  obtain ⟨k1, k2⟩ := unknownLoop_constraints env dataset attacker costs _ _ _ _ _ _ _ hst
  subst hout
  refine ⟨_, _, _, simulateSplit_eq dataset validInstances attacker costs _ _ hcosts,
    emittedLeft env dataset attacker costs c.bestSplitFeatureId c.bestSplitValue
      c.bestPredLeft c.bestPredRight,
    emittedRight env dataset attacker costs c.bestSplitFeatureId c.bestSplitValue
      c.bestPredLeft c.bestPredRight, k1, k2, ?_⟩
  intro i hi
  simp only at hi ⊢
  have hne := uncertain_costsOnRight dataset validInstances attacker costs _ _ i hi
  refine ⟨rfl, rfl, rfl, rfl, rfl, ?_, ?_⟩
  · intro hleft
    have hgl := (goesLeft_iff_abs _ _ _).mpr hleft
    cases hatt : attacksOf dataset attacker costs c.bestSplitFeatureId i with
    | nil => simp [hatt, costsOnRightOf] at hne
    | cons a0 tail =>
      refine ⟨?_, ?_, ?_, ?_, ?_, ?_⟩
      · rw [u1]
        apply List.mem_append_right
        apply List.mem_append_right
        exact List.mem_filter.mpr ⟨hi, hgl⟩
      · rw [copyCosts_lookup _ _ _ _ hcl i,
          if_neg (not_mem_certain_of_uncertain _ _ _ _ _ _ _ hi).1, u3 i, if_pos ⟨hi, hgl⟩]
        simp [emittedLeft, storedCostOf, hgl, hatt]
      · simp [emittedLeft, hgl]
      · simp [emittedRight, hgl]
      · simp [emittedLeft, hgl]
      · simp [emittedRight, hgl]
  · intro hright
    have hgl : goesLeft (vecAt dataset.getLabels i) c.bestPredLeft c.bestPredRight = false := by
      rw [← Bool.not_eq_true, goesLeft_iff_abs]
      exact hright
    rcases costMinRight_spec dataset c.bestSplitFeatureId c.bestSplitValue
        (attacksOf dataset attacker costs c.bestSplitFeatureId i)
      with ⟨h1, _⟩ | ⟨m, h1, _, _⟩
    · exact absurd h1 hne
    · refine ⟨?_, ?_, ?_, ?_, ?_, ?_⟩
      · rw [u2]
        apply List.mem_append_right
        apply List.mem_append_right
        exact List.mem_filter.mpr ⟨hi, by simp [hgl]⟩
      · rw [copyCosts_lookup _ _ _ _ hcr i,
          if_neg (not_mem_certain_of_uncertain _ _ _ _ _ _ _ hi).2, u4 i, if_pos ⟨hi, hgl⟩]
        simp [emittedLeft, storedCostOf, hgl, h1, Except.toOption]
      · simp [emittedLeft, hgl]
      · simp [emittedRight, hgl]
      · simp [emittedLeft, hgl]
      · simp [emittedRight, hgl]

/-- Instance of `optimizeGain_emitted_constraints` on the twin dataset, where the unknown
instance 1 goes left. -/
theorem optimizeGain_emitted_constraints_witness :
    optimizeGain (exEnv [5, 10]) (exTwinDataset [0, 10, 10]) [0, 1, 2] [0] exTwinAttacker
      exCosts [] (200 / 3) (20 / 3) 1 emptyOutputs = .ok (true, exOutputsLeft 0) ∧
    ∃ L R U, simulateSplit (exTwinDataset [0, 10, 10]) [0, 1, 2] exTwinAttacker exCosts
        (exOutputsLeft 0).bestSplitValue (exOutputsLeft 0).bestSplitFeatureId = .ok (L, R, U) ∧
      ∃ newLeft newRight : index_t → Constraint,
        (exOutputsLeft 0).constraintsLeft = (optimizeGain.propagate (exEnv [5, 10])
          exTwinAttacker [] (exOutputsLeft 0).bestSplitFeatureId
          (exOutputsLeft 0).bestSplitValue
          ((exTwinDataset [0, 10, 10]).isFeatureNumerical
            (exOutputsLeft 0).bestSplitFeatureId) [] []).1 ++ U.map newLeft ∧
        (exOutputsLeft 0).constraintsRight = (optimizeGain.propagate (exEnv [5, 10])
          exTwinAttacker [] (exOutputsLeft 0).bestSplitFeatureId
          (exOutputsLeft 0).bestSplitValue
          ((exTwinDataset [0, 10, 10]).isFeatureNumerical
            (exOutputsLeft 0).bestSplitFeatureId) [] []).2 ++ U.map newRight ∧
        ∀ i ∈ U,
          (newLeft i).x = (exTwinDataset [0, 10, 10]).getRecord i ∧
          (newRight i).x = (exTwinDataset [0, 10, 10]).getRecord i ∧
          (newLeft i).y = vecAt (exTwinDataset [0, 10, 10]).getLabels i ∧
          (newRight i).y = vecAt (exTwinDataset [0, 10, 10]).getLabels i ∧
          (newLeft i).cost = (newRight i).cost ∧
          (|vecAt (exTwinDataset [0, 10, 10]).getLabels i - (exOutputsLeft 0).bestPredLeft| >
              |vecAt (exTwinDataset [0, 10, 10]).getLabels i -
                (exOutputsLeft 0).bestPredRight| →
            i ∈ (exOutputsLeft 0).bestSplitLeft ∧
            (exOutputsLeft 0).costsLeft.lookup i = some (newLeft i).cost ∧
            (newLeft i).bound = (exOutputsLeft 0).bestPredRight ∧
            (newRight i).bound = (exOutputsLeft 0).bestPredRight ∧
            (newLeft i).inequality = true ∧ (newRight i).inequality = false) ∧
          (¬ |vecAt (exTwinDataset [0, 10, 10]).getLabels i - (exOutputsLeft 0).bestPredLeft| >
              |vecAt (exTwinDataset [0, 10, 10]).getLabels i -
                (exOutputsLeft 0).bestPredRight| →
            i ∈ (exOutputsLeft 0).bestSplitRight ∧
            (exOutputsLeft 0).costsRight.lookup i = some (newLeft i).cost ∧
            (newLeft i).bound = (exOutputsLeft 0).bestPredLeft ∧
            (newRight i).bound = (exOutputsLeft 0).bestPredLeft ∧
            (newLeft i).inequality = false ∧ (newRight i).inequality = true) :=
  ⟨by decide!,
    optimizeGain_emitted_constraints (exEnv [5, 10]) (exTwinDataset [0, 10, 10]) [0, 1, 2] [0]
      exTwinAttacker exCosts [] (200 / 3) (20 / 3) 1 emptyOutputs (exOutputsLeft 0)
      (by decide!)⟩

/-! ## The result of `optimizeSSE` -/

/-- C13: `optimizeSSE` returns `false` exactly when the solver throws or reports a result
code below `SUCCESS`, and then `yHatLeft`, `yHatRight` and `sse` keep their values on entry;
when the solver returns `(code, x, f)` with a code that is not below `SUCCESS`, `optimizeSSE`
returns `true` and sets them to `x[0]`, `x[1]` and `f`. -/
theorem optimizeSSE_result (nlopt : Solver) (y : List label_t) (L R U : indexes_t)
    (constraints : List Constraint) (yHatLeft yHatRight : label_t) (sse : gain_t) :
    ((optimizeSSE nlopt y L R U constraints yHatLeft yHatRight sse).1 = false ↔
      (nlopt ⟨y, L, R, U, 0⟩ constraints [yHatLeft, yHatRight] = none ∨
        ∃ code x f, nlopt ⟨y, L, R, U, 0⟩ constraints [yHatLeft, yHatRight] =
          some (code, x, f) ∧ code < nlopt_SUCCESS)) ∧
    ((optimizeSSE nlopt y L R U constraints yHatLeft yHatRight sse).1 = false →
      optimizeSSE nlopt y L R U constraints yHatLeft yHatRight sse =
        (false, yHatLeft, yHatRight, sse)) ∧
    (∀ code x f, nlopt ⟨y, L, R, U, 0⟩ constraints [yHatLeft, yHatRight] = some (code, x, f) →
      ¬ code < nlopt_SUCCESS →
      optimizeSSE nlopt y L R U constraints yHatLeft yHatRight sse =
        (true, vecAt x 0, vecAt x 1, f)) := by
  cases hn : nlopt ⟨y, L, R, U, 0⟩ constraints [yHatLeft, yHatRight] with
  | none => simp [optimizeSSE, hn]
  | some res =>
    obtain ⟨code, x, f⟩ := res
    by_cases hc : code < nlopt_SUCCESS
    · simp [optimizeSSE, hn, hc]
    · simp [optimizeSSE, hn, hc]

/-- Instance of `optimizeSSE_result`: on the split `([0], [2], [1])` of the twin dataset the
solver `exSolver [5, 10]` succeeds and `optimizeSSE` returns `(true, 5, 10, 50)`; a solver
that throws leaves the arguments unchanged. -/
theorem optimizeSSE_result_witness :
    exSolver [5, 10] ⟨[0, 10, 10], [0], [2], [1], 0⟩ [] [20 / 3, 20 / 3] =
      some (1, [5, 10], 50) ∧
    ¬ (1 : Int) < nlopt_SUCCESS ∧
    optimizeSSE (exSolver [5, 10]) [0, 10, 10] [0] [2] [1] [] (20 / 3) (20 / 3) 0 =
      (true, vecAt [5, 10] 0, vecAt [5, 10] 1, 50) ∧
    (optimizeSSE (fun _ _ _ => none) [0, 10, 10] [0] [2] [1] [] (20 / 3) (20 / 3) 0).1 = false ∧
    optimizeSSE (fun _ _ _ => none) [0, 10, 10] [0] [2] [1] [] (20 / 3) (20 / 3) 0 =
      (false, 20 / 3, 20 / 3, 0) :=
  ⟨by decide!, by decide,
    (optimizeSSE_result (exSolver [5, 10]) [0, 10, 10] [0] [2] [1] [] (20 / 3) (20 / 3) 0).2.2
      1 [5, 10] 50 (by decide!) (by decide),
    by decide!,
    (optimizeSSE_result (fun _ _ _ => none) [0, 10, 10] [0] [2] [1] [] (20 / 3) (20 / 3) 0).2.1
      (by decide!)⟩

/-! ## Calls on which no split is taken -/

theorem sum_map_nonneg (l : List index_t) (g : index_t → ℚ) (h : ∀ i, 0 ≤ g i) :
    0 ≤ (l.map g).sum := by
  induction l with
  | nil => simp
  | cons i rest ih =>
    rw [List.map_cons, List.sum_cons]
    exact add_nonneg (h i) ih

theorem sseCostFunction_f_nonneg (y : List prediction_t) (L R U : indexes_t) (x : List ℚ) :
    0 ≤ sseCostFunction.f y L R U x := by
  rw [sseCostFunction_f_eq_sum]
  refine add_nonneg (add_nonneg ?_ ?_) ?_
  · exact sum_map_nonneg _ _ (fun i => sq_nonneg _)
  · exact sum_map_nonneg _ _ (fun i => sq_nonneg _)
  · exact sum_map_nonneg _ _ (fun i => le_max_of_le_left (sq_nonneg _))

/-- When no candidate on which `optimizeSSE` succeeds has an `sse` below `currentScore`,
`optimizeGain` returns `false` whenever it returns, and it does return for a non-empty list of
valid instances with a cost each, a non-empty list of features and a worker count that
fills every future. -/
theorem optimizeGain_false_of_bound (env : Env) (dataset : Dataset)
    (validInstances validFeatures : indexes_t) (attacker : Attacker) (costs : cost_map)
    (constraints : List Constraint) (cs cps : ℚ) (numThreads : Nat) (out0 : GainOutputs)
    (hbound : HasCosts costs validInstances → ∀ j ∈ validFeatures,
      ∀ v ∈ dataset.getFeatureColumn j, ∀ l r s,
      trySplitValue env dataset costs attacker validInstances constraints cps j v =
        (true, l, r, s) → cs ≤ s) :
    (∀ b out, optimizeGain env dataset validInstances validFeatures attacker costs constraints
        cs cps numThreads out0 = .ok (b, out) → b = false) ∧
    (validInstances ≠ [] → HasCosts costs validInstances → validFeatures ≠ [] →
      WorkersOk numThreads validFeatures →
      ∃ out, optimizeGain env dataset validInstances validFeatures attacker costs constraints
        cs cps numThreads out0 = .ok (false, out)) := by
  have hle : HasCosts costs validInstances → gainOf (selectBest (candidatesOfFeatures
      (trySplitValue env dataset costs attacker validInstances constraints cps)
      dataset cs validFeatures)) ≤ 0 := by
    intro hcosts
    obtain ⟨hF1, _⟩ := selectBest_features
      (trySplitValue env dataset costs attacker validInstances constraints cps) dataset cs
      validFeatures
    cases hsel : selectBest (candidatesOfFeatures
        (trySplitValue env dataset costs attacker validInstances constraints cps)
        dataset cs validFeatures) with
    | none => simp [gainOf]
    | some c =>
      obtain ⟨a1, a2, a3, a4⟩ := hF1 c hsel
      have := hbound hcosts _ a1 _ (((uniqueFeatureValues_spec _).2 _).mp a2) _ _ _ a3
      rw [gainOf_some, a4]
      linarith
  refine ⟨?_, ?_⟩
  · intro b out h
    cases b with
    | false => rfl
    | true =>
      obtain ⟨hcosts, c, hsel, hg, _⟩ := optimizeGain_true env dataset validInstances
        validFeatures attacker costs constraints cs cps numThreads out0 out h
      have := hle hcosts
      rw [hsel, gainOf_some] at this
      exact absurd hg (not_lt.mpr this)
  · intro hne hcosts hvf hW
    rw [optimizeGain_eq_commit env dataset validInstances validFeatures attacker costs
      constraints cs cps numThreads out0 hne hcosts hW hvf]
    have hg : ¬ (applySelection out0 (selectBest (candidatesOfFeatures
        (trySplitValue env dataset costs attacker validInstances constraints cps)
        dataset cs validFeatures))).bestGain > 0 := by
      rw [applySelection_gain]
      exact not_lt.mpr (hle hcosts)
    exact ⟨_, commit_false _ _ _ _ _ _ _ hg⟩

/-- The `sse` of a candidate on which `optimizeSSE` succeeded is what the solver reported
for the simulated split of the candidate. -/
theorem trySplitValue_solver (env : Env) (dataset : Dataset) (costs : cost_map)
    (attacker : Attacker) (validInstances : indexes_t) (constraints : List Constraint) (cps : ℚ)
    (j : index_t) (v : feature_t) (hcosts : HasCosts costs validInstances) (l r s : ℚ)
    (hT : trySplitValue env dataset costs attacker validInstances constraints cps j v =
      (true, l, r, s)) :
    ∃ code x, env.nlopt ⟨dataset.getLabels,
        certainLeft dataset validInstances attacker costs v j,
        certainRight dataset validInstances attacker costs v j,
        uncertain dataset validInstances attacker costs v j, 0⟩
        (optimizeOnSubset.updatedConstraints env attacker constraints j v
          (dataset.isFeatureNumerical j)) [cps, cps] = some (code, x, s) := by
  rw [trySplitValue_eq _ _ _ _ _ _ _ _ _ hcosts] at hT
  obtain ⟨code, x, hn, _, _⟩ := optimizeSSE_true _ _ _ _ _ _ _ _ _ _ _ _ hT
  exact ⟨code, x, hn⟩

/-- C14: if all the labels of `validInstances` are equal to `c`, then
`evaluateSplit(dataset, validInstances, c) = 0`; and when every `sse` reported by the solver
is the value of the objective at some point, `optimizeGain` called with `currentScore = 0`
returns `false` whenever it returns, for every attacker, constraints and features. It does
return for a non-empty list of valid instances with a cost each, a non-empty list of features
and a worker count of 1 or between 2 and the number of features. -/
theorem optimizeGain_equal_labels (env : Env) (dataset : Dataset)
    (validInstances validFeatures : indexes_t) (attacker : Attacker) (costs : cost_map)
    (constraints : List Constraint) (c cps : ℚ) (numThreads : Nat) (out0 : GainOutputs)
    (hlabels : ∀ i ∈ validInstances, vecAt dataset.getLabels i = c)
    (hsolver : ∀ d cons x0 code x f, env.nlopt d cons x0 = some (code, x, f) →
      ∃ p, f = sseCostFunction.f d.y_ d.leftIndexes_ d.rightIndexes_ d.unknownIndexes_ p) :
    evaluateSplit dataset validInstances c = 0 ∧
    (∀ b out, optimizeGain env dataset validInstances validFeatures attacker costs constraints
        0 cps numThreads out0 = .ok (b, out) → b = false) ∧
    (validInstances ≠ [] → HasCosts costs validInstances → validFeatures ≠ [] →
      WorkersOk numThreads validFeatures →
      ∃ out, optimizeGain env dataset validInstances validFeatures attacker costs constraints
        0 cps numThreads out0 = .ok (false, out)) := by
  refine ⟨?_, optimizeGain_false_of_bound env dataset validInstances validFeatures attacker
    costs constraints 0 cps numThreads out0 ?_⟩
  · rw [evaluateSplit_eq_sum]
    have : ∀ (l : List index_t), (∀ i ∈ l, vecAt dataset.getLabels i = c) →
        (l.map (fun i => (vecAt dataset.getLabels i - c) ^ 2)).sum = 0 := by
      intro l
      induction l with
      | nil => intro _; rfl
      | cons i rest ih =>
        intro hl
        rw [List.map_cons, List.sum_cons, ih (fun k hk => hl k (List.mem_cons_of_mem i hk)),
          hl i (List.mem_cons_self i rest)]
        simp
    exact this validInstances hlabels
  · intro hcosts j _ v _ l r s hT
    obtain ⟨code, x, hn⟩ := trySplitValue_solver env dataset costs attacker validInstances
      constraints cps j v hcosts l r s hT
    obtain ⟨p, hp⟩ := hsolver _ _ _ _ _ _ hn
    rw [hp]
    exact sseCostFunction_f_nonneg _ _ _ _ _

/-- Instance of `optimizeGain_equal_labels`: the twin dataset with the three labels equal
to 10. -/
theorem optimizeGain_equal_labels_witness :
    (∀ i ∈ ([0, 1, 2] : indexes_t), vecAt (exTwinDataset [10, 10, 10]).getLabels i = 10) ∧
    (∀ d cons x0 code x f, (exEnv [10, 10]).nlopt d cons x0 = some (code, x, f) →
      ∃ p, f = sseCostFunction.f d.y_ d.leftIndexes_ d.rightIndexes_ d.unknownIndexes_ p) ∧
    evaluateSplit (exTwinDataset [10, 10, 10]) [0, 1, 2] 10 = 0 ∧
    ∃ out, optimizeGain (exEnv [10, 10]) (exTwinDataset [10, 10, 10]) [0, 1, 2] [0]
      exTwinAttacker exCosts [] 0 10 1 emptyOutputs = .ok (false, out) :=
  have hsolver : ∀ d cons x0 code x f, (exEnv [10, 10]).nlopt d cons x0 = some (code, x, f) →
      ∃ p, f = sseCostFunction.f d.y_ d.leftIndexes_ d.rightIndexes_ d.unknownIndexes_ p := by
    intro d cons x0 code x f hn
    simp only [exEnv, exSolver] at hn
    split_ifs at hn <;> (cases hn; exact ⟨_, rfl⟩)
  ⟨by decide, hsolver,
    (optimizeGain_equal_labels (exEnv [10, 10]) (exTwinDataset [10, 10, 10]) [0, 1, 2] [0]
      exTwinAttacker exCosts [] 10 10 1 emptyOutputs (by decide) hsolver).1,
    (optimizeGain_equal_labels (exEnv [10, 10]) (exTwinDataset [10, 10, 10]) [0, 1, 2] [0]
      exTwinAttacker exCosts [] 10 10 1 emptyOutputs (by decide) hsolver).2.2
      (by decide) (by decide) (by decide) (by decide)⟩

theorem sum_filter_three (l : List index_t) (f : index_t → Bool × Bool) (g : index_t → ℚ) :
    ((l.filter (fun i => (f i).1)).map g).sum +
      ((l.filter (fun i => !(f i).1 && (f i).2)).map g).sum +
      ((l.filter (fun i => !(f i).1 && !(f i).2)).map g).sum = (l.map g).sum := by
  induction l with
  | nil => simp
  | cons i rest ih =>
    simp only [List.filter_cons, List.map_cons, List.sum_cons, ← ih]
    rcases h1 : (f i).1 <;> rcases h2 : (f i).2 <;> simp <;> ring

theorem sum_sq_expand (l : List index_t) (g : index_t → ℚ) (p : ℚ) :
    (l.map (fun i => (g i - p) ^ 2)).sum =
      (l.map (fun i => g i ^ 2)).sum - 2 * p * (l.map g).sum + l.length * p ^ 2 := by
  induction l with
  | nil => simp
  | cons i rest ih =>
    simp only [List.map_cons, List.sum_cons, List.length_cons, ih]
    push_cast
    ring

/-- The mean minimises the sum of the squared residuals. -/
theorem sum_sq_mean_le (l : List index_t) (g : index_t → ℚ) (p : ℚ) :
    (l.map (fun i => (g i - (l.map g).sum / l.length) ^ 2)).sum ≤
      (l.map (fun i => (g i - p) ^ 2)).sum := by
  by_cases hl : l = []
  · subst hl; simp
  · have hn : (0 : ℚ) < l.length := by
      have : 0 < l.length := List.length_pos.mpr hl
      exact_mod_cast this
    rw [sum_sq_expand l g p, sum_sq_expand l g ((l.map g).sum / l.length)]
    have hS : (l.map g).sum = l.length * ((l.map g).sum / l.length) := by
      field_simp
    generalize (l.map g).sum / (l.length : ℚ) = m at hS ⊢
    rw [hS]
    have key : 0 ≤ (l.length : ℚ) * (p - m) ^ 2 := mul_nonneg (le_of_lt hn) (sq_nonneg _)
    have hexp : (l.length : ℚ) * (p - m) ^ 2 =
        l.length * p ^ 2 - 2 * p * (l.length * m) + 2 * m * (l.length * m) - l.length * m ^ 2 := by
      ring
    linarith

theorem sum_map_le (l : List index_t) (g1 g2 : index_t → ℚ) (h : ∀ i, g1 i ≤ g2 i) :
    (l.map g1).sum ≤ (l.map g2).sum := by
  induction l with
  | nil => simp
  | cons i rest ih =>
    rw [List.map_cons, List.sum_cons, List.map_cons, List.sum_cons]
    exact add_le_add (h i) ih

/-- When the attacks of every valid instance include a record that satisfies the split
predicate, no instance is certainly on the right, and the objective of the split is at least
the sum of the squared residuals of all the valid instances to the left prediction. -/
theorem sseCostFunction_f_ge_of_no_right (dataset : Dataset) (validInstances : indexes_t)
    (attacker : Attacker) (costs : cost_map) (v : feature_t) (j : index_t) (x : List ℚ)
    (hleft : ∀ i ∈ validInstances, ∃ atk ∈ attacksOf dataset attacker costs j i,
      placesLeft (dataset.isFeatureNumerical j) j v atk.1) :
    (validInstances.map (fun i => (vecAt dataset.getLabels i - vecAt x 0) ^ 2)).sum ≤
      sseCostFunction.f dataset.getLabels
        (certainLeft dataset validInstances attacker costs v j)
        (certainRight dataset validInstances attacker costs v j)
        (uncertain dataset validInstances attacker costs v j) x := by
  have hR : certainRight dataset validInstances attacker costs v j = [] := by
    rw [certainRight, List.filter_eq_nil_iff]
    intro i hi
    obtain ⟨atk, hmem, hp⟩ := hleft i hi
    rw [flagsOf_eq]
    simp only [Bool.and_eq_true, Bool.not_eq_true', List.all_eq_true, Bool.not_eq_true',
      decide_eq_false_iff_not, not_and]
    intro _ hall
    exact hall atk hmem hp
  rw [sseCostFunction_f_eq_sum]
  have h3 := sum_filter_three validInstances (flagsOf dataset attacker costs v j)
    (fun i => (vecAt dataset.getLabels i - vecAt x 0) ^ 2)
  have hRsum : ((validInstances.filter (fun i => !(flagsOf dataset attacker costs v j i).1 &&
      (flagsOf dataset attacker costs v j i).2)).map
      (fun i => (vecAt dataset.getLabels i - vecAt x 0) ^ 2)).sum = 0 := by
    have := hR
    rw [certainRight] at this
    rw [this]; rfl
  rw [hRsum, add_zero] at h3
  rw [← h3, hR]
  simp only [certainLeft, uncertain, List.map_nil, List.sum_nil, add_zero]
  exact add_le_add (le_refl _) (sum_map_le _ _ _ (fun i => le_max_left _ _))

/-- C15 (amended): in exact arithmetic (the operations of `double` taken without rounding),
if every feature of `validFeatures` has a single value in its column, the column
holds the feature value of every valid instance, the attack list of every valid instance
contains the unperturbed record, `currentScore` is the sum over `validInstances` of
`(y_i - mean)^2` where `mean` is the mean label of `validInstances`, and every `sse` reported
by the solver is the value of the objective at the point it returns, then `optimizeGain`
returns `false` whenever it returns (whatever the inherited constraints, so in particular
without any). It does return for a non-empty list of valid instances with a cost each, a
non-empty list of features and a worker count of 1 or between 2 and the number of
features. -/
theorem optimizeGain_single_value (env : Env) (dataset : Dataset)
    (validInstances validFeatures : indexes_t) (attacker : Attacker) (costs : cost_map)
    (constraints : List Constraint) (cs cps : ℚ) (numThreads : Nat) (out0 : GainOutputs)
    (hsingle : ∀ j ∈ validFeatures, ∃ u, ∀ x ∈ dataset.getFeatureColumn j, x = u)
    (hcol : ∀ j ∈ validFeatures, ∀ i ∈ validInstances,
      vecAt (dataset.getRecord i) j ∈ dataset.getFeatureColumn j)
    (hatk : ∀ i ∈ validInstances, ∀ j ∈ validFeatures, ∀ c, costs.lookup i = some c →
      ∃ atk ∈ attacker.attack (dataset.getRecord i) j c, atk.1 = dataset.getRecord i)
    (hscore : cs = (validInstances.map (fun i => (vecAt dataset.getLabels i -
      (validInstances.map (fun k => vecAt dataset.getLabels k)).sum / validInstances.length)
        ^ 2)).sum)
    (hsolver : ∀ d cons x0 code x f, env.nlopt d cons x0 = some (code, x, f) →
      f = sseCostFunction.f d.y_ d.leftIndexes_ d.rightIndexes_ d.unknownIndexes_ x) :
    (∀ b out, optimizeGain env dataset validInstances validFeatures attacker costs constraints
        cs cps numThreads out0 = .ok (b, out) → b = false) ∧
    (validInstances ≠ [] → HasCosts costs validInstances → validFeatures ≠ [] →
      WorkersOk numThreads validFeatures →
      ∃ out, optimizeGain env dataset validInstances validFeatures attacker costs constraints
        cs cps numThreads out0 = .ok (false, out)) := by
  apply optimizeGain_false_of_bound
  intro hcosts j hj v hv l r s hT
  obtain ⟨code, x, hn⟩ := trySplitValue_solver env dataset costs attacker validInstances
    constraints cps j v hcosts l r s hT
  have hf := hsolver _ _ _ _ _ _ hn
  simp only at hf
  obtain ⟨u, hu⟩ := hsingle j hj
  have hleft : ∀ i ∈ validInstances, ∃ atk ∈ attacksOf dataset attacker costs j i,
      placesLeft (dataset.isFeatureNumerical j) j v atk.1 := by
    intro i hi
    obtain ⟨c, hc⟩ := Option.isSome_iff_exists.mp (hcosts i hi)
    obtain ⟨atk, hmem, hrec⟩ := hatk i hi j hj c hc
    refine ⟨atk, by simpa [attacksOf, costOf_of_lookup hc] using hmem, ?_⟩
    have h1 : vecAt atk.1 j = v := by
      rw [hrec, hu _ (hcol j hj i hi), hu v hv]
    unfold placesLeft
    split_ifs
    · exact le_of_eq h1
    · exact h1
  rw [hf, hscore]
  exact le_trans (sum_sq_mean_le validInstances (fun i => vecAt dataset.getLabels i) (vecAt x 0))
    (sseCostFunction_f_ge_of_no_right dataset validInstances attacker costs v j x hleft)

/-- Instance of `optimizeGain_single_value`: three records whose only feature has the value
7, at the root (no constraint, `currentScore = 200 / 3`, the mean label being `20 / 3`). -/
theorem optimizeGain_single_value_witness :
    (∀ j ∈ ([0] : indexes_t), ∃ u, ∀ x ∈ exConstDataset.getFeatureColumn j, x = u) ∧
    (∀ j ∈ ([0] : indexes_t), ∀ i ∈ ([0, 1, 2] : indexes_t),
      vecAt (exConstDataset.getRecord i) j ∈ exConstDataset.getFeatureColumn j) ∧
    (∀ i ∈ ([0, 1, 2] : indexes_t), ∀ j ∈ ([0] : indexes_t), ∀ c, exCosts.lookup i = some c →
      ∃ atk ∈ exTwinAttacker.attack (exConstDataset.getRecord i) j c,
        atk.1 = exConstDataset.getRecord i) ∧
    ((200 / 3 : ℚ) = (([0, 1, 2] : indexes_t).map (fun i => (vecAt exConstDataset.getLabels i -
      (([0, 1, 2] : indexes_t).map (fun k => vecAt exConstDataset.getLabels k)).sum /
        ([0, 1, 2] : indexes_t).length) ^ 2)).sum) ∧
    (∀ d cons x0 code x f, (exEnv [5, 10]).nlopt d cons x0 = some (code, x, f) →
      f = sseCostFunction.f d.y_ d.leftIndexes_ d.rightIndexes_ d.unknownIndexes_ x) ∧
    ∃ out, optimizeGain (exEnv [5, 10]) exConstDataset [0, 1, 2] [0] exTwinAttacker exCosts []
      (200 / 3) (20 / 3) 1 emptyOutputs = .ok (false, out) :=
  have hsingle : ∀ j ∈ ([0] : indexes_t), ∃ u, ∀ x ∈ exConstDataset.getFeatureColumn j,
      x = u := fun _ _ => ⟨7, by simp [exConstDataset]⟩
  have hatk : ∀ i ∈ ([0, 1, 2] : indexes_t), ∀ j ∈ ([0] : indexes_t), ∀ c,
      exCosts.lookup i = some c →
      ∃ atk ∈ exTwinAttacker.attack (exConstDataset.getRecord i) j c,
        atk.1 = exConstDataset.getRecord i := by
    intro i _ j _ c _
    refine ⟨(exConstDataset.getRecord i, 0), ?_, rfl⟩
    simp only [exTwinAttacker]
    split_ifs <;> simp
  have hsolver : ∀ d cons x0 code x f, (exEnv [5, 10]).nlopt d cons x0 = some (code, x, f) →
      f = sseCostFunction.f d.y_ d.leftIndexes_ d.rightIndexes_ d.unknownIndexes_ x := by
    intro d cons x0 code x f hn
    simp only [exEnv, exSolver] at hn
    split_ifs at hn <;> (cases hn; rfl)
  ⟨hsingle, by decide, hatk, by decide!, hsolver,
    (optimizeGain_single_value (exEnv [5, 10]) exConstDataset [0, 1, 2] [0] exTwinAttacker
      exCosts [] (200 / 3) (20 / 3) 1 emptyOutputs hsingle (by decide) hatk (by decide!)
      hsolver).2 (by decide) (by decide) (by decide) (by decide)⟩

/-! ## Without perturbation -/

/-- C16: if every valid instance has a cost and its attack list is the unperturbed record
alone, then for every feature `j` and value `v`, `simulateSplit` returns `U = []` and, for a
numerical feature, `L` = the valid indices with `record[j] <= v` and `R` = those with
`record[j] > v` (for a categorical feature, `= v` and `!= v`), in the order of
`validInstances`. -/
theorem simulateSplit_without_attack (dataset : Dataset) (validInstances : indexes_t)
    (attacker : Attacker) (costs : cost_map) (v : feature_t) (j : index_t)
    (hcosts : HasCosts costs validInstances)
    (hsingleton : ∀ i ∈ validInstances, ∀ c, costs.lookup i = some c →
      ∃ c0, attacker.attack (dataset.getRecord i) j c = [(dataset.getRecord i, c0)]) :
    simulateSplit dataset validInstances attacker costs v j =
      if dataset.isFeatureNumerical j then
        .ok (validInstances.filter (fun i => decide (vecAt (dataset.getRecord i) j ≤ v)),
          validInstances.filter (fun i => decide (vecAt (dataset.getRecord i) j > v)), [])
      else
        .ok (validInstances.filter (fun i => decide (vecAt (dataset.getRecord i) j = v)),
          validInstances.filter (fun i => decide (vecAt (dataset.getRecord i) j ≠ v)), []) := by
  rw [simulateSplit_ok dataset validInstances attacker costs v j hcosts]
  have hflags : ∀ i ∈ validInstances, flagsOf dataset attacker costs v j i =
      (decide (placesLeft (dataset.isFeatureNumerical j) j v (dataset.getRecord i)),
       !decide (placesLeft (dataset.isFeatureNumerical j) j v (dataset.getRecord i))) := by
    intro i hi
    obtain ⟨c, hc⟩ := Option.isSome_iff_exists.mp (hcosts i hi)
    obtain ⟨c0, hatt⟩ := hsingleton i hi c hc
    rw [flagsOf_eq]
    simp [attacksOf, costOf_of_lookup hc, hatt]
  have hL : validInstances.filter (fun i => (flagsOf dataset attacker costs v j i).1) =
      validInstances.filter (fun i =>
        decide (placesLeft (dataset.isFeatureNumerical j) j v (dataset.getRecord i))) := by
    apply List.filter_congr
    intro i hi
    rw [hflags i hi]
  have hR : validInstances.filter (fun i => !(flagsOf dataset attacker costs v j i).1 &&
        (flagsOf dataset attacker costs v j i).2) =
      validInstances.filter (fun i =>
        !decide (placesLeft (dataset.isFeatureNumerical j) j v (dataset.getRecord i))) := by
    apply List.filter_congr
    intro i hi
    rw [hflags i hi]
    simp
  have hU : validInstances.filter (fun i => !(flagsOf dataset attacker costs v j i).1 &&
        !(flagsOf dataset attacker costs v j i).2) = [] := by
    rw [List.filter_eq_nil_iff]
    intro i hi
    rw [hflags i hi]
    simp
  rw [hL, hR, hU]
  cases hnum : dataset.isFeatureNumerical j
  · simp [placesLeft]
  · simp only [placesLeft, if_true]
    have hgt : validInstances.filter
          (fun i => !decide (vecAt (dataset.getRecord i) j ≤ v)) =
        validInstances.filter (fun i => decide (vecAt (dataset.getRecord i) j > v)) := by
      apply List.filter_congr
      intro i _
      by_cases hle : vecAt (dataset.getRecord i) j ≤ v
      · simp [hle, not_lt.mpr hle]
      · simp [hle, not_le.mp hle]
    simp [hgt]

/-- Instance of `simulateSplit_without_attack` on the three records of values 0, 1, 2 and
the split `feature 0 <= 1`. -/
theorem simulateSplit_without_attack_witness :
    HasCosts exCosts [0, 1, 2] ∧
    (∀ i ∈ ([0, 1, 2] : indexes_t), ∀ c, exCosts.lookup i = some c →
      ∃ c0, exNoAttacker.attack (exDataset.getRecord i) 0 c = [(exDataset.getRecord i, c0)]) ∧
    simulateSplit exDataset [0, 1, 2] exNoAttacker exCosts 1 0 =
      if exDataset.isFeatureNumerical 0 then
        .ok (([0, 1, 2] : indexes_t).filter (fun i => decide (vecAt (exDataset.getRecord i) 0 ≤ 1)),
          ([0, 1, 2] : indexes_t).filter (fun i => decide (vecAt (exDataset.getRecord i) 0 > 1)),
          [])
      else
        .ok (([0, 1, 2] : indexes_t).filter (fun i => decide (vecAt (exDataset.getRecord i) 0 = 1)),
          ([0, 1, 2] : indexes_t).filter (fun i => decide (vecAt (exDataset.getRecord i) 0 ≠ 1)),
          []) :=
  ⟨by decide, fun _ _ _ _ => ⟨0, rfl⟩,
    simulateSplit_without_attack exDataset [0, 1, 2] exNoAttacker exCosts 1 0 (by decide)
      (fun _ _ _ _ => ⟨0, rfl⟩)⟩

namespace DatasetCpp

/-! ## The constructor of `Dataset` -/

theorem pushRow_length (columns : List (List String)) :
    ∀ (tokens : List String) (next : List (List String)),
      pushRow columns tokens = .ok next → next.length = columns.length := by
  induction columns with
  | nil =>
    intro tokens next h
    simp [pushRow] at h
    subst h
    rfl
  | cons column columns ih =>
    intro tokens next h
    cases tokens with
    | nil => simp [pushRow] at h
    | cons token tokens =>
      simp only [pushRow] at h
      cases hrest : pushRow columns tokens with
      | error e => simp [hrest, bind, Except.bind] at h
      | ok rest =>
        simp [hrest, bind, Except.bind] at h
        subst h
        simp [ih tokens rest hrest]

theorem pushRow_short (columns : List (List String)) :
    ∀ (tokens : List String), tokens.length < columns.length →
      pushRow columns tokens = .error .cannotFindToken := by
  induction columns with
  | nil => intro tokens h; simp at h
  | cons column columns ih =>
    intro tokens h
    cases tokens with
    | nil => simp [pushRow]
    | cons token tokens =>
      have h2 : tokens.length < columns.length := by simpa using h
      simp [pushRow, ih tokens h2, bind, Except.bind]

theorem pushRow_take (columns : List (List String)) :
    ∀ (tokens : List String),
      pushRow columns (tokens.take columns.length) = pushRow columns tokens := by
  induction columns with
  | nil => intro tokens; simp [pushRow]
  | cons column columns ih =>
    intro tokens
    cases tokens with
    | nil => simp [pushRow]
    | cons token tokens =>
      simp [pushRow, ih tokens]

/-- A record line with fewer tokens than there are columns makes the loop over the record
lines throw. -/
theorem readRows_short (lines : List String) :
    ∀ (columns : List (List String)),
      (∃ line ∈ lines, (getlineAll ' ' line.data []).length < columns.length) →
      ∃ e, readRows lines columns = .error e := by
  induction lines with
  | nil => intro columns h; simp at h
  | cons line lines ih =>
    intro columns h
    simp only [readRows]
    cases hnext : pushRow columns (getlineAll ' ' line.data []) with
    | error e => exact ⟨e, by simp [bind, Except.bind]⟩
    | ok next =>
      simp only [bind, Except.bind]
      apply ih
      obtain ⟨l, hl, hlt⟩ := h
      rcases List.mem_cons.mp hl with heq | hmem
      · subst heq
        rw [pushRow_short columns _ hlt] at hnext
        cases hnext
      · exact ⟨l, hmem, by rw [pushRow_length columns _ next hnext]; exact hlt⟩

/-- The loop over the record lines reads, of each line, only as many tokens as there are
columns. -/
theorem readRows_take (lines1 : List String) :
    ∀ (lines2 : List String) (columns : List (List String)),
      lines1.map (fun l => (getlineAll ' ' l.data []).take columns.length) =
        lines2.map (fun l => (getlineAll ' ' l.data []).take columns.length) →
      readRows lines1 columns = readRows lines2 columns := by
  induction lines1 with
  | nil =>
    intro lines2 columns h
    cases lines2 with
    | nil => rfl
    | cons l2 lines2 => simp at h
  | cons l1 lines1 ih =>
    intro lines2 columns h
    cases lines2 with
    | nil => simp at h
    | cons l2 lines2 =>
      simp only [List.map_cons, List.cons.injEq] at h
      obtain ⟨hhead, htail⟩ := h
      simp only [readRows]
      have hpush : pushRow columns (getlineAll ' ' l1.data []) =
          pushRow columns (getlineAll ' ' l2.data []) := by
        rw [← pushRow_take columns (getlineAll ' ' l1.data []), hhead, pushRow_take]
      rw [hpush]
      cases hnext : pushRow columns (getlineAll ' ' l2.data []) with
      | error e => rfl
      | ok next =>
        simp only [bind, Except.bind]
        apply ih
        rw [pushRow_length columns _ next hnext]
        exact htail

theorem parseHeaders_length (types : List String) :
    ∀ (acc headers_ : List FeatureTypes), parseHeaders types acc = .ok headers_ →
      headers_.length = acc.length + types.length := by
  induction types with
  | nil =>
    intro acc headers_ h
    simp [parseHeaders] at h
    subst h
    rfl
  | cons type types ih =>
    intro acc headers_ h
    simp only [parseHeaders] at h
    split_ifs at h
    · rw [ih _ _ h]; simp; omega
    · rw [ih _ _ h]; simp; omega
    · rw [ih _ _ h]; simp; omega

theorem readLabels_spec (std : StdLib) (lines : List String) :
    ∀ (acc : List Int) (n : Nat) (labelVector_ : List Int) (labelNumber : Nat),
      readLabels std lines acc n = .ok (labelVector_, labelNumber) →
      ∃ labels, lines.map std.stoi = labels.map some ∧ labelVector_ = acc ++ labels ∧
        labelNumber = n + lines.length := by
  induction lines with
  | nil =>
    intro acc n lv k h
    simp only [readLabels, Except.ok.injEq, Prod.mk.injEq] at h
    exact ⟨[], rfl, by simp [h.1], by simp [h.2]⟩
  | cons line lines ih =>
    intro acc n lv k h
    simp only [readLabels] at h
    cases hs : std.stoi line with
    | none => simp [hs] at h
    | some label =>
      simp only [hs] at h
      obtain ⟨labels, h1, h2, h3⟩ := ih _ _ _ _ h
      refine ⟨label :: labels, by simp [hs, h1], by simp [h2], by simp [h3]; omega⟩

theorem readLabels_ok (std : StdLib) (lines : List String) :
    ∀ (acc : List Int) (n : Nat), (∀ line ∈ lines, (std.stoi line).isSome) →
      ∃ r, readLabels std lines acc n = .ok r := by
  induction lines with
  | nil => intro acc n _; exact ⟨_, rfl⟩
  | cons line lines ih =>
    intro acc n h
    obtain ⟨label, hs⟩ := Option.isSome_iff_exists.mp (h line (List.mem_cons_self _ _))
    simp only [readLabels, hs]
    exact ih _ _ (fun l hl => h l (List.mem_cons_of_mem _ hl))

/-- The constructor never throws for the number of labels: on a feature file that it reads,
it returns for every label file whose lines `std::stoi` converts, whatever their number. -/
theorem Dataset_ok_of_labels (std : StdLib) (featureFile : Option String) (labels : String)
    (r : List FeatureTypes × List FeatureVector × Nat)
    (hfeatures : readFeatureFile std featureFile = .ok r)
    (hlabels : ∀ line ∈ getlineAll '\n' labels.data [], (std.stoi line).isSome) :
    ∃ d, Dataset.Dataset std featureFile (some labels) = .ok d := by
  obtain ⟨headers_, featureVectors_, numberOfRecords⟩ := r
  obtain ⟨⟨lv, k⟩, hr⟩ := readLabels_ok std (getlineAll '\n' labels.data [])
    (List.replicate numberOfRecords 0) 0 hlabels
  exact ⟨⟨headers_, featureVectors_, lv⟩,
    by simp [Dataset.Dataset, hfeatures, hr, bind, Except.bind]⟩

/-- After the constructor, `labelVector_` is `numberOfRecords` zeros followed by the labels
of the label file. -/
theorem Dataset_labelVector (std : StdLib) (featureFile : Option String) (labels : String)
    (d : Dataset) (h : Dataset.Dataset std featureFile (some labels) = .ok d) :
    ∃ headers_ featureVectors_ numberOfRecords parsed,
      readFeatureFile std featureFile = .ok (headers_, featureVectors_, numberOfRecords) ∧
      (getlineAll '\n' labels.data []).map std.stoi = parsed.map some ∧
      d.labelVector_ = List.replicate numberOfRecords 0 ++ parsed := by
  cases hf : readFeatureFile std featureFile with
  | error e => simp [Dataset.Dataset, hf, bind, Except.bind] at h
  | ok r =>
    obtain ⟨headers_, featureVectors_, numberOfRecords⟩ := r
    cases hr : readLabels std (getlineAll '\n' labels.data [])
        (List.replicate numberOfRecords 0) 0 with
    | error e => simp [Dataset.Dataset, hf, hr, bind, Except.bind] at h
    | ok p =>
      obtain ⟨lv, k⟩ := p
      obtain ⟨parsed, h1, h2, _⟩ := readLabels_spec std _ _ _ _ _ hr
      refine ⟨headers_, featureVectors_, numberOfRecords, parsed, rfl, h1, ?_⟩
      simp only [Dataset.Dataset, hf, hr, bind, Except.bind, ite_self] at h
      cases h
      exact h2

theorem pushRow_head (column : List String) (columns : List (List String))
    (tokens : List String) (next : List (List String))
    (h : pushRow (column :: columns) tokens = .ok next) :
    ∃ first rest, next = first :: rest ∧ first.length = column.length + 1 := by
  cases tokens with
  | nil => simp [pushRow] at h
  | cons token tokens =>
    simp only [pushRow] at h
    cases hrest : pushRow columns tokens with
    | error e => simp [hrest, bind, Except.bind] at h
    | ok rest =>
      simp [hrest, bind, Except.bind] at h
      exact ⟨column ++ [token], rest, h.symm, by simp⟩

/-- After the loop over the record lines the first column has one string for each line. -/
theorem readRows_head (lines : List String) :
    ∀ (column : List String) (columns next : List (List String)),
      readRows lines (column :: columns) = .ok next →
      ∃ first rest, next = first :: rest ∧ first.length = column.length + lines.length := by
  induction lines with
  | nil =>
    intro column columns next h
    simp only [readRows, Except.ok.injEq] at h
    exact ⟨column, columns, h.symm, rfl⟩
  | cons line lines ih =>
    intro column columns next h
    simp only [readRows] at h
    cases hnext : pushRow (column :: columns) (getlineAll ' ' line.data []) with
    | error e => simp [hnext, bind, Except.bind] at h
    | ok mid =>
      simp only [hnext, bind, Except.bind] at h
      obtain ⟨c1, r1, hmid, hlen⟩ := pushRow_head column columns _ mid hnext
      subst hmid
      obtain ⟨first, rest, h1, h2⟩ := ih c1 r1 next h
      exact ⟨first, rest, h1, by rw [h2, hlen]; simp; omega⟩

/-- The `numberOfRecords` of the constructor is the number of record lines of the feature
file (the lines after the header), and it is not zero. -/
theorem readFeatureFile_numberOfRecords (std : StdLib) (features : String)
    (line : String) (lines : List String)
    (hfile : getlineAll '\n' features.data [] = line :: lines)
    (headers_ : List FeatureTypes) (featureVectors_ : List FeatureVector)
    (numberOfRecords : Nat)
    (h : readFeatureFile std (some features) =
      .ok (headers_, featureVectors_, numberOfRecords)) :
    numberOfRecords = lines.length ∧ 0 < numberOfRecords := by
  simp only [readFeatureFile, hfile] at h
  cases hh : parseHeaders (getlineAll ' ' line.data []) [] with
  | error e => simp [hh, bind, Except.bind] at h
  | ok hs =>
    simp only [hh, bind, Except.bind] at h
    cases hrows : readRows lines (List.replicate hs.length []) with
    | error e => simp [hrows] at h
    | ok columnsAsStrings =>
      simp only [hrows] at h
      cases hc : columnsAsStrings with
      | nil => simp [hc] at h
      | cons first rest =>
        simp only [hc] at h
        by_cases hempty : first.isEmpty = true
        · simp [hempty] at h
        · simp only [hempty] at h
          cases hconv : convertColumns std hs (first :: rest) first.length [] with
          | error e => simp [hconv] at h
          | ok fvs =>
            simp [hconv] at h
            obtain ⟨_, _, hn⟩ := h
            have hpos : 0 < first.length := by
              cases first with
              | nil => simp at hempty
              | cons a b => simp
            cases hsl : hs.length with
            | zero =>
              rw [hsl] at hrows
              have : ∀ (ls : List String) (r : List (List String)),
                  readRows ls [] = .ok r → r = [] := by
                intro ls
                induction ls with
                | nil => intro r hr; simp [readRows] at hr; exact hr
                | cons l ls ih =>
                  intro r hr
                  simp [readRows, pushRow, bind, Except.bind] at hr
                  exact ih r hr
              have := this lines _ hrows
              rw [hc] at this
              cases this
            | succ m =>
              rw [hsl, List.replicate_succ] at hrows
              obtain ⟨f2, r2, h1, h2⟩ := readRows_head lines [] _ _ hrows
              rw [hc] at h1
              cases h1
              simp at h2
              omega

/-- C17: the constructor of `Dataset` does not fail when the number of lines of the label
file differs from the number of records: on a feature file with two records and a label file
with one line it returns a dataset. -/
theorem Dataset_label_count_not_checked :
    getlineAll '\n' "INT\n1\n2\n".data [] = ["INT", "1", "2"] ∧
    getlineAll '\n' "0\n".data [] = ["0"] ∧
    Dataset.Dataset exStd (some "INT\n1\n2\n") (some "0\n") =
      .ok ⟨[.INT], [.IntFeatureVector [1, 2]], [0, 0, 0]⟩ :=
  ⟨rfl, rfl, rfl⟩

/-- C18: on a feature file with the two records `1` and `2` and a label file with the two
lines `5` and `7` the constructor of `Dataset` succeeds and leaves the label vector
`[0, 0, 5, 7]`: its length is 4, not 2, and its entries 0 and 1 are 0, not the labels 5 and 7
of the lines 0 and 1. -/
theorem Dataset_labelVector_not_parallel :
    getlineAll '\n' "5\n7\n".data [] = ["5", "7"] ∧
    exStd.stoi "5" = some 5 ∧ exStd.stoi "7" = some 7 ∧
    ∃ d, Dataset.Dataset exStd (some "INT\n1\n2\n") (some "5\n7\n") = .ok d ∧
      d.featureVectors_ = [.IntFeatureVector [1, 2]] ∧
      d.labelVector_ = [0, 0, 5, 7] ∧ d.labelVector_.length ≠ 2 ∧
      d.labelVector_.get? 0 ≠ some 5 ∧ d.labelVector_.get? 1 ≠ some 7 :=
  ⟨rfl, rfl, rfl, ⟨[.INT], [.IntFeatureVector [1, 2]], [0, 0, 5, 7]⟩, rfl, rfl, rfl,
    by decide, by decide, by decide⟩

/-- Counterexample to C19 as stated: the record line `1 2 3` has three tokens under a header
of two columns, and the constructor of `Dataset` returns a dataset (with the record
`1 2`). -/
theorem Dataset_long_row_accepted :
    getlineAll '\n' "INT INT\n1 2 3\n".data [] = ["INT INT", "1 2 3"] ∧
    (getlineAll ' ' "INT INT".data []).length = 2 ∧
    (getlineAll ' ' "1 2 3".data []).length = 3 ∧
    Dataset.Dataset exStd (some "INT INT\n1 2 3\n") (some "7\n") =
      .ok ⟨[.INT, .INT], [.IntFeatureVector [1], .IntFeatureVector [2]], [0, 7]⟩ :=
  ⟨rfl, rfl, rfl, rfl⟩

/-- C19 (amended): for a feature file with the header `line` and the record lines `lines`,
the constructor of `Dataset` fails with an error when a record line has fewer
space-separated tokens than the header has columns; the tokens of a record line beyond the
number of columns are not read: a feature file with the same header whose record lines
have the same tokens up to the number of columns gives the same result. -/
theorem Dataset_row_tokens (std : StdLib) (features features2 : String)
    (labelFile : Option String) (line : String) (lines lines2 : List String)
    (hfile : getlineAll '\n' features.data [] = line :: lines)
    (hfile2 : getlineAll '\n' features2.data [] = line :: lines2)
    (hsame : lines.map (fun l =>
        (getlineAll ' ' l.data []).take (getlineAll ' ' line.data []).length) =
      lines2.map (fun l =>
        (getlineAll ' ' l.data []).take (getlineAll ' ' line.data []).length)) :
    ((∃ row ∈ lines,
        (getlineAll ' ' row.data []).length < (getlineAll ' ' line.data []).length) →
      ∃ e, Dataset.Dataset std (some features) labelFile = .error e) ∧
    Dataset.Dataset std (some features2) labelFile =
      Dataset.Dataset std (some features) labelFile := by
  have hfeat : readFeatureFile std (some features2) = readFeatureFile std (some features) := by
    simp only [readFeatureFile, hfile, hfile2]
    cases hh : parseHeaders (getlineAll ' ' line.data []) [] with
    | error e => rfl
    | ok hs =>
      have hlen := parseHeaders_length _ _ _ hh
      simp only [List.length_nil, Nat.zero_add] at hlen
      simp only [bind, Except.bind]
      rw [readRows_take lines lines2 (List.replicate hs.length [])
        (by simpa [hlen] using hsame)]
  refine ⟨?_, ?_⟩
  · rintro hshort
    have : ∃ e, readFeatureFile std (some features) = .error e := by
      simp only [readFeatureFile, hfile]
      cases hh : parseHeaders (getlineAll ' ' line.data []) [] with
      | error e => exact ⟨e, rfl⟩
      | ok hs =>
        have hlen := parseHeaders_length _ _ _ hh
        simp only [List.length_nil, Nat.zero_add] at hlen
        obtain ⟨e, he⟩ := readRows_short lines (List.replicate hs.length [])
          (by simpa [hlen] using hshort)
        exact ⟨e, by simp [bind, Except.bind, he]⟩
    obtain ⟨e, he⟩ := this
    exact ⟨e, by simp [Dataset.Dataset, he, bind, Except.bind]⟩
  · simp only [Dataset.Dataset, hfeat]

/-- Instances of `Dataset_row_tokens`: the record line `1` under a header of two columns
makes the constructor fail, and the record line `1 2 3` gives the same dataset as the record
line `1 2`. -/
theorem Dataset_row_tokens_witness :
    getlineAll '\n' "INT INT\n1\n".data [] = ["INT INT", "1"] ∧
    getlineAll '\n' "INT INT\n1 2\n".data [] = ["INT INT", "1 2"] ∧
    getlineAll '\n' "INT INT\n1 2 3\n".data [] = ["INT INT", "1 2 3"] ∧
    (getlineAll ' ' "1".data []).length < (getlineAll ' ' "INT INT".data []).length ∧
    (getlineAll ' ' "1 2".data []).take (getlineAll ' ' "INT INT".data []).length =
      (getlineAll ' ' "1 2 3".data []).take (getlineAll ' ' "INT INT".data []).length ∧
    (∃ e, Dataset.Dataset exStd (some "INT INT\n1\n") (some "7\n") = .error e) ∧
    Dataset.Dataset exStd (some "INT INT\n1 2 3\n") (some "7\n") =
      Dataset.Dataset exStd (some "INT INT\n1 2\n") (some "7\n") :=
  ⟨rfl, rfl, rfl, by decide, rfl,
    (Dataset_row_tokens exStd "INT INT\n1\n" "INT INT\n1\n" (some "7\n") "INT INT" ["1"] ["1"]
      rfl rfl rfl).1 ⟨"1", by simp, by decide⟩,
    (Dataset_row_tokens exStd "INT INT\n1 2\n" "INT INT\n1 2 3\n" (some "7\n") "INT INT"
      ["1 2"] ["1 2 3"] rfl rfl rfl).2⟩

end DatasetCpp

/-! ## The node `BinIntNode` -/

namespace Nodes

/-- C20: for a record with a feature at the index `featureIndex_` of a `BinIntNode`: when
the feature holds an integer `x`, `predict` calls the `predict` of the left child (and of no
other child) and returns its result when `x <= v`, and it calls that of the right child and
returns its result when `x > v`; when the feature does not hold an integer, `predict` raises
an error and calls no child. -/
theorem BinIntNode_predict {Alt : Type} (node : BinIntNode Alt) (record : record_t Alt)
    (feature : feature_t Alt) (hfeature : record[node.featureIndex_]? = some feature) :
    (∀ x leftChild, feature = .int_feature_t x → node.leftChild = some leftChild →
      x ≤ node.v → node.predict record = ([Child.left], leftChild.predict record)) ∧
    (∀ x rightChild, feature = .int_feature_t x → node.rightChild = some rightChild →
      x > node.v → node.predict record = ([Child.right], rightChild.predict record)) ∧
    ((∀ x, feature ≠ .int_feature_t x) →
      node.predict record = ([], .error .nonIntFeature)) := by
  refine ⟨?_, ?_, ?_⟩
  · intro x leftChild hx hleft hle
    subst hx
    simp [BinIntNode.predict, hfeature, hleft, not_lt.mpr hle]
  · intro x rightChild hx hright hgt
    subst hx
    simp [BinIntNode.predict, hfeature, hright, hgt]
  · intro hne
    cases feature with
    | int_feature_t x => exact absurd rfl (hne x)
    | other alt => simp [BinIntNode.predict, hfeature]

/-- Instances of `BinIntNode_predict` on `exNode`: the records with the integers 3 and 8
and a record with a boolean. -/
theorem BinIntNode_predict_witness :
    exNode.leftChild = some (exLeaf 1) ∧ exNode.rightChild = some (exLeaf 2) ∧
    exNode.featureIndex_ = 0 ∧ exNode.v = 5 ∧
    exNode.predict [.int_feature_t 3] = ([Child.left], (exLeaf 1).predict [.int_feature_t 3]) ∧
    exNode.predict [.int_feature_t 8] = ([Child.right], (exLeaf 2).predict [.int_feature_t 8]) ∧
    exNode.predict [.other true] = ([], .error .nonIntFeature) :=
  ⟨rfl, rfl, rfl, rfl,
    (BinIntNode_predict exNode [.int_feature_t 3] (.int_feature_t 3) rfl).1 3 (exLeaf 1)
      rfl rfl (by decide),
    (BinIntNode_predict exNode [.int_feature_t 8] (.int_feature_t 8) rfl).2.1 8 (exLeaf 2)
      rfl rfl (by decide),
    (BinIntNode_predict exNode [.other true] (.other true) rfl).2.2 (fun _ h => by cases h)⟩

/-! ## The function `BinIntNode::split` -/

theorem sumLoop_spec (column : List Int) (l : List index_t) :
    ∀ (v s : Int), BinIntNode.split.sumLoop column l v = .ok s →
      s = v + (l.map (fun i => column.getD i 0)).sum ∧
      (l ≠ [] → -2 ^ 31 ≤ s ∧ s < 2 ^ 31) := by
  induction l with
  | nil =>
    intro v s h
    simp only [BinIntNode.split.sumLoop, Except.ok.injEq] at h
    subst h
    simp
  | cons i rest ih =>
    intro v s h
    simp only [BinIntNode.split.sumLoop] at h
    cases hx : column[i]? with
    | none => simp [hx] at h
    | some x =>
      simp only [hx] at h
      split_ifs at h with hr
      obtain ⟨h1, h2⟩ := ih _ _ h
      have hget : column.getD i 0 = x := by
        simp [List.getD_eq_getElem?_getD, hx]
      refine ⟨by rw [h1, List.map_cons, List.sum_cons, hget]; ring, fun _ => ?_⟩
      by_cases hrest : rest = []
      · subst hrest
        simp only [BinIntNode.split.sumLoop, Except.ok.injEq] at h
        subst h
        exact hr
      · exact h2 hrest

theorem partitionLoop_spec (column : List Int) (v : Int) (l : List index_t) :
    ∀ (p r : List index_t × List index_t),
      BinIntNode.split.partitionLoop column v l p = .ok r →
      r = (p.1 ++ l.filter (fun i => decide (column.getD i 0 ≤ v)),
           p.2 ++ l.filter (fun i => decide (column.getD i 0 > v))) := by
  induction l with
  | nil =>
    intro p r h
    simp only [BinIntNode.split.partitionLoop, Except.ok.injEq] at h
    subst h
    simp
  | cons i rest ih =>
    intro p r h
    simp only [BinIntNode.split.partitionLoop] at h
    cases hx : column[i]? with
    | none => simp [hx] at h
    | some x =>
      simp only [hx] at h
      have hget : column[i]?.getD 0 = x := by
        simp [hx]
      by_cases hgt : x > v
      · rw [if_pos hgt] at h
        rw [ih _ _ h]
        have hgt2 : v < x := hgt
        simp [List.filter_cons, hget, hgt2, not_le.mpr hgt]
      · rw [if_neg hgt] at h
        rw [ih _ _ h]
        have hgt2 : ¬ v < x := hgt
        simp [List.filter_cons, hget, hgt2, not_lt.mp hgt]

theorem toIntFeature_toSizeT_div (s : Int) (n : Nat) (h0 : 0 ≤ s) (h1 : s < 2 ^ 31) : toIntFeature (toSizeT s / n) = s / (n : Int) := by
  obtain ⟨m, rfl⟩ := Int.eq_ofNat_of_zero_le h0
  have hm : m < 2 ^ 31 := by exact_mod_cast h1
  have h64 : ((m : Int) % 2 ^ 64).toNat = m := by
    have : (m : Int) % 2 ^ 64 = m := Int.emod_eq_of_lt (by positivity) (by omega)
    rw [this]
    simp
  have hq : m / n < 2 ^ 31 := lt_of_le_of_lt (Nat.div_le_self m n) hm
  have hmod : m / n % 2 ^ 32 = m / n := Nat.mod_eq_of_lt (by omega)
  simp only [toIntFeature, toSizeT, h64, hmod, hq, if_true]
  exact Int.natCast_div m n

/-- What `split` computes when it returns: the member `v` is the unsigned quotient of the
sum of the values converted to `std::size_t`, converted back; it is the quotient
`sum / count` when the sum is not negative; `p[0]` and `p[1]` are the valid indexes with a
value `<= v` and `> v`. -/
theorem BinIntNode_split_spec {Alt AltV : Type} (node node1 : BinIntNode Alt)
    (validIndexes : List index_t) (column : List Int) (p : List (List index_t))
    (h : BinIntNode.split node validIndexes
      (feature_vector_t.int_vector_t column : feature_vector_t AltV) = .ok (node1, p)) :
    validIndexes ≠ [] ∧
    node1.v = toIntFeature
      (toSizeT (validIndexes.map (fun i => column.getD i 0)).sum / validIndexes.length) ∧
    (0 ≤ (validIndexes.map (fun i => column.getD i 0)).sum →
      node1.v = (validIndexes.map (fun i => column.getD i 0)).sum / (validIndexes.length : Int)) ∧
    p = [validIndexes.filter (fun i => decide (column.getD i 0 ≤ node1.v)),
         validIndexes.filter (fun i => decide (column.getD i 0 > node1.v))] := by
  simp only [BinIntNode.split] at h
  cases hs : BinIntNode.split.sumLoop column validIndexes 0 with
  | error e => simp [hs] at h
  | ok sum =>
    simp only [hs] at h
    obtain ⟨hsum, hrange⟩ := sumLoop_spec column validIndexes 0 sum hs
    rw [zero_add] at hsum
    by_cases hlen : validIndexes.length = 0
    · simp [hlen] at h
    · simp only [hlen, if_false] at h
      have hne : validIndexes ≠ [] := by
        intro hnil
        rw [hnil] at hlen
        exact hlen rfl
      cases hp : BinIntNode.split.partitionLoop column
          (toIntFeature (toSizeT sum / validIndexes.length)) validIndexes ([], []) with
      | error e => simp [hp] at h
      | ok r =>
        simp only [hp, Except.ok.injEq, Prod.mk.injEq] at h
        obtain ⟨h1, h2⟩ := h
        have hv : node1.v = toIntFeature (toSizeT sum / validIndexes.length) := by
          rw [← h1]
        have hr := partitionLoop_spec column _ validIndexes _ _ hp
        refine ⟨hne, by rw [hv, hsum], ?_, ?_⟩
        · intro hpos
          rw [hv, hsum]
          exact toIntFeature_toSizeT_div _ _ hpos (by rw [← hsum]; exact (hrange hne).2)
        · rw [← h2, hr, hv]
          simp

/-- C27, at a failing input: on the valid indexes 0, 1, 2 and the integer column
`-4, 1, 0`, whose sum is `-3` and whose truncated average is `-1`, `split` sets `v` to
`1431655764` (the sum is converted to `std::size_t` before the division by the count) and
returns `p[0] = [0, 1, 2]` and `p[1] = []`, while the valid indexes with a value at most
`-1` are `[0]` and those with a value above `-1` are `[1, 2]`. -/
theorem BinIntNode_split_negative_sum :
    (BinIntNode.split exNode [0, 1, 2]
        (feature_vector_t.int_vector_t [-4, 1, 0] : feature_vector_t Bool)).map
      (fun r => (r.1.v, r.2)) = .ok (1431655764, [[0, 1, 2], []]) ∧
    ([0, 1, 2].map (fun i => ([-4, 1, 0] : List Int).getD i 0)).sum = -3 ∧
    Int.tdiv (-3) 3 = -1 ∧
    ([0, 1, 2] : List index_t).filter (fun i => decide (([-4, 1, 0] : List Int).getD i 0 ≤ -1)) =
      [0] ∧
    ([0, 1, 2] : List index_t).filter (fun i => decide (([-4, 1, 0] : List Int).getD i 0 > -1)) =
      [1, 2] :=
  ⟨by decide, by decide, by decide, by decide, by decide⟩

end Nodes

/-! ## The child of an unknown instance -/

/-- C24: when `optimizeGain` returns `true`, with `(L, R, U)` the result of `simulateSplit`
on the selected split and, for `i` in `U`, `dL = |y_i - bestPredLeft|` and
`dR = |y_i - bestPredRight|`: `i` is in the final `bestSplitLeft` if and only if `dL > dR`, it
is in the final `bestSplitRight` if and only if not `dL > dR` (so for `dL = dR` too), and it
is in exactly one of the two. -/
theorem optimizeGain_unknown_assignment (env : Env) (dataset : Dataset)
    (validInstances validFeatures : indexes_t) (attacker : Attacker) (costs : cost_map)
    (constraints : List Constraint) (cs cps : ℚ) (numThreads : Nat) (out0 out : GainOutputs)
    (h : optimizeGain env dataset validInstances validFeatures attacker costs constraints cs cps
      numThreads out0 = .ok (true, out)) :
    ∃ L R U, simulateSplit dataset validInstances attacker costs out.bestSplitValue
        out.bestSplitFeatureId = .ok (L, R, U) ∧
      ∀ i ∈ U,
        (i ∈ out.bestSplitLeft ↔ |vecAt dataset.getLabels i - out.bestPredLeft| >
          |vecAt dataset.getLabels i - out.bestPredRight|) ∧
        (i ∈ out.bestSplitRight ↔ ¬ |vecAt dataset.getLabels i - out.bestPredLeft| >
          |vecAt dataset.getLabels i - out.bestPredRight|) ∧
        (|vecAt dataset.getLabels i - out.bestPredLeft| =
          |vecAt dataset.getLabels i - out.bestPredRight| → i ∈ out.bestSplitRight) ∧
        (i ∈ out.bestSplitLeft ∨ i ∈ out.bestSplitRight) ∧
        ¬ (i ∈ out.bestSplitLeft ∧ i ∈ out.bestSplitRight) := by
  obtain ⟨hcosts, c, hsel, hg, st, cl, cr, hst, _, _, hout⟩ := optimizeGain_true env dataset
    validInstances validFeatures attacker costs constraints cs cps numThreads out0 out h
  obtain ⟨u1, u2, _, _⟩ := unknownLoop_spec env dataset attacker costs _ _ _ _ _ _ _ hst
  simp only [List.nil_append] at u1 u2
  subst hout
  refine ⟨_, _, _, simulateSplit_eq dataset validInstances attacker costs _ _ hcosts, ?_⟩
  intro i hi
  simp only
  obtain ⟨hnl, hnr⟩ := not_mem_certain_of_uncertain _ _ _ _ _ _ _ hi
  have hleft : i ∈ certainLeft dataset validInstances attacker costs c.bestSplitValue
        c.bestSplitFeatureId ++ st.unknownIndexesToLeft ↔
      |vecAt dataset.getLabels i - c.bestPredLeft| >
        |vecAt dataset.getLabels i - c.bestPredRight| := by
    rw [u1, List.mem_append, List.mem_filter, goesLeft_iff_abs]
    constructor
    · rintro (h1 | ⟨_, h1⟩)
      · exact absurd h1 hnl
      · exact h1
    · intro h1
      exact Or.inr ⟨hi, h1⟩
  have hright : i ∈ certainRight dataset validInstances attacker costs c.bestSplitValue
        c.bestSplitFeatureId ++ st.unknownIndexesToRight ↔
      ¬ |vecAt dataset.getLabels i - c.bestPredLeft| >
        |vecAt dataset.getLabels i - c.bestPredRight| := by
    rw [u2, List.mem_append, List.mem_filter, Bool.not_eq_true', ← Bool.not_eq_true,
      goesLeft_iff_abs]
    constructor
    · rintro (h1 | ⟨_, h1⟩)
      · exact absurd h1 hnr
      · exact h1
    · intro h1
      exact Or.inr ⟨hi, h1⟩
  refine ⟨hleft, hright, ?_, ?_, ?_⟩
  · intro heq
    exact hright.mpr (by rw [heq]; exact lt_irrefl _)
  · by_cases hgt : |vecAt dataset.getLabels i - c.bestPredLeft| >
        |vecAt dataset.getLabels i - c.bestPredRight|
    · exact Or.inl (hleft.mpr hgt)
    · exact Or.inr (hright.mpr hgt)
  · rintro ⟨h1, h2⟩
    exact (hright.mp h2) (hleft.mp h1)

/-- Instance of `optimizeGain_unknown_assignment` on the twin dataset with labels 0, 10, 10:
the unknown instance 1 goes left. -/
theorem optimizeGain_unknown_assignment_witness :
    optimizeGain (exEnv [5, 10]) (exTwinDataset [0, 10, 10]) [0, 1, 2] [0] exTwinAttacker
      exCosts [] (200 / 3) (20 / 3) 1 emptyOutputs = .ok (true, exOutputsLeft 0) ∧
    ∃ L R U, simulateSplit (exTwinDataset [0, 10, 10]) [0, 1, 2] exTwinAttacker exCosts
        (exOutputsLeft 0).bestSplitValue (exOutputsLeft 0).bestSplitFeatureId = .ok (L, R, U) ∧
      ∀ i ∈ U,
        (i ∈ (exOutputsLeft 0).bestSplitLeft ↔
          |vecAt (exTwinDataset [0, 10, 10]).getLabels i - (exOutputsLeft 0).bestPredLeft| >
          |vecAt (exTwinDataset [0, 10, 10]).getLabels i - (exOutputsLeft 0).bestPredRight|) ∧
        (i ∈ (exOutputsLeft 0).bestSplitRight ↔
          ¬ |vecAt (exTwinDataset [0, 10, 10]).getLabels i - (exOutputsLeft 0).bestPredLeft| >
          |vecAt (exTwinDataset [0, 10, 10]).getLabels i - (exOutputsLeft 0).bestPredRight|) ∧
        (|vecAt (exTwinDataset [0, 10, 10]).getLabels i - (exOutputsLeft 0).bestPredLeft| =
          |vecAt (exTwinDataset [0, 10, 10]).getLabels i - (exOutputsLeft 0).bestPredRight| →
          i ∈ (exOutputsLeft 0).bestSplitRight) ∧
        (i ∈ (exOutputsLeft 0).bestSplitLeft ∨ i ∈ (exOutputsLeft 0).bestSplitRight) ∧
        ¬ (i ∈ (exOutputsLeft 0).bestSplitLeft ∧ i ∈ (exOutputsLeft 0).bestSplitRight) :=
  ⟨by decide!,
    optimizeGain_unknown_assignment (exEnv [5, 10]) (exTwinDataset [0, 10, 10]) [0, 1, 2] [0]
      exTwinAttacker exCosts [] (200 / 3) (20 / 3) 1 emptyOutputs (exOutputsLeft 0)
      (by decide!)⟩

/-! ## The cost maps of the children -/

theorem lookup_isSome_iff_mem_keys (m : cost_map) (i : index_t) :
    (m.lookup i).isSome = true ↔ i ∈ m.map Prod.fst := by
  induction m with
  | nil => simp
  | cons e rest ih =>
    obtain ⟨k, v⟩ := e
    rw [lookup_cons_eq]
    by_cases hik : i = k
    · simp [hik]
    · simp [hik, ih]

/-- An instance of the unknown set has at least one attack. -/
theorem uncertain_attacks_ne_nil (dataset : Dataset) (validInstances : indexes_t)
    (attacker : Attacker) (costs : cost_map) (v : feature_t) (j : index_t) (i : index_t)
    (hi : i ∈ uncertain dataset validInstances attacker costs v j) :
    attacksOf dataset attacker costs j i ≠ [] := by
  intro hnil
  have := uncertain_costsOnRight dataset validInstances attacker costs v j i hi
  rw [hnil] at this
  exact this rfl

/-- C30: when `optimizeGain` returns `true`, every index of `validInstances` has an entry in
`costs`, the keys of `costsLeft` are exactly the indices of the final `bestSplitLeft`, the
keys of `costsRight` are exactly the indices of the final `bestSplitRight`, and the lookups
`costsLeft.at(i)` for `i` in `bestSplitLeft` and `costsRight.at(i)` for `i` in
`bestSplitRight` succeed. -/
theorem optimizeGain_child_cost_maps (env : Env) (dataset : Dataset)
    (validInstances validFeatures : indexes_t) (attacker : Attacker) (costs : cost_map)
    (constraints : List Constraint) (cs cps : ℚ) (numThreads : Nat) (out0 out : GainOutputs)
    (h : optimizeGain env dataset validInstances validFeatures attacker costs constraints cs cps
      numThreads out0 = .ok (true, out)) :
    HasCosts costs validInstances ∧
    (∀ i, i ∈ out.costsLeft.map Prod.fst ↔ i ∈ out.bestSplitLeft) ∧
    (∀ i, i ∈ out.costsRight.map Prod.fst ↔ i ∈ out.bestSplitRight) ∧
    (∀ i ∈ out.bestSplitLeft, ∃ c, mapAt out.costsLeft i = .ok c) ∧
    (∀ i ∈ out.bestSplitRight, ∃ c, mapAt out.costsRight i = .ok c) := by
  obtain ⟨hcosts, c, hsel, hg, st, cl, cr, hst, hcl, hcr, hout⟩ := optimizeGain_true env dataset
    validInstances validFeatures attacker costs constraints cs cps numThreads out0 out h
  obtain ⟨u1, u2, u3, u4⟩ := unknownLoop_spec env dataset attacker costs _ _ _ _ _ _ _ hst
  simp only [List.nil_append] at u1 u2
  subst hout
  simp only
  obtain ⟨hU, hL, hR⟩ := uncertain_hasCosts dataset validInstances attacker costs
    c.bestSplitValue c.bestSplitFeatureId hcosts
  have hleft : ∀ i, (cl.lookup i).isSome = true ↔
      i ∈ certainLeft dataset validInstances attacker costs c.bestSplitValue
        c.bestSplitFeatureId ++ st.unknownIndexesToLeft := by
    intro i
    rw [copyCosts_lookup _ _ _ _ hcl i, u3 i, u1, List.mem_append, List.mem_filter]
    by_cases h1 : i ∈ certainLeft dataset validInstances attacker costs c.bestSplitValue
        c.bestSplitFeatureId
    · simp [h1, hL i h1]
    · by_cases h2 : i ∈ uncertain dataset validInstances attacker costs c.bestSplitValue
          c.bestSplitFeatureId ∧
          goesLeft (vecAt dataset.getLabels i) c.bestPredLeft c.bestPredRight = true
      · have hne := uncertain_attacks_ne_nil dataset validInstances attacker costs _ _ i h2.1
        cases hatt : attacksOf dataset attacker costs c.bestSplitFeatureId i with
        | nil => exact absurd hatt hne
        | cons a rest => simp [h1, h2, hatt]
      · simp only [h1, if_false, h2, false_or, iff_false]
        simp
  have hright : ∀ i, (cr.lookup i).isSome = true ↔
      i ∈ certainRight dataset validInstances attacker costs c.bestSplitValue
        c.bestSplitFeatureId ++ st.unknownIndexesToRight := by
    intro i
    rw [copyCosts_lookup _ _ _ _ hcr i, u4 i, u2, List.mem_append, List.mem_filter]
    by_cases h1 : i ∈ certainRight dataset validInstances attacker costs c.bestSplitValue
        c.bestSplitFeatureId
    · simp [h1, hR i h1]
    · by_cases h2 : i ∈ uncertain dataset validInstances attacker costs c.bestSplitValue
          c.bestSplitFeatureId ∧
          goesLeft (vecAt dataset.getLabels i) c.bestPredLeft c.bestPredRight = false
      · have hne := uncertain_costsOnRight dataset validInstances attacker costs _ _ i h2.1
        rcases costMinRight_spec dataset c.bestSplitFeatureId c.bestSplitValue
            (attacksOf dataset attacker costs c.bestSplitFeatureId i)
          with ⟨e1, _⟩ | ⟨m, e1, _, _⟩
        · exact absurd e1 hne
        · simp [h1, h2, e1, Except.toOption]
      · have h3 : ¬ (i ∈ uncertain dataset validInstances attacker costs c.bestSplitValue
            c.bestSplitFeatureId ∧
            (!goesLeft (vecAt dataset.getLabels i) c.bestPredLeft c.bestPredRight) = true) := by
          simpa using h2
        simp only [h1, if_false, h2, h3, false_or, iff_false]
        simp
  refine ⟨hcosts, fun i => (lookup_isSome_iff_mem_keys cl i).symm.trans (hleft i),
    fun i => (lookup_isSome_iff_mem_keys cr i).symm.trans (hright i), ?_, ?_⟩
  · intro i hi
    obtain ⟨v, hv⟩ := Option.isSome_iff_exists.mp ((hleft i).mpr hi)
    exact ⟨v, mapAt_of_lookup hv⟩
  · intro i hi
    obtain ⟨v, hv⟩ := Option.isSome_iff_exists.mp ((hright i).mpr hi)
    exact ⟨v, mapAt_of_lookup hv⟩

/-- Instance of `optimizeGain_child_cost_maps` on the twin dataset with labels 0, 10, 10:
the children `[0, 1]` and `[2]` have the cost maps of keys `1, 0` and `2`. -/
theorem optimizeGain_child_cost_maps_witness :
    optimizeGain (exEnv [5, 10]) (exTwinDataset [0, 10, 10]) [0, 1, 2] [0] exTwinAttacker
      exCosts [] (200 / 3) (20 / 3) 1 emptyOutputs = .ok (true, exOutputsLeft 0) ∧
    HasCosts exCosts [0, 1, 2] ∧
    (∀ i, i ∈ (exOutputsLeft 0).costsLeft.map Prod.fst ↔ i ∈ (exOutputsLeft 0).bestSplitLeft) ∧
    (∀ i, i ∈ (exOutputsLeft 0).costsRight.map Prod.fst ↔
      i ∈ (exOutputsLeft 0).bestSplitRight) ∧
    (∀ i ∈ (exOutputsLeft 0).bestSplitLeft, ∃ c, mapAt (exOutputsLeft 0).costsLeft i = .ok c) ∧
    (∀ i ∈ (exOutputsLeft 0).bestSplitRight,
      ∃ c, mapAt (exOutputsLeft 0).costsRight i = .ok c) :=
  ⟨by decide!,
    optimizeGain_child_cost_maps (exEnv [5, 10]) (exTwinDataset [0, 10, 10]) [0, 1, 2] [0]
      exTwinAttacker exCosts [] (200 / 3) (20 / 3) 1 emptyOutputs (exOutputsLeft 0)
      (by decide!)⟩

/-! ## The errors that `optimizeGain` can raise -/

theorem simulateSplit_error (dataset : Dataset) (validInstances : indexes_t)
    (attacker : Attacker) (costs : cost_map) (v : feature_t) (j : index_t) (e : Error)
    (h : simulateSplit dataset validInstances attacker costs v j = .error e) :
    e = .outOfRange := by
  by_cases hcosts : HasCosts costs validInstances
  · rw [simulateSplit_ok _ _ _ _ _ _ hcosts] at h
    cases h
  · have h1 : simulateSplit dataset validInstances attacker costs v j = .error .outOfRange := by
      simp only [simulateSplit, List.isEmpty_nil, Bool.and_self, Bool.not_true,
        Bool.false_eq_true, if_false]
      exact simulateSplitLoop_error _ _ _ _ _ _ _ _ hcosts
    rw [h1] at h
    cases h
    rfl

theorem optimizeOnSubset_error (env : Env) (dataset : Dataset) (costs : cost_map)
    (attacker : Attacker) (validInstances : indexes_t) (constraints : List Constraint)
    (cs cps : ℚ) (subset : List index_t) (e : Error)
    (h : optimizeOnSubset env dataset costs attacker subset validInstances constraints cs cps =
      .error e) : e = .emptyVector ∨ e = .outOfRange := by
  cases subset with
  | nil =>
    simp only [optimizeOnSubset] at h
    cases h
    exact Or.inl rfl
  | cons first rest =>
    by_cases hcosts : HasCosts costs validInstances
    · obtain ⟨r, hr, _⟩ := optimizeOnSubset_eq env dataset costs attacker validInstances
        constraints cs cps hcosts (first :: rest) (List.cons_ne_nil _ _)
      rw [hr] at h
      cases h
    · simp only [optimizeOnSubset,
        featureLoop_error env dataset costs attacker validInstances constraints cs cps hcosts]
        at h
      split_ifs at h
      cases h
      exact Or.inr rfl

theorem reduction_error_cases (futs : List (Option (Except Error OptimizeOutput)))
    (out : GainOutputs) (e : Error) (h : optimizeGain.reduction futs out = .error e) :
    e = .noState ∨ some (.error e) ∈ futs := by
  induction futs generalizing out with
  | nil => simp [optimizeGain.reduction] at h
  | cons fut rest ih =>
    cases fut with
    | none =>
      simp only [optimizeGain.reduction] at h
      cases h
      exact Or.inl rfl
    | some r =>
      cases r with
      | error e1 =>
        simp only [optimizeGain.reduction] at h
        cases h
        exact Or.inr (List.mem_cons_self _ _)
      | ok r =>
        simp only [optimizeGain.reduction] at h
        rcases ih _ h with h1 | h1
        · exact Or.inl h1
        · exact Or.inr (List.mem_cons_of_mem _ h1)

theorem copyCosts_error (costs : cost_map) (l : List index_t) (m : cost_map) (e : Error)
    (h : optimizeGain.copyCosts costs l m = .error e) : e = .outOfRange := by
  induction l generalizing m with
  | nil => simp [optimizeGain.copyCosts] at h
  | cons k rest ih =>
    unfold optimizeGain.copyCosts at h
    cases hl : costs.lookup k with
    | none =>
      simp only [mapAt, hl] at h
      cases h
      rfl
    | some c =>
      simp only [mapAt, hl] at h
      exact ih _ h

/-- The loop over the unknown instances does not raise the error of `costMinRight` when
every instance of the list has an attack landing on the right. -/
theorem unknownLoop_error (env : Env) (dataset : Dataset) (attacker : Attacker)
    (costs : cost_map) (f : index_t) (v : split_value_t) (pl pr : prediction_t)
    (l : List index_t)
    (hright : ∀ i ∈ l, costsOnRightOf (dataset.isFeatureNumerical f) f v
      (attacksOf dataset attacker costs f i) ≠ [])
    (st0 : Redistribution) (e : Error)
    (h : optimizeGain.unknownLoop env dataset attacker costs f v pl pr l st0 = .error e) :
    e ≠ .noRightCost := by
  induction l generalizing st0 with
  | nil => simp [optimizeGain.unknownLoop] at h
  | cons k rest ih =>
    have hright2 : ∀ i ∈ rest, costsOnRightOf (dataset.isFeatureNumerical f) f v
        (attacksOf dataset attacker costs f i) ≠ [] :=
      fun x hx => hright x (List.mem_cons_of_mem k hx)
    have hk := hright k (List.mem_cons_self k rest)
    unfold optimizeGain.unknownLoop at h
    cases hl : costs.lookup k with
    | none =>
      simp only [mapAt, hl] at h
      cases h
      intro hc
      cases hc
    | some cost =>
      have hattk : attacksOf dataset attacker costs f k =
          attacker.attack (dataset.getRecord k) f cost := by
        simp [attacksOf, costOf_of_lookup hl]
      rw [hattk] at hk
      simp only [mapAt, hl] at h
      cases hatt : attacker.attack (dataset.getRecord k) f cost with
      | nil =>
        simp only [hatt] at h
        cases h
        intro hc
        cases hc
      | cons a0 tail =>
        simp only [hatt] at h
        by_cases hgl : goesLeft (vecAt dataset.getLabels k) pl pr = true
        · have hcond := hgl
          simp only [goesLeft, decide_eq_true_eq] at hcond
          rw [if_pos hcond] at h
          exact ih hright2 _ h
        · have hcond := hgl
          simp only [goesLeft, decide_eq_true_eq] at hcond
          rw [if_neg hcond] at h
          rcases costMinRight_spec dataset f v (a0 :: tail) with ⟨h1, _⟩ | ⟨c, h1, _⟩
          · rw [hatt] at hk
            exact absurd h1 hk
          · rw [h1] at h
            exact ih hright2 _ h

theorem commit_error (env : Env) (dataset : Dataset) (validInstances : indexes_t)
    (attacker : Attacker) (costs : cost_map) (constraints : List Constraint)
    (out1 : GainOutputs) (e : Error)
    (h : optimizeGain.commit env dataset validInstances attacker costs constraints out1 =
      .error e) : e ≠ .noRightCost := by
  unfold optimizeGain.commit at h
  by_cases hg : out1.bestGain > 0
  · rw [if_pos hg] at h
    cases hsim : simulateSplit dataset validInstances attacker costs out1.bestSplitValue
        out1.bestSplitFeatureId with
    | error e1 =>
      rw [hsim] at h
      cases h
      rw [simulateSplit_error _ _ _ _ _ _ _ hsim]
      intro hc
      cases hc
    | ok s =>
      have hcosts := simulateSplit_hasCosts _ _ _ _ _ _ _ hsim
      rw [simulateSplit_eq _ _ _ _ _ _ hcosts] at h
      simp only at h
      split_ifs at h with hc1 hc2
      · cases h
        intro hc
        cases hc
      · cases h
        intro hc
        cases hc
      · cases hst : optimizeGain.unknownLoop env dataset attacker costs out1.bestSplitFeatureId
            out1.bestSplitValue out1.bestPredLeft out1.bestPredRight
            (uncertain dataset validInstances attacker costs out1.bestSplitValue
              out1.bestSplitFeatureId)
            { costsLeft := out1.costsLeft
              costsRight := out1.costsRight
              constraintsLeft := (optimizeGain.propagate env attacker constraints
                out1.bestSplitFeatureId out1.bestSplitValue
                (dataset.isFeatureNumerical out1.bestSplitFeatureId)
                out1.constraintsLeft out1.constraintsRight).1
              constraintsRight := (optimizeGain.propagate env attacker constraints
                out1.bestSplitFeatureId out1.bestSplitValue
                (dataset.isFeatureNumerical out1.bestSplitFeatureId)
                out1.constraintsLeft out1.constraintsRight).2
              unknownIndexesToLeft := []
              unknownIndexesToRight := [] } with
        | error e1 =>
          rw [hst] at h
          cases h
          exact unknownLoop_error env dataset attacker costs _ _ _ _ _
            (fun i hi => uncertain_costsOnRight dataset validInstances attacker costs _ _ i hi)
            _ _ hst
        | ok st =>
          rw [hst] at h
          simp only at h
          cases hcl : optimizeGain.copyCosts costs (certainLeft dataset validInstances attacker
              costs out1.bestSplitValue out1.bestSplitFeatureId) st.costsLeft with
          | error e1 =>
            rw [hcl] at h
            cases h
            rw [copyCosts_error _ _ _ _ hcl]
            intro hc
            cases hc
          | ok cl =>
            rw [hcl] at h
            simp only at h
            cases hcr : optimizeGain.copyCosts costs (certainRight dataset validInstances
                attacker costs out1.bestSplitValue out1.bestSplitFeatureId) st.costsRight with
            | error e1 =>
              rw [hcr] at h
              cases h
              rw [copyCosts_error _ _ _ _ hcr]
              intro hc
              cases hc
            | ok cr =>
              rw [hcr] at h
              cases h
  · rw [if_neg hg] at h
    cases h

/-- C23: `optimizeGain` never raises the error `Cannot determine a valid cost for the
right`; and for every split `(j, v)` and every instance `i` that `simulateSplit` puts in the
unknown set `U` (so for the selected split too), `i` has a cost, its attack list under that
cost contains an attack landing on the right of the split (value `> v` for a numerical
feature, `!= v` for a categorical one), and the lambda `costMinRight` returns a cost on that
list. -/
theorem optimizeGain_right_cost_found (env : Env) (dataset : Dataset)
    (validInstances validFeatures : indexes_t) (attacker : Attacker) (costs : cost_map)
    (constraints : List Constraint) (cs cps : ℚ) (numThreads : Nat) (out0 : GainOutputs) :
    optimizeGain env dataset validInstances validFeatures attacker costs constraints cs cps
      numThreads out0 ≠ .error .noRightCost ∧
    ∀ (j : index_t) (v : split_value_t) (L R U : indexes_t),
      simulateSplit dataset validInstances attacker costs v j = .ok (L, R, U) →
      ∀ i ∈ U, ∃ cost, costs.lookup i = some cost ∧
        (∃ atk ∈ attacker.attack (dataset.getRecord i) j cost,
          if dataset.isFeatureNumerical j then vecAt atk.1 j > v else vecAt atk.1 j ≠ v) ∧
        ∃ c, optimizeGain.costMinRight dataset
          (attacker.attack (dataset.getRecord i) j cost) j v = .ok c := by
  constructor
  · intro h
    have hemp : ¬ validInstances.isEmpty = true := by
      intro hemp
      simp [optimizeGain, hemp] at h
    unfold optimizeGain at h
    rw [if_neg hemp] at h
    cases hb : optimizeGain.batches numThreads validFeatures with
    | error e1 =>
      rw [hb] at h
      simp only [optimizeGain.batches] at hb
      split_ifs at hb
      cases hb
      cases h
    | ok bs =>
      rw [hb] at h
      simp only at h
      cases hred : optimizeGain.reduction (optimizeGain.batchResults env dataset validInstances
          attacker costs constraints cs cps numThreads bs) { out0 with bestGain := -1 } with
      | error e1 =>
        rw [hred] at h
        cases h
        rcases reduction_error_cases _ _ _ hred with h1 | h1
        · cases h1
        · simp only [optimizeGain.batchResults, List.mem_map, List.mem_range] at h1
          obtain ⟨k, _, hk⟩ := h1
          cases hget : bs.get? k with
          | none => rw [hget] at hk; cases hk
          | some b =>
            rw [hget] at hk
            simp only [Option.map_some', Option.some.injEq] at hk
            rcases optimizeOnSubset_error _ _ _ _ _ _ _ _ _ _ hk with h2 | h2 <;> cases h2
      | ok out1 =>
        rw [hred] at h
        exact commit_error _ _ _ _ _ _ _ _ h rfl
  · intro j v L R U hsim i hi
    have hcosts := simulateSplit_hasCosts _ _ _ _ _ _ _ hsim
    rw [simulateSplit_eq _ _ _ _ _ _ hcosts] at hsim
    cases hsim
    obtain ⟨cost, hcost⟩ := Option.isSome_iff_exists.mp
      (hcosts i (List.mem_filter.mp hi).1)
    have hatt : attacksOf dataset attacker costs j i =
        attacker.attack (dataset.getRecord i) j cost := by
      simp [attacksOf, costOf_of_lookup hcost]
    have hne := uncertain_costsOnRight dataset validInstances attacker costs v j i hi
    rw [hatt] at hne
    refine ⟨cost, hcost, ?_, ?_⟩
    · cases hl : costsOnRightOf (dataset.isFeatureNumerical j) j v
          (attacker.attack (dataset.getRecord i) j cost) with
      | nil => exact absurd hl hne
      | cons c0 rest =>
        have hmem : c0 ∈ costsOnRightOf (dataset.isFeatureNumerical j) j v
            (attacker.attack (dataset.getRecord i) j cost) := by
          rw [hl]; exact List.mem_cons_self _ _
        simp only [costsOnRightOf, List.mem_map, List.mem_filter, Bool.not_eq_true',
          decide_eq_false_iff_not] at hmem
        obtain ⟨atk, ⟨hmem1, hnot⟩, _⟩ := hmem
        refine ⟨atk, hmem1, ?_⟩
        unfold placesLeft at hnot
        cases hnum : dataset.isFeatureNumerical j
        · simpa [hnum] using hnot
        · simpa [hnum] using hnot
    · rcases costMinRight_spec dataset j v (attacker.attack (dataset.getRecord i) j cost)
        with ⟨h1, _⟩ | ⟨c, h1, _⟩
      · exact absurd h1 hne
      · exact ⟨c, h1⟩

/-- Instance of `optimizeGain_right_cost_found` on the twin dataset and the split
`feature 0 <= 0`, whose unknown set is `[1]`. -/
theorem optimizeGain_right_cost_found_witness :
    simulateSplit (exTwinDataset [0, 10, 10]) [0, 1, 2] exTwinAttacker exCosts 0 0 =
      .ok ([0], [2], [1]) ∧
    optimizeGain (exEnv [5, 10]) (exTwinDataset [0, 10, 10]) [0, 1, 2] [0] exTwinAttacker
      exCosts [] (200 / 3) (20 / 3) 1 emptyOutputs ≠ .error .noRightCost ∧
    ∀ i ∈ ([1] : indexes_t), ∃ cost, exCosts.lookup i = some cost ∧
      (∃ atk ∈ exTwinAttacker.attack ((exTwinDataset [0, 10, 10]).getRecord i) 0 cost,
        if (exTwinDataset [0, 10, 10]).isFeatureNumerical 0 then vecAt atk.1 0 > 0
        else vecAt atk.1 0 ≠ 0) ∧
      ∃ c, optimizeGain.costMinRight (exTwinDataset [0, 10, 10])
        (exTwinAttacker.attack ((exTwinDataset [0, 10, 10]).getRecord i) 0 cost) 0 0 = .ok c :=
  ⟨by decide!,
    (optimizeGain_right_cost_found (exEnv [5, 10]) (exTwinDataset [0, 10, 10]) [0, 1, 2] [0]
      exTwinAttacker exCosts [] (200 / 3) (20 / 3) 1 emptyOutputs).1,
    (optimizeGain_right_cost_found (exEnv [5, 10]) (exTwinDataset [0, 10, 10]) [0, 1, 2] [0]
      exTwinAttacker exCosts [] (200 / 3) (20 / 3) 1 emptyOutputs).2 0 0 [0] [2] [1]
      (by decide!)⟩

/-! ## The constraints handed to the optimizer -/

theorem updatedConstraints_foldl (env : Env) (attacker : Attacker) (j : index_t)
    (v : feature_t) (num : Bool) (constraints acc : List Constraint) :
    constraints.foldl (fun updatedConstraints c =>
      let cLeft := env.propagateLeft c attacker j v num
      let cRight := env.propagateRight c attacker j v num
      if cLeft.isSome && cRight.isSome then updatedConstraints ++ [c.setDirection 'U']
      else if cLeft.isSome then updatedConstraints ++ [c.setDirection 'L']
      else if cRight.isSome then updatedConstraints ++ [c.setDirection 'R']
      else updatedConstraints) acc =
    acc ++ constraints.filterMap (fun c =>
      if (env.propagateLeft c attacker j v num).isSome = true ∧
          (env.propagateRight c attacker j v num).isSome = true then
        some ⟨c.x, c.y, c.cost, c.inequality, c.bound, 'U'⟩
      else if (env.propagateLeft c attacker j v num).isSome = true then
        some ⟨c.x, c.y, c.cost, c.inequality, c.bound, 'L'⟩
      else if (env.propagateRight c attacker j v num).isSome = true then
        some ⟨c.x, c.y, c.cost, c.inequality, c.bound, 'R'⟩
      else none) := by
  induction constraints generalizing acc with
  | nil => simp
  | cons c rest ih =>
    rw [List.foldl_cons, ih, List.filterMap_cons]
    cases hl : (env.propagateLeft c attacker j v num).isSome <;>
      cases hr : (env.propagateRight c attacker j v num).isSome <;>
      simp [Constraint.setDirection, hl, hr]

/-- C25: for every candidate `(j, v)`, the list `updatedConstraints` is made, in the order
of the inherited constraints, of one entry for each inherited constraint `c` for which
`propagateLeft` or `propagateRight` returns a value: the entry has the fields of `c` and the
direction `U` if both return a value, `L` if only `propagateLeft` does, `R` if only
`propagateRight` does; a constraint for which neither returns a value has no entry. This
list is the one that `optimizeSSE` receives, with the result of `simulateSplit`. -/
theorem optimizeOnSubset_updatedConstraints (env : Env) (dataset : Dataset) (costs : cost_map)
    (attacker : Attacker) (validInstances : indexes_t) (constraints : List Constraint)
    (cps : ℚ) (j : index_t) (v : feature_t) :
    optimizeOnSubset.updatedConstraints env attacker constraints j v
        (dataset.isFeatureNumerical j) =
      constraints.filterMap (fun c =>
        if (env.propagateLeft c attacker j v (dataset.isFeatureNumerical j)).isSome = true ∧
            (env.propagateRight c attacker j v (dataset.isFeatureNumerical j)).isSome = true
        then some ⟨c.x, c.y, c.cost, c.inequality, c.bound, 'U'⟩
        else if (env.propagateLeft c attacker j v (dataset.isFeatureNumerical j)).isSome = true
        then some ⟨c.x, c.y, c.cost, c.inequality, c.bound, 'L'⟩
        else if (env.propagateRight c attacker j v (dataset.isFeatureNumerical j)).isSome = true
        then some ⟨c.x, c.y, c.cost, c.inequality, c.bound, 'R'⟩
        else none) ∧
    optimizeOnSubset.trySplit env dataset costs attacker validInstances constraints cps j v =
      (simulateSplit dataset validInstances attacker costs v j).map (fun s =>
        optimizeSSE env.nlopt dataset.getLabels s.1 s.2.1 s.2.2
          (optimizeOnSubset.updatedConstraints env attacker constraints j v
            (dataset.isFeatureNumerical j)) cps cps 0) := by
  constructor
  · unfold optimizeOnSubset.updatedConstraints
    rw [updatedConstraints_foldl, List.nil_append]
  · unfold optimizeOnSubset.trySplit
    cases simulateSplit dataset validInstances attacker costs v j with
    | error e => rfl
    | ok s => rfl

/-! ## The sizes of the batches -/

/-- Counterexample to C26 as stated: seven features and four workers give the batches
`[0]`, `[1]`, `[2]` and `[3, 4, 5, 6]`, two of which differ in size by three. -/
theorem optimizeGain_batches_unbalanced :
    optimizeGain.batches 4 [0, 1, 2, 3, 4, 5, 6] = .ok [[0], [1], [2], [3, 4, 5, 6]] ∧
    ¬ (∀ b1 ∈ ([[0], [1], [2], [3, 4, 5, 6]] : List (List index_t)),
        ∀ b2 ∈ ([[0], [1], [2], [3, 4, 5, 6]] : List (List index_t)),
          b1.length ≤ b2.length + 1) := by
  refine ⟨by decide, ?_⟩
  intro h
  have := h [3, 4, 5, 6] (by simp) [0] (by simp)
  simp at this

/-- C26 (amended): for `numThreads >= 1` and a non-empty `validFeatures` of length `n`, the
batches are contiguous chunks of `validFeatures` (their concatenation is `validFeatures`);
for one worker there is a single chunk; for `1 < numThreads < n` there are `numThreads`
chunks, of which all but the last hold `n / numThreads` features and the last holds the
remaining `n / numThreads + n % numThreads` features; and for `numThreads >= n` each chunk
holds exactly one feature. -/
theorem optimizeGain_batches_sizes (numThreads : Nat) (validFeatures : indexes_t)
    (hW : 1 ≤ numThreads) (hne : validFeatures ≠ []) :
    ∃ bs, optimizeGain.batches numThreads validFeatures = .ok bs ∧
      bs.flatten = validFeatures ∧
      (numThreads = 1 → bs = [validFeatures]) ∧
      (1 < numThreads → numThreads < validFeatures.length →
        bs.length = numThreads ∧
        ∀ k b, bs[k]? = some b →
          b.length = if k = numThreads - 1
            then validFeatures.length / numThreads + validFeatures.length % numThreads
            else validFeatures.length / numThreads) ∧
      (validFeatures.length ≤ numThreads →
        bs.length = validFeatures.length ∧ ∀ b ∈ bs, b.length = 1) := by
  obtain ⟨bs, hbs, hflat, _, _, _⟩ := batches_spec numThreads validFeatures hW
  refine ⟨bs, hbs, hflat, ?_, ?_, ?_⟩
  · intro h1
    subst h1
    simp [optimizeGain.batches] at hbs
    exact hbs.symm
  · intro h1 h2
    have h0 : numThreads ≠ 0 := by omega
    have h1' : numThreads ≠ 1 := by omega
    simp only [optimizeGain.batches, h0, h1', h2, if_true, if_false, Except.ok.injEq] at hbs
    subst hbs
    refine ⟨by simp, ?_⟩
    intro k b hk
    have hdm := Nat.div_add_mod validFeatures.length numThreads
    have hprod : validFeatures.length / numThreads * numThreads =
        numThreads * (validFeatures.length / numThreads) := Nat.mul_comm _ _
    by_cases hkW : k < numThreads
    · rw [List.getElem?_map, List.getElem?_range hkW] at hk
      simp only [Option.map_some', Option.some.injEq] at hk
      subst hk
      have hpred : validFeatures.length / numThreads * (numThreads - 1) +
          validFeatures.length / numThreads = validFeatures.length / numThreads * numThreads := by
        rw [← Nat.mul_succ]
        congr 1
        omega
      by_cases hlast : k = numThreads - 1
      · simp only [hlast, if_true, List.length_drop]
        generalize validFeatures.length / numThreads = q at hdm hprod hpred ⊢
        generalize validFeatures.length % numThreads = r at hdm ⊢
        generalize q * (numThreads - 1) = p1 at hpred ⊢
        generalize q * numThreads = p2 at hpred hprod
        generalize numThreads * q = p3 at hprod hdm
        omega
      · simp only [hlast, if_false, List.length_take, List.length_drop]
        have hle : validFeatures.length / numThreads * (k + 1) ≤
            validFeatures.length / numThreads * (numThreads - 1) :=
          Nat.mul_le_mul_left _ (by omega)
        rw [Nat.mul_succ] at hle
        generalize validFeatures.length / numThreads = q at hdm hprod hpred hle ⊢
        generalize validFeatures.length % numThreads = r at hdm
        generalize q * (numThreads - 1) = p1 at hpred hle
        generalize q * numThreads = p2 at hpred hprod
        generalize numThreads * q = p3 at hprod hdm
        generalize q * k = p4 at hle ⊢
        omega
    · have : ((List.range numThreads).map (fun i =>
          if i = numThreads - 1 then validFeatures.drop (validFeatures.length / numThreads * i)
          else (validFeatures.drop (validFeatures.length / numThreads * i)).take
            (validFeatures.length / numThreads)))[k]? = none := by
        rw [List.getElem?_eq_none]
        simp
        omega
      rw [this] at hk
      cases hk
  · intro hle
    by_cases h1 : numThreads = 1
    · subst h1
      simp [optimizeGain.batches] at hbs
      subst hbs
      have hlen : validFeatures.length = 1 := by
        have : 0 < validFeatures.length := List.length_pos.mpr hne
        omega
      simp [hlen]
    · have h0 : numThreads ≠ 0 := by omega
      have h2 : ¬ numThreads < validFeatures.length := by omega
      simp only [optimizeGain.batches, h0, h1, h2, if_false, Except.ok.injEq] at hbs
      subst hbs
      refine ⟨by simp, ?_⟩
      intro b hb
      simp only [List.mem_map] at hb
      obtain ⟨f, _, rfl⟩ := hb
      rfl

/-- Instance of `optimizeGain_batches_sizes` with four workers and seven features. -/
theorem optimizeGain_batches_sizes_witness :
    ∃ bs, optimizeGain.batches 4 [0, 1, 2, 3, 4, 5, 6] = .ok bs ∧
      bs.flatten = [0, 1, 2, 3, 4, 5, 6] ∧
      (4 = 1 → bs = [[0, 1, 2, 3, 4, 5, 6]]) ∧
      (1 < 4 → 4 < ([0, 1, 2, 3, 4, 5, 6] : indexes_t).length →
        bs.length = 4 ∧
        ∀ k b, bs[k]? = some b →
          b.length = if k = 4 - 1
            then ([0, 1, 2, 3, 4, 5, 6] : indexes_t).length / 4 +
              ([0, 1, 2, 3, 4, 5, 6] : indexes_t).length % 4
            else ([0, 1, 2, 3, 4, 5, 6] : indexes_t).length / 4) ∧
      (([0, 1, 2, 3, 4, 5, 6] : indexes_t).length ≤ 4 →
        bs.length = ([0, 1, 2, 3, 4, 5, 6] : indexes_t).length ∧ ∀ b ∈ bs, b.length = 1) :=
  optimizeGain_batches_sizes 4 [0, 1, 2, 3, 4, 5, 6] (by decide) (by decide)

/-! ## The futures read by the reduction -/

/-- C29, at a failing input: with three workers and the two features 0 and 1, two batches
are built and two `std::async` calls are launched, while `batchResults` has three futures;
the reduction reads the third one, which no call has filled, and `optimizeGain` fails with
the error `noState`. -/
theorem optimizeGain_reads_unassigned_future :
    optimizeGain.batches 3 [0, 1] = .ok [[0], [1]] ∧
    (optimizeGain.batchResults (exEnv [5, 10]) (exTwinDataset [0, 10, 10]) [0, 1, 2]
      exTwinAttacker exCosts [] (200 / 3) (20 / 3) 3 [[0], [1]]).length = 3 ∧
    (optimizeGain.batchResults (exEnv [5, 10]) (exTwinDataset [0, 10, 10]) [0, 1, 2]
      exTwinAttacker exCosts [] (200 / 3) (20 / 3) 3 [[0], [1]])[2]? = some none ∧
    optimizeGain (exEnv [5, 10]) (exTwinDataset [0, 10, 10]) [0, 1, 2] [0, 1] exTwinAttacker
      exCosts [] (200 / 3) (20 / 3) 3 emptyOutputs = .error .noState :=
  ⟨by decide, by decide!, by decide!, by decide!⟩

/-! ## The gradient of a constraint -/

/-- The gradient that `constraintFunction` writes for the directions `L` and `R`: the
derivative `sign(q) * 2 * (x_side - y)` of the returned value on the coordinate of the side
and 0 on the other. -/
theorem constraintFunction_gradient_LR (x0 x1 g0 g1 : ℚ) (c : Constraint) :
    (c.direction = 'L' →
      (constraintFunction [x0, x1] [g0, g1] c).map Prod.snd =
        .ok [signOf c.inequality * 2 * (x0 - c.y), 0]) ∧
    (c.direction = 'R' →
      (constraintFunction [x0, x1] [g0, g1] c).map Prod.snd =
        .ok [0, signOf c.inequality * 2 * (x1 - c.y)]) := by
  constructor
  · intro hd
    cases hq : c.inequality <;>
      simp [constraintFunction, hd, hq, vecAt, signOf, Except.map]
  · intro hd
    have hne : ¬ ('R' = 'L') := by decide
    cases hq : c.inequality <;>
      simp [constraintFunction, hd, hq, vecAt, signOf, Except.map, hne]

/-- The gradient that `constraintFunction` writes for the direction `U`: on the coordinate
of the selected side it is `x_side - y`, half of the derivative `2 * (x_side - y)` of the
returned value. -/
theorem constraintFunction_gradient_U (x0 x1 g0 g1 : ℚ) (c : Constraint)
    (hd : c.direction = 'U') :
    (constraintFunction [x0, x1] [g0, g1] c).map Prod.snd =
      .ok (if (x0 - c.y) * (x0 - c.y) < (x1 - c.y) * (x1 - c.y) ↔ c.inequality = false
        then [x0 - c.y, 0] else [0, x1 - c.y]) := by
  have h1 : ¬ ('U' = 'L') := by decide
  have h2 : ¬ ('U' = 'R') := by decide
  cases hq : c.inequality <;>
    by_cases hlt : (x0 - c.y) * (x0 - c.y) < (x1 - c.y) * (x1 - c.y) <;>
    simp [constraintFunction, hd, hq, vecAt, Except.map, h1, h2, hlt]

/-- C28, at a failing input: for the direction `U` with `q = false`, `y = 0`, `bound = 0`
and the point `(1, 3)`, `constraintFunction` returns the value `1 = (x0 - y)^2` (the left
side has the smaller squared residual) and writes the gradient `(1, 0)`, while the value
returned at the points `(1 + h, 3)` with `-1 < h < 1` is `1 + 2 * h + h^2`, whose derivative
at `h = 0` is `2 = 2 * (x0 - y)`. -/
theorem constraintFunction_gradient_U_halved :
    constraintFunction [1, 3] [0, 0] ⟨[], 0, 0, false, 0, 'U'⟩ = .ok (1, [1, 0]) ∧
    (∀ h : ℚ, -1 < h → h < 1 →
      (constraintFunction [1 + h, 3] [0, 0] ⟨[], 0, 0, false, 0, 'U'⟩).map Prod.fst =
        .ok (1 + 2 * h + h ^ 2)) ∧
    (2 : ℚ) * (1 - 0) ≠ 1 := by
  refine ⟨by decide!, ?_, by norm_num⟩
  intro h h1 h2
  have h3 : ¬ ('U' = 'L') := by decide
  have h4 : ¬ ('U' = 'R') := by decide
  have hlt : (1 + h) * (1 + h) < 3 * 3 := by nlinarith
  simp [constraintFunction, vecAt, Except.map, h3, h4, hlt]
  ring

/-! ## The option parser of `main` -/

namespace Main

/-- The case `b` of the parser tests the budget read by the previous options, not the value
of its own argument: from a state with a budget that is not negative, every argument that
`std::stod` converts is stored, negative or not. -/
theorem parseOption_budget (std : DatasetCpp.StdLib) (optarg : String) (st : Options)
    (bflag : ℚ) (hst : 0 ≤ st.budget) (harg : std.stod optarg = some bflag) :
    parseOption std 'b' optarg st = .ok { st with budget := bflag } := by
  have h1 : ¬ ('b' = 'a') := by decide
  simp [parseOption, h1, harg, not_lt.mpr hst]

/-- C21, at a failing input: on the command line `treant -b -5` the parser returns the
tuple of the options with the budget `-5`; the error `Invalid budget argument` is raised
only by a second option `-b`, as on `treant -b -5 -b 3`. -/
theorem parseArguments_negative_budget :
    getoptAll ['a', 'b', 'd', 'f', 'j', 'e', 'i', 'o'] ["-b", "-5"] = [('b', "-5")] ∧
    DatasetCpp.exStd.stod "-5" = some (-5) ∧
    parseArguments DatasetCpp.exStd ["treant", "-b", "-5"] =
      .ok ⟨"", "", 1, -5, 1, 1, 0, ""⟩ ∧
    parseArguments DatasetCpp.exStd ["treant", "-b", "-5", "-b", "3"] =
      .error .invalidBudget :=
  ⟨by decide, by decide!, by decide!, by decide!⟩

theorem parseOption_files (std : DatasetCpp.StdLib) (c : Char) (optarg : String)
    (st st1 : Options) (h : parseOption std c optarg st = .ok st1) :
    (c ≠ 'a' → st1.attackerFile = st.attackerFile) ∧
    (c ≠ 'f' → st1.datasetFile = st.datasetFile) := by
  unfold parseOption at h
  repeat' split at h
  all_goals
    cases h <;> first
      | exact ⟨fun _ => rfl, fun _ => rfl⟩
      | exact ⟨fun hc => absurd (by assumption) hc, fun _ => rfl⟩
      | exact ⟨fun _ => rfl, fun hc => absurd (by assumption) hc⟩

/-- The parser never fails for a missing option: when no result of `getopt` is the option
`a` (respectively `f`), a run of the loop that ends leaves `attackerFile` (respectively
`datasetFile`) as it was, empty when the loop starts from the defaults. -/
theorem parseLoop_files (std : DatasetCpp.StdLib) (opts : List (Char × String)) :
    ∀ (st st1 : Options), parseLoop std opts st = .ok st1 →
      ((∀ o ∈ opts, o.1 ≠ 'a') → st1.attackerFile = st.attackerFile) ∧
      ((∀ o ∈ opts, o.1 ≠ 'f') → st1.datasetFile = st.datasetFile) := by
  induction opts with
  | nil =>
    intro st st1 h
    simp only [parseLoop, Except.ok.injEq] at h
    subst h
    exact ⟨fun _ => rfl, fun _ => rfl⟩
  | cons o rest ih =>
    intro st st1 h
    obtain ⟨c, optarg⟩ := o
    simp only [parseLoop] at h
    cases hp : parseOption std c optarg st with
    | error e => simp [hp] at h
    | ok st2 =>
      simp only [hp] at h
      obtain ⟨i1, i2⟩ := ih st2 st1 h
      obtain ⟨p1, p2⟩ := parseOption_files std c optarg st st2 hp
      constructor
      · intro ha
        rw [i1 (fun o ho => ha o (List.mem_cons_of_mem _ ho)),
          p1 (ha (c, optarg) (List.mem_cons_self _ _))]
      · intro hf
        rw [i2 (fun o ho => hf o (List.mem_cons_of_mem _ ho)),
          p2 (hf (c, optarg) (List.mem_cons_self _ _))]

/-- C22, at a failing input: on the command lines `treant` and `treant -b 1`, without the
options `-a` and `-f`, the parser returns the tuple of the options with an empty attacker
file and an empty dataset file. -/
theorem parseArguments_missing_files :
    parseArguments DatasetCpp.exStd ["treant"] = .ok ⟨"", "", 1, 0, 1, 1, 0, ""⟩ ∧
    parseArguments DatasetCpp.exStd ["treant", "-b", "1"] = .ok ⟨"", "", 1, 1, 1, 1, 0, ""⟩ ∧
    parseArguments DatasetCpp.exStd ["treant", "-a", "attacks.json", "-b", "1"] =
      .ok ⟨"attacks.json", "", 1, 1, 1, 1, 0, ""⟩ :=
  ⟨by decide!, by decide!, by decide!⟩

end Main

/-! ## The objective bounds the loss of every routing -/

/-- C31 (amended): in exact arithmetic (the operations of `double` taken without rounding),
the objective `f` of `sseCostFunction` is an upper bound on the loss under every
routing of the unknown instances: for all `y`, `L`, `R`, `U`, every point `(left, right)`
and every split of `U` into `UL` and `UR` (the two lists together are a rearrangement of
`U`), the sum over `L ++ UL` of `(y_i - left)^2` plus the sum over `R ++ UR` of
`(y_i - right)^2` is at most `f(y, L, R, U, (left, right))`. -/
theorem sseCostFunction_bounds_routing (y : List label_t) (L R U UL UR : indexes_t)
    (left right : ℚ) (hsplit : (UL ++ UR).Perm U) :
    ((L ++ UL).map (fun i => (vecAt y i - left) ^ 2)).sum +
      ((R ++ UR).map (fun i => (vecAt y i - right) ^ 2)).sum ≤
    sseCostFunction.f y L R U [left, right] := by
  rw [sseCostFunction_f_eq_sum]
  have hperm : (U.map (fun i => max ((vecAt y i - vecAt [left, right] 0) ^ 2)
        ((vecAt y i - vecAt [left, right] 1) ^ 2))).sum =
      ((UL ++ UR).map (fun i => max ((vecAt y i - vecAt [left, right] 0) ^ 2)
        ((vecAt y i - vecAt [left, right] 1) ^ 2))).sum :=
    ((hsplit.map _).sum_eq).symm
  have h0 : vecAt [left, right] 0 = left := rfl
  have h1 : vecAt [left, right] 1 = right := rfl
  rw [hperm, h0, h1]
  simp only [List.map_append, List.sum_append]
  have hl := sum_map_le UL (fun i => (vecAt y i - left) ^ 2)
    (fun i => max ((vecAt y i - left) ^ 2) ((vecAt y i - right) ^ 2))
    (fun i => le_max_left _ _)
  have hr := sum_map_le UR (fun i => (vecAt y i - right) ^ 2)
    (fun i => max ((vecAt y i - left) ^ 2) ((vecAt y i - right) ^ 2))
    (fun i => le_max_right _ _)
  linarith

/-- Instance of `sseCostFunction_bounds_routing`: the labels 0, 10, 10, the instance 0 on
the left, 2 on the right and 1 unknown, at the point `(5, 10)`, with the unknown instance
routed to the left: the loss `25 + 25` is at most the objective `50`. -/
theorem sseCostFunction_bounds_routing_witness :
    (([1] : indexes_t) ++ []).Perm [1] ∧
    ((([0] : indexes_t) ++ [1]).map (fun i => (vecAt [0, 10, 10] i - 5) ^ 2)).sum +
      ((([2] : indexes_t) ++ []).map (fun i => (vecAt [0, 10, 10] i - 10) ^ 2)).sum ≤
    sseCostFunction.f [0, 10, 10] [0] [2] [1] [5, 10] :=
  ⟨List.Perm.refl _,
    sseCostFunction_bounds_routing [0, 10, 10] [0] [2] [1] [1] [] 5 10 (List.Perm.refl _)⟩

/-! ## The objective and the loss in the arithmetic of `double` -/

/-- Values of the rounding to `double`: `1 / 10` goes to the nearest number with 53
significant bits; `2^53 + 1` is half-way between two of them and goes to the even one,
`2^53`; `2^53 + 3` goes to `2^53 + 4`; `1`, `1 / 2` and `10^8 + 1 / 2` are not changed; at
the least exponent, 5 halves of the least positive number go to 2 of them. -/
theorem Binary64_round_values :
    Binary64.round (1 / 10) = 3602879701896397 / 36028797018963968 ∧
    Binary64.round (2 ^ 53 + 1) = 2 ^ 53 ∧
    Binary64.round (2 ^ 53 + 3) = 2 ^ 53 + 4 ∧
    Binary64.round (-(2 ^ 53 + 3)) = -(2 ^ 53 + 4) ∧
    Binary64.round 1 = 1 ∧ Binary64.round (1 / 2) = 1 / 2 ∧
    Binary64.round (200000001 / 2) = 200000001 / 2 ∧
    Binary64.round (5 * Binary64.pow2 (-1075)) = 2 * Binary64.pow2 (-1074) ∧
    Binary64.div (Binary64.add (Binary64.add 0 1) 3) 3 = exMeanDouble :=
  ⟨by decide!, by decide!, by decide!, by decide!, by decide!, by decide!, by decide!,
    by decide!, by decide!⟩

/-- Counterexample to C31 as stated, in the arithmetic of `double`: for the labels
`1, 1, 10^8 + 1 / 2`, `L = [0]`, `R = [2]`, `U = [1]` and the point `(0, 1 / 2)`, all of
them `double` values, the objective computed by the lambda `f` is `10^16` (the two terms 1
are lost when they are added to `10^16`), while the loss with the unknown instance routed
to the left, `UL = [1]` and `UR = []`, is `10^16 + 2`, also when it is computed in `double`
by `evaluateSplit` on each child. -/
theorem double_objective_below_routing :
    (∀ v ∈ ([1, 1, 200000001 / 2, 0, 1 / 2] : List ℚ), Binary64.round v = v) ∧
    sseCostFunction.fDouble [1, 1, 200000001 / 2] [0] [2] [1] [0, 1 / 2] = 10 ^ 16 ∧
    ((([0] : indexes_t) ++ [1]).map (fun i => (vecAt [1, 1, 200000001 / 2] i - 0) ^ 2)).sum +
      ((([2] : indexes_t) ++ []).map
        (fun i => (vecAt [1, 1, 200000001 / 2] i - 1 / 2) ^ 2)).sum = 10 ^ 16 + 2 ∧
    Binary64.add (evaluateSplitDouble (exTwinDataset [1, 1, 200000001 / 2]) ([0] ++ [1]) 0)
      (evaluateSplitDouble (exTwinDataset [1, 1, 200000001 / 2]) ([2] ++ []) (1 / 2)) =
        10 ^ 16 + 2 ∧
    ¬ (((([0] : indexes_t) ++ [1]).map (fun i => (vecAt [1, 1, 200000001 / 2] i - 0) ^ 2)).sum +
      ((([2] : indexes_t) ++ []).map
        (fun i => (vecAt [1, 1, 200000001 / 2] i - 1 / 2) ^ 2)).sum ≤
      sseCostFunction.fDouble [1, 1, 200000001 / 2] [0] [2] [1] [0, 1 / 2]) :=
  ⟨by decide!, by decide!, by decide!, by decide!, by decide!⟩

/-- Counterexample to C8 as stated, in the arithmetic of `double`: on the twin dataset with
the labels `1, 1, 10^8 + 1 / 2`, `currentScore = 2 * 10^16` and a solver that returns the
point `(0, 1 / 2)` on the split `feature 0 <= 0` (with `L = [0]`, `R = [2]`, `U = [1]`) and
reports the objective computed by `f` there, `10^16`, `optimizeGain` returns `true` with
the children `[0, 1]` and `[2]`, `bestSSEuma = 10^16` and the gain `10^16` (an exact
subtraction in `double`), while `evaluateSplit` gives 2 on the left child and `10^16` on the
right child, whose sum, `10^16 + 2` in `double` too, is not `bestSSEuma`. The subtractions
that `optimizeGain` itself makes on this input (the gain, and the residuals `1 - 0` and
`1 - 1 / 2` of the unknown instance) are exact in `double`. -/
theorem double_children_sse_differs :
    (∀ d cons x0 code x f, (exEnvDouble [0, 1 / 2]).nlopt d cons x0 = some (code, x, f) →
      f = sseCostFunction.fDouble d.y_ d.leftIndexes_ d.rightIndexes_ d.unknownIndexes_ x) ∧
    optimizeGain (exEnvDouble [0, 1 / 2]) (exTwinDataset [1, 1, 200000001 / 2]) [0, 1, 2] [0]
        exTwinAttacker exCosts [] (2 * 10 ^ 16) 0 1 emptyOutputs =
      .ok (true, ⟨10 ^ 16, [0, 1], [2], 0, 0, 2, 0, 1 / 2, 10 ^ 16,
        [⟨[2, 2], 1, 0, true, 1 / 2, 'U'⟩], [⟨[2, 2], 1, 0, false, 1 / 2, 'U'⟩],
        [(1, 0), (0, 1)], [(2, 1)]⟩) ∧
    Binary64.sub (2 * 10 ^ 16) (10 ^ 16) = 2 * 10 ^ 16 - 10 ^ 16 ∧
    Binary64.sub 1 0 = 1 - 0 ∧ Binary64.sub 1 (1 / 2) = 1 - 1 / 2 ∧
    evaluateSplitDouble (exTwinDataset [1, 1, 200000001 / 2]) [0, 1] 0 = 2 ∧
    evaluateSplitDouble (exTwinDataset [1, 1, 200000001 / 2]) [2] (1 / 2) = 10 ^ 16 ∧
    Binary64.add 2 (10 ^ 16) = 10 ^ 16 + 2 ∧
    ¬ (evaluateSplitDouble (exTwinDataset [1, 1, 200000001 / 2]) [0, 1] 0 +
        evaluateSplitDouble (exTwinDataset [1, 1, 200000001 / 2]) [2] (1 / 2) = 10 ^ 16) ∧
    ¬ (Binary64.add (evaluateSplitDouble (exTwinDataset [1, 1, 200000001 / 2]) [0, 1] 0)
        (evaluateSplitDouble (exTwinDataset [1, 1, 200000001 / 2]) [2] (1 / 2)) = 10 ^ 16) := by
  refine ⟨?_, by decide!, by decide!, by decide!, by decide!, by decide!, by decide!,
    by decide!, by decide!, by decide!⟩
  intro d cons x0 code x f hn
  simp only [exEnvDouble, exSolverDouble] at hn
  split_ifs at hn
  cases hn
  rfl

/-- Counterexample to C15 as stated, in the arithmetic of `double`: three records with the
single value 7 on the feature 0 and the labels 0, 1, 3, of which the record 1 alone can be
moved to the right of `feature 0 <= 7`; no inherited constraint; `currentScore` is the sum
of the `(y_i - mean)^2` computed by `evaluateSplit` at the mean computed in `double`; the
solver stays at the point `(mean, mean)` and reports the objective computed by `f` there.
The two sums add the same three squares in two orders (0, 1, 3 and 0, 3, 1) and differ by
`2^-50` after rounding: the gain `currentScore - sse` (an exact subtraction in `double`, as
is the residual `1 - mean` of the unknown instance) is positive and `optimizeGain` returns
`true`. -/
theorem double_single_value_split_taken :
    (∀ j ∈ ([0] : indexes_t),
      ∃ u, ∀ x ∈ (exConstLabelsDataset [0, 1, 3]).getFeatureColumn j, x = u) ∧
    (∀ i ∈ ([0, 1, 2] : indexes_t), ∀ c, exCosts.lookup i = some c →
      ∃ atk ∈ exAddAttacker.attack ((exConstLabelsDataset [0, 1, 3]).getRecord i) 0 c,
        atk.1 = (exConstLabelsDataset [0, 1, 3]).getRecord i) ∧
    simulateSplit (exConstLabelsDataset [0, 1, 3]) [0, 1, 2] exAddAttacker exCosts 7 0 =
      .ok ([0, 2], [], [1]) ∧
    Binary64.div (Binary64.add (Binary64.add (Binary64.add 0 0) 1) 3) 3 = exMeanDouble ∧
    (∀ d cons x0 code x f, exEnvStayDouble.nlopt d cons x0 = some (code, x, f) →
      f = sseCostFunction.fDouble d.y_ d.leftIndexes_ d.rightIndexes_ d.unknownIndexes_ x) ∧
    evaluateSplitDouble (exConstLabelsDataset [0, 1, 3]) [0, 1, 2] exMeanDouble =
      5254199565265579 / 1125899906842624 ∧
    sseCostFunction.fDouble [0, 1, 3] [0, 2] [] [1] [exMeanDouble, exMeanDouble] =
      2627099782632789 / 562949953421312 ∧
    Binary64.sub (5254199565265579 / 1125899906842624) (2627099782632789 / 562949953421312) =
      1 / 2 ^ 50 ∧
    (5254199565265579 / 1125899906842624 - 2627099782632789 / 562949953421312 : ℚ) =
      1 / 2 ^ 50 ∧
    Binary64.sub 1 exMeanDouble = 1 - exMeanDouble ∧
    (optimizeGain exEnvStayDouble (exConstLabelsDataset [0, 1, 3]) [0, 1, 2] [0] exAddAttacker
        exCosts [] (evaluateSplitDouble (exConstLabelsDataset [0, 1, 3]) [0, 1, 2] exMeanDouble)
        exMeanDouble 1 emptyOutputs).map
      (fun r => (r.1, r.2.bestSplitFeatureId, r.2.bestSplitValue, r.2.bestGain)) =
      (.ok (true, 0, 7, 1 / 2 ^ 50) : Except Error (Bool × index_t × ℚ × ℚ)) := by
  refine ⟨fun j hj => ⟨7, by
      simp only [List.mem_singleton] at hj
      subst hj
      simp [exConstLabelsDataset]⟩, ?_, by decide!, by decide!, ?_,
    by decide!, by decide!, by decide!, by decide!, by decide!, by decide!⟩
  · intro i _ c _
    refine ⟨((exConstLabelsDataset [0, 1, 3]).getRecord i, 0), ?_, rfl⟩
    simp only [exAddAttacker]
    split_ifs <;> simp
  · intro d cons x0 code x f hn
    simp only [exEnvStayDouble, exSolverStayDouble, Option.some.injEq, Prod.mk.injEq] at hn
    obtain ⟨_, hx, hf⟩ := hn
    rw [← hf, ← hx]

namespace Binary64

/-! ## The rounding to `double` -/

theorem pow2_eq_zpow (e : Int) : pow2 e = (2 : ℚ) ^ e := by
  unfold pow2
  by_cases h : 0 ≤ e
  · rw [if_pos h]
    conv_rhs => rw [← Int.toNat_of_nonneg h]
    rw [zpow_natCast]
  · rw [if_neg h]
    have h2 : 0 ≤ -e := by omega
    have : e = -((-e).toNat : Int) := by rw [Int.toNat_of_nonneg h2]; ring
    conv_rhs => rw [this]
    rw [zpow_neg, zpow_natCast, one_div]

theorem pow2_pos (e : Int) : 0 < pow2 e := by
  rw [pow2_eq_zpow]
  positivity

theorem leadingBit_spec (fuel : Nat) :
    ∀ n, 1 ≤ n → n < 2 ^ fuel →
      2 ^ leadingBit fuel n ≤ n ∧ n < 2 ^ (leadingBit fuel n + 1) := by
  induction fuel with
  | zero =>
    intro n h1 h2
    simp at h2
    omega
  | succ fuel ih =>
    intro n h1 h2
    unfold leadingBit
    by_cases hn : n < 2
    · rw [if_pos hn]
      have : n = 1 := by omega
      subst this
      simp
    · rw [if_neg hn]
      have hhalf : n / 2 < 2 ^ fuel := by
        rw [Nat.div_lt_iff_lt_mul (by norm_num)]
        rw [pow_succ] at h2
        exact h2
      obtain ⟨i1, i2⟩ := ih (n / 2) (by omega) hhalf
      generalize leadingBit fuel (n / 2) = k at i1 i2 ⊢
      have e1 : 2 ^ (k + 1) = 2 * 2 ^ k := by ring
      have e2 : 2 ^ (k + 1 + 1) = 4 * 2 ^ k := by ring
      rw [e1] at i2
      rw [e1, e2]
      generalize 2 ^ k = p at i1 i2 ⊢
      omega

theorem leadingBit_self (n : Nat) (h : 1 ≤ n) :
    2 ^ leadingBit n n ≤ n ∧ n < 2 ^ (leadingBit n n + 1) :=
  leadingBit_spec n n h (Nat.lt_two_pow n)

/-- The exponent of a number that is not zero brackets it between two powers of two. -/
theorem exponent_spec (x : ℚ) (hx : x ≠ 0) :
    (2 : ℚ) ^ exponent x ≤ |x| ∧ |x| < (2 : ℚ) ^ (exponent x + 1) := by
  have hnum : 1 ≤ x.num.natAbs := by
    have : x.num ≠ 0 := Rat.num_ne_zero.mpr hx
    omega
  have hden : 1 ≤ x.den := x.den_pos
  obtain ⟨a1, a2⟩ := leadingBit_self _ hnum
  obtain ⟨b1, b2⟩ := leadingBit_self _ hden
  have habs : |x| = (x.num.natAbs : ℚ) / (x.den : ℚ) := by
    conv_lhs => rw [← Rat.num_div_den x]
    rw [abs_div, Nat.abs_cast]
    congr 1
    rw [Nat.cast_natAbs, Int.cast_abs]
  have hD : (0 : ℚ) < x.den := by exact_mod_cast hden
  have a1' : (2 : ℚ) ^ leadingBit x.num.natAbs x.num.natAbs ≤ x.num.natAbs := by exact_mod_cast a1
  have a2' : (x.num.natAbs : ℚ) < 2 ^ (leadingBit x.num.natAbs x.num.natAbs + 1) := by
    exact_mod_cast a2
  have b1' : (2 : ℚ) ^ leadingBit x.den x.den ≤ x.den := by exact_mod_cast b1
  have b2' : (x.den : ℚ) < 2 ^ (leadingBit x.den x.den + 1) := by exact_mod_cast b2
  have hexp : exponent x =
      if (2 : ℚ) ^ ((leadingBit x.num.natAbs x.num.natAbs : Int) - (leadingBit x.den x.den : Int))
          ≤ |x|
      then (leadingBit x.num.natAbs x.num.natAbs : Int) - (leadingBit x.den x.den : Int)
      else (leadingBit x.num.natAbs x.num.natAbs : Int) - (leadingBit x.den x.den : Int) - 1 := by
    simp only [exponent, pow2_eq_zpow]
  generalize leadingBit x.num.natAbs x.num.natAbs = a at a1' a2' hexp
  generalize leadingBit x.den x.den = b at b1' b2' hexp
  have h2 : (2 : ℚ) ≠ 0 := by norm_num
  have hup : |x| < (2 : ℚ) ^ ((a : Int) - b + 1) := by
    have e : (2 : ℚ) ^ ((a : Int) - b + 1) = (2 : ℚ) ^ (a + 1) / 2 ^ b := by
      rw [show (a : Int) - b + 1 = ((a + 1 : ℕ) : Int) - ((b : ℕ) : Int) by push_cast; ring,
        zpow_sub₀ h2, zpow_natCast, zpow_natCast]
    rw [e, habs, div_lt_div_iff₀ hD (by positivity)]
    calc (x.num.natAbs : ℚ) * 2 ^ b ≤ x.num.natAbs * x.den :=
          mul_le_mul_of_nonneg_left b1' (by positivity)
      _ < 2 ^ (a + 1) * x.den := mul_lt_mul_of_pos_right a2' hD
  have hlow : (2 : ℚ) ^ ((a : Int) - b - 1) ≤ |x| := by
    have e : (2 : ℚ) ^ ((a : Int) - b - 1) = (2 : ℚ) ^ a / 2 ^ (b + 1) := by
      rw [show (a : Int) - b - 1 = ((a : ℕ) : Int) - ((b + 1 : ℕ) : Int) by push_cast; ring,
        zpow_sub₀ h2, zpow_natCast, zpow_natCast]
    rw [e, habs, div_le_div_iff₀ (by positivity) hD]
    calc (2 : ℚ) ^ a * x.den ≤ x.num.natAbs * x.den :=
          mul_le_mul_of_nonneg_right a1' (le_of_lt hD)
      _ ≤ x.num.natAbs * 2 ^ (b + 1) :=
          mul_le_mul_of_nonneg_left (le_of_lt b2') (by positivity)
  rw [hexp]
  by_cases hk : (2 : ℚ) ^ ((a : Int) - b) ≤ |x|
  · rw [if_pos hk]
    exact ⟨hk, hup⟩
  · rw [if_neg hk]
    refine ⟨hlow, ?_⟩
    rw [show (a : Int) - b - 1 + 1 = (a : Int) - b by ring]
    exact not_le.mp hk

/-- The integer `nearestEven r` is at distance at most `1 / 2` of `r`. -/
theorem nearestEven_spec (r : ℚ) : |(nearestEven r : ℚ) - r| ≤ 1 / 2 := by
  have hfl : r.floor = ⌊r⌋ := rfl
  have h1 : ((⌊r⌋ : Int) : ℚ) ≤ r := Int.floor_le r
  have h2 : r < (⌊r⌋ : ℚ) + 1 := Int.lt_floor_add_one r
  unfold nearestEven
  simp only [hfl]
  rw [abs_le]
  split_ifs with c1 c2 c3
  · constructor <;> linarith
  · push_cast
    constructor <;> linarith
  · constructor <;> linarith
  · push_cast
    have : r - (⌊r⌋ : ℚ) = 1 / 2 := le_antisymm (not_lt.mp c2) (not_lt.mp c1)
    constructor <;> linarith

/-- The rounding of a number that is not zero is a multiple of the quantum of its exponent
(`2^-52` times the power of two below it, at least `2^-1074`), at distance at most half a
quantum. -/
theorem round_spec (x : ℚ) (hx : x ≠ 0) :
    ∃ m : Int, round x = m * pow2 (max (exponent x) (-1022) - 52) ∧
      |round x - x| ≤ pow2 (max (exponent x) (-1022) - 52) / 2 := by
  have hq := pow2_pos (max (exponent x) (-1022) - 52)
  refine ⟨nearestEven (x / pow2 (max (exponent x) (-1022) - 52)), ?_, ?_⟩
  · simp only [round, hx, if_false]
  · simp only [round, hx, if_false]
    have h := nearestEven_spec (x / pow2 (max (exponent x) (-1022) - 52))
    generalize pow2 (max (exponent x) (-1022) - 52) = q at hq h ⊢
    generalize (nearestEven (x / q) : ℚ) = m at h ⊢
    have e : m * q - x = (m - x / q) * q := by
      field_simp
    rw [e, abs_mul, abs_of_pos hq]
    calc |m - x / q| * q ≤ 1 / 2 * q := mul_le_mul_of_nonneg_right h (le_of_lt hq)
      _ = q / 2 := by ring

end Binary64

end TREANT
